import Mathlib

/-!
# Verification of the xi-editor collaborative-editing core

Shallow embedding of the three source files of the repository:

* `rust/rope/src/delta.rs`   — the `Delta` edit representation,
* `rust/rope/src/engine.rs`  — the revision `Engine`,
* `rust/core-lib/src/index_set.rs` — the auxiliary `IndexSet`.

Sequences ("ropes") are modelled as `List Char`; machine integers
(`usize`) are modelled as `Nat` (the code never relies on overflow).

The `Subset` type used by `delta.rs` and `engine.rs` lives in
`rust/rope/src/subset.rs`, which is not part of the sources; it is
modelled from the specification (§3, §4.1 of the spec): a `Subset` is
semantically "a boolean function over positions `[0, union_len)`
identifying which positions are deleted", which we represent as a
`List Bool` (the value of the function on an initial segment of the
positions; positions beyond the end of the list are not deleted).
Every definition whose doc comment starts with `Modelled from the
spec:` is such a reconstruction.
-/

set_option linter.unusedVariables false

namespace XiRope

/-- Ropes (the external persistent sequence collaborator) are lists of
characters. -/
abbrev Rope := List Char

/-- Modelled from the spec: a `Subset` (from the missing
`rust/rope/src/subset.rs`) is a boolean function over positions
`[0, union_len)` marking deleted positions; represented as a list of
booleans, `false` beyond the end of the list. -/
abbrev Subset := List Bool

/-- Number of deleted (true) positions of a subset. -/
def countTrue (s : List Bool) : Nat := s.count true

/-- Number of kept (false) positions recorded in the list. -/
def countFalse (s : List Bool) : Nat := s.count false

/-- The value of the boolean function represented by a subset at a
position: `false` (kept) beyond the end of the list. -/
def getB (s : List Bool) (p : Nat) : Bool := s.getD p false

/-- Pad a subset with kept positions up to logical length `L`. -/
def padTo (L : Nat) (s : List Bool) : List Bool :=
  s ++ List.replicate (L - s.length) false

/-- Keep the elements of `r` at the positions `s` marks kept (`false`);
positions beyond the end of `s` are kept.  This single combinator is
both `Subset::delete_from` (on sequences) and, with `α := Bool`,
`Subset::transform_shrink`. -/
def filterKept : List Bool → List α → List α
  | [], r => r
  | _, [] => []
  | true :: s, _ :: r => filterKept s r
  | false :: s, c :: r => c :: filterKept s r

/-- The elements of `r` at the positions `s` marks deleted (`true`). -/
def filterDel : List Bool → List α → List α
  | [], _ => []
  | _, [] => []
  | true :: s, c :: r => c :: filterDel s r
  | false :: s, _ :: r => filterDel s r

/-- Interleave a kept sequence and a deleted sequence according to a
subset: the conceptual "union string" of the spec's glossary ("text
concatenated with tombstones in interleaved positional order"). -/
def mergeParts : List Bool → List α → List α → List α
  | [], text, _ => text
  | false :: s, text, tomb => text.head?.toList ++ mergeParts s text.tail tomb
  | true :: s, text, tomb => tomb.head?.toList ++ mergeParts s text tomb.tail

namespace Subset

/-- `Subset::default()`: the empty subset (no position deleted). -/
def default : Subset := []

/-- Modelled from the spec: `is_empty()` — true iff no position is
marked deleted. -/
def is_empty (s : Subset) : Bool := s.all (fun b => !b)

/-- Modelled from the spec: `len_after_delete(union_len)` — number of
kept positions (`union_len − sum(deleted)`). -/
def len_after_delete (s : Subset) (union_len : Nat) : Nat :=
  union_len - countTrue s

/-- Modelled from the spec: `complement(union_len)` — flip the deleted
bit on every position of the logical length `union_len`. -/
def complement (s : Subset) (union_len : Nat) : Subset :=
  (padTo union_len s).map (fun b => !b)

/-- Modelled from the spec: `union(other)` — pointwise OR of the
deleted flags. -/
def union : Subset → Subset → Subset
  | s, [] => s
  | [], t => t
  | a :: s, b :: t => (a || b) :: union s t

/-- Modelled from the spec: `transform_expand(inserts)` — rebase `self`
into the larger universe described by `inserts` (the newly added
positions), marking the new positions as kept. -/
def transform_expand : Subset → Subset → Subset
  | s, [] => s
  | s, true :: ins => false :: transform_expand s ins
  | [], false :: ins => false :: transform_expand [] ins
  | a :: s, false :: ins => a :: transform_expand s ins

/-- Modelled from the spec: `transform_union(inserts)` — like
`transform_expand` but the newly inserted positions are marked
deleted. -/
def transform_union : Subset → Subset → Subset
  | s, [] => s
  | s, true :: ins => true :: transform_union s ins
  | [], false :: ins => false :: transform_union [] ins
  | a :: s, false :: ins => a :: transform_union s ins

/-- Modelled from the spec: `transform_shrink(deletes)` — the inverse of
`transform_expand`: remove the positions marked deleted by `deletes`
from the universe of `self`. -/
def transform_shrink (s : Subset) (deletes : Subset) : Subset :=
  filterKept deletes s

/-- Modelled from the spec: `delete_from(seq)` — the sequence with the
deleted positions removed. -/
def delete_from (s : Subset) (r : Rope) : Rope := filterKept s r

/-- Modelled from the spec: the `mapper()` cursor — translates a
position in the union coordinate space to a coordinate in the
subsequence of positions marked deleted (the cursor statefulness is an
amortisation detail; the translation itself is this function, used as
`m.doc_index_to_subset`). -/
def doc_index_to_subset (s : Subset) (i : Nat) : Nat :=
  countTrue (s.take i)

end Subset

/-- Maximal runs of kept (`false`) positions of a boolean list,
positions offset by `off`.  Used to model `complement_iter`. -/
def falseRuns : List Bool → Nat → List (Nat × Nat)
  | [], _ => []
  | true :: rest, off => falseRuns rest (off + 1)
  | false :: rest, off =>
    match falseRuns rest (off + 1) with
    | (s, e) :: tail =>
      if s = off + 1 then (off, e) :: tail else (off, off + 1) :: (s, e) :: tail
    | [] => [(off, off + 1)]

/-- Modelled from the spec: `complement_iter(union_len)` — the `[b, e)`
ranges of kept positions, in order. -/
def Subset.complement_iter (s : Subset) (union_len : Nat) : List (Nat × Nat) :=
  falseRuns (padTo union_len s) 0

/-! ## Delta (`rust/rope/src/delta.rs`)

`InsertDelta` is a transparent newtype over `Delta` in the source (with
a `Deref` impl); we model it as `Delta` itself together with
well-formedness predicates where a claim needs them. -/

inductive DeltaElement where
  | copy (b e : Nat)
  | insert (r : Rope)
  deriving DecidableEq, Repr

structure Delta where
  els : List DeltaElement
  base_len : Nat
  deriving DecidableEq, Repr

/-- What one element of a delta contributes to the new document
(`Delta::apply`, one arm of the loop). -/
def elemApply (base : Rope) : DeltaElement → Rope
  | .copy b e => (base.drop b).take (e - b)
  | .insert r => r

/-- `Delta::apply`: concatenate the copied subranges of the base and
the inserted sequences. -/
def Delta.apply (d : Delta) (base : Rope) : Rope :=
  (d.els.map (elemApply base)).flatten

/-- Length contributed by one delta element. -/
def DeltaElement.len : DeltaElement → Nat
  | .copy b e => e - b
  | .insert r => r.length

/-- `Delta::total_element_len`. -/
def totalElementLen (els : List DeltaElement) : Nat :=
  els.foldl (fun sum el => sum + el.len) 0

/-- `Delta::new_document_len`. -/
def Delta.new_document_len (d : Delta) : Nat := totalElementLen d.els

/-- `Delta::summary`: trim a leading `Copy(0, _)` and a trailing
`Copy(_, base_len)`; return the remaining dirty interval and the length
of the remaining elements. -/
def Delta.summary (d : Delta) : (Nat × Nat) × Nat :=
  let p1 : Nat × List DeltaElement :=
    match d.els with
    | .copy 0 e :: rest => (e, rest)
    | els => (0, els)
  let p2 : Nat × List DeltaElement :=
    match p1.2.getLast? with
    | some (.copy b e) =>
      if e = d.base_len then (b, p1.2.dropLast) else (d.base_len, p1.2)
    | _ => (d.base_len, p1.2)
  ((p1.1, p2.1), totalElementLen p2.2)

/-! ### Builder -/

structure Builder where
  delta : Delta
  last_offset : Nat
  deriving Repr

/-- `Builder::new`. -/
def Builder.new (base_len : Nat) : Builder := ⟨⟨[], base_len⟩, 0⟩

/-- `Builder::delete`.  `none` models the panic of the assertion
`start >= self.last_offset` ("intervals not properly sorted"). -/
def Builder.delete (bu : Builder) (interval : Nat × Nat) : Option Builder :=
  if interval.1 < bu.last_offset then none
  else some
    { delta := { bu.delta with
        els := bu.delta.els ++
          if interval.1 > bu.last_offset then [.copy bu.last_offset interval.1] else [] },
      last_offset := interval.2 }

/-- `Builder::replace`: a delete followed by an insert. -/
def Builder.replace (bu : Builder) (interval : Nat × Nat) (r : Rope) : Option Builder :=
  (bu.delete interval).map fun bu' =>
    { bu' with delta := { bu'.delta with els := bu'.delta.els ++ [.insert r] } }

/-- `Builder::is_empty`. -/
def Builder.is_empty (bu : Builder) : Bool :=
  bu.last_offset == 0 && bu.delta.els.isEmpty

/-- `Builder::build`: emit the final copy up to `base_len`. -/
def Builder.build (bu : Builder) : Delta :=
  if bu.last_offset < bu.delta.base_len then
    { bu.delta with els := bu.delta.els ++ [.copy bu.last_offset bu.delta.base_len] }
  else bu.delta

/-- `Delta::simple_edit`: replace when the rope is non-empty, else
delete.  `none` models the builder panic (it never fires here, since
the builder is fresh). -/
def Delta.simple_edit (interval : Nat × Nat) (r : Rope) (base_len : Nat) : Option Delta :=
  let bu := Builder.new base_len
  if r.length > 0 then (bu.replace interval r).map Builder.build
  else (bu.delete interval).map Builder.build

/-! ### factor / inserted_subset -/

/-- Modelled from the spec: `SubsetBuilder::add_range(beg, end)` adds
the deleted positions `[beg, end)`; undeleted gaps are filled with
kept positions. -/
def sbAddRange (cur : List Bool) (b e : Nat) : List Bool :=
  cur ++ List.replicate (b - cur.length) false ++ List.replicate (e - max b cur.length) true

/-- The loop of `Delta::factor`, with state `(b1, e1, ins, sb)`. -/
def factorGo : List DeltaElement → Nat → Nat → List DeltaElement → List Bool →
    List DeltaElement × List Bool × Nat × Nat
  | [], b1, e1, ins, sb => (ins, sb, b1, e1)
  | .copy b e :: rest, b1, e1, ins, sb => factorGo rest b1 e ins (sbAddRange sb e1 b)
  | .insert n :: rest, b1, e1, ins, sb =>
    factorGo rest e1 e1 (ins ++ (if e1 > b1 then [.copy b1 e1] else []) ++ [.insert n]) sb

/-- `Delta::factor`: the insert-only delta and the deletion subset. -/
def Delta.factor (d : Delta) : Delta × Subset :=
  let r := factorGo d.els 0 0 [] []
  (⟨r.1 ++ if r.2.2.1 < d.base_len then [.copy r.2.2.1 d.base_len] else [], d.base_len⟩,
   sbAddRange r.2.1 r.2.2.2 d.base_len)

/-- The loop of `InsertDelta::inserted_subset`. -/
def insertedSubsetGo : List DeltaElement → Nat → List Bool → List Bool
  | [], _, sb => sb
  | .copy b e :: rest, x, sb => insertedSubsetGo rest (x + (e - b)) sb
  | .insert n :: rest, x, sb =>
    insertedSubsetGo rest (x + n.length) (sbAddRange sb x (x + n.length))

/-- `InsertDelta::inserted_subset`. -/
def Delta.inserted_subset (d : Delta) : Subset := insertedSubsetGo d.els 0 []

/-! ### synthesize -/

/-- Push a `Copy` element, merging with a trailing contiguous `Copy`
(the `els.last_mut` merge in `Delta::synthesize`). -/
def pushCopy (els : List DeltaElement) (b e : Nat) : List DeltaElement :=
  match els.getLast? with
  | some (.copy lb le) =>
    if le = b then els.dropLast ++ [.copy lb e] else els ++ [.copy b e]
  | _ => els ++ [.copy b e]

/-- The skip loop of `Delta::synthesize`: drop old kept ranges that end
at or before `beg`, adding their lengths to `x`. -/
def skipOld : Nat → List (Nat × Nat) → Nat → Nat × List (Nat × Nat)
  | x, [], _ => (x, [])
  | x, (ib, ie) :: rest, beg =>
    if ie ≤ beg then skipOld (x + (ie - ib)) rest beg else (x, (ib, ie) :: rest)

/-- One segment (`while beg < e`) of the `Delta::synthesize` loop.  The
loop strictly advances `beg`, so fuel `e - beg` suffices; the top-level
call supplies exactly that. -/
def fillSeg (tomb : Rope) (tdels : Subset) :
    Nat → Nat → Nat → Nat → List (Nat × Nat) → List DeltaElement →
    Nat × List (Nat × Nat) × List DeltaElement
  | 0, _, _, x, rs, els => (x, rs, els)
  | fuel + 1, beg, e, x, rs, els =>
    if beg < e then
      let p := skipOld x rs beg
      match p.2 with
      | (ib, ie) :: rest =>
        if ib ≤ beg then
          let en := min e ie
          fillSeg tomb tdels fuel en e p.1 ((ib, ie) :: rest)
            (pushCopy els (beg + p.1 - ib) (en + p.1 - ib))
        else
          let en := min e ib
          fillSeg tomb tdels fuel en e p.1 ((ib, ie) :: rest)
            (els ++ [.insert ((tomb.drop (tdels.doc_index_to_subset beg)).take
              (tdels.doc_index_to_subset en - tdels.doc_index_to_subset beg))])
      | [] =>
        fillSeg tomb tdels fuel e e p.1 []
          (els ++ [.insert ((tomb.drop (tdels.doc_index_to_subset beg)).take
            (tdels.doc_index_to_subset e - tdels.doc_index_to_subset beg))])
    else (x, rs, els)

/-- The outer loop of `Delta::synthesize` over the segments of the new
text. -/
def synthLoop (tomb : Rope) (tdels : Subset) :
    List (Nat × Nat) → Nat → List (Nat × Nat) → List DeltaElement → List DeltaElement
  | [], _, _, els => els
  | (b, e) :: segs, x, rs, els =>
    let r := fillSeg tomb tdels (e - b) b e x rs els
    synthLoop tomb tdels segs r.1 r.2.1 r.2.2

/-- `Delta::synthesize` (the five-argument signature of `delta.rs`;
`engine.rs` calls the four-argument form of its era, which passes
`from_dels` for `tombstone_dels`). -/
def Delta.synthesize (tombstones : Rope) (tombstone_dels : Subset)
    (union_len : Nat) (from_dels to_dels : Subset) : Delta :=
  { els := synthLoop tombstones tombstone_dels
      (to_dels.complement_iter union_len) 0 (from_dels.complement_iter union_len) [],
    base_len := from_dels.len_after_delete union_len }

/-! ### transform_expand / transform_shrink on insert deltas -/

/-- The inner element loop of `InsertDelta::transform_expand`: consume
leading `Insert`s, then perform one `Copy` step (the `Copy` arm always
breaks). -/
def teInner (next_iv_beg : Nat) :
    List DeltaElement → Nat → Nat → Nat → List (Nat × Nat) → List DeltaElement →
    List DeltaElement × Nat × Nat × Nat × List (Nat × Nat) × List DeltaElement
  | [], x, y, b1, rs, out => ([], x, y, b1, rs, out)
  | .insert n :: rest, x, y, b1, rs, out =>
    teInner next_iv_beg rest x y y rs
      ((if y > b1 then out ++ [.copy b1 y] else out) ++ [.insert n])
  | .copy b e :: rest, x, y, b1, rs, out =>
    if next_iv_beg ≤ y then
      let ny := match rs with
        | (_, xe) :: _ => min (e + y - x) xe
        | [] => e + y - x
      let x1 := x + (ny - y)
      (if x1 = e then rest else .copy b e :: rest, x1, ny, b1,
       (match rs with
        | (xb, xe) :: rtail => if ny = xe then rtail else (xb, xe) :: rtail
        | [] => []),
       out)
    else (.copy b e :: rest, x, y, b1, rs, out)

/-- The outer loop of `InsertDelta::transform_expand`, with fuel (each
iteration advances `y`, the element cursor or the range cursor; the
top-level call supplies enough fuel for any valid input). -/
def teLoop (l : Nat) (after : Bool) :
    Nat → List DeltaElement → Nat → Nat → Nat → List (Nat × Nat) → List DeltaElement →
    Nat × Nat × List DeltaElement
  | 0, _, _, y, b1, _, out => (y, b1, out)
  | fuel + 1, els, x, y, b1, rs, out =>
    if y < l ∨ ¬ els.isEmpty then
      let next_iv_beg := match rs with
        | (xb, _) :: _ => xb
        | [] => l
      let y1 := if after ∧ y < next_iv_beg then next_iv_beg else y
      let r := teInner next_iv_beg els x y1 b1 rs out
      let y3 := if ¬ after ∧ r.2.2.1 < next_iv_beg then next_iv_beg else r.2.2.1
      teLoop l after fuel r.1 r.2.1 y3 r.2.2.2.1 r.2.2.2.2.1 r.2.2.2.2.2
    else (y, b1, out)

/-- `InsertDelta::transform_expand(xform, l, after)`. -/
def Delta.transform_expand (d : Delta) (xform : Subset) (l : Nat) (after : Bool) : Delta :=
  let rs := xform.complement_iter l
  let r := teLoop l after (l + 2 * d.els.length + rs.length + 2) d.els 0 0 0 rs []
  { els := if r.1 > r.2.1 then r.2.2 ++ [.copy r.2.1 r.1] else r.2.2,
    base_len := l }

/-- `InsertDelta::transform_shrink(xform)`: re-express copy
coordinates through the mapper of `xform.complement(base_len)`. -/
def Delta.transform_shrink (d : Delta) (xform : Subset) : Delta :=
  let compl := xform.complement d.base_len
  { els := d.els.map fun el => match el with
      | .copy b e => .copy (compl.doc_index_to_subset b) (compl.doc_index_to_subset e)
      | .insert n => .insert n,
    base_len := xform.len_after_delete d.base_len }

/-! ## Engine (`rust/rope/src/engine.rs`)

`engine.rs` calls `Delta::synthesize` with four arguments
`(tombstones, union_len, from_dels, to_dels)` — the signature of its
era, which is the five-argument `delta.rs` signature with
`tombstone_dels = from_dels`; every call below passes `from_dels`
twice accordingly. -/

inductive Contents where
  | edit (priority undo_group : Nat) (inserts deletes : Subset)
  | undo (groups : Finset Nat)
  deriving DecidableEq

structure Revision where
  rev_id : Nat
  deletes_from_union : Subset
  union_str_len : Nat
  edit : Contents
  deriving DecidableEq

structure Engine where
  rev_id_counter : Nat
  text : Rope
  tombstones : Rope
  revs : List Revision
  deriving DecidableEq

/-- The dummy revision used to totalise `revs.last().unwrap()` and
indexing; the engine's revision list is never empty and all indexing
is in bounds in any state the engine builds. -/
def dummyRev : Revision :=
  { rev_id := 0, deletes_from_union := [], union_str_len := 0, edit := .undo ∅ }

/-- `Engine::new`. -/
def Engine.new (initial_contents : Rope) : Engine :=
  { rev_id_counter := 1,
    text := initial_contents,
    tombstones := [],
    revs := [{ rev_id := 0, deletes_from_union := Subset.default,
               union_str_len := initial_contents.length,
               edit := .undo ∅ }] }

/-- `Engine::get_current_undo`: the groups of the most recent `Undo`
revision. -/
def Engine.get_current_undo (e : Engine) : Option (Finset Nat) :=
  e.revs.reverse.findSome? fun r =>
    match r.edit with
    | .undo groups => some groups
    | _ => none

/-- `Engine::find_rev`: the index of the most recent revision with the
given id. -/
def Engine.find_rev (e : Engine) (rev_id : Nat) : Option Nat :=
  match e.revs.reverse.findIdx? (fun r => r.rev_id == rev_id) with
  | some j => some (e.revs.length - 1 - j)
  | none => none

/-- `self.revs.last().unwrap()`. -/
def Engine.head_rev (e : Engine) : Revision := e.revs.getLast?.getD dummyRev

/-- The `transform_union` fold over the edits recorded after a
revision: the loop of `deletes_from_union_for_index`, which also
appears verbatim inside `delta_rev_head`. -/
def liftDFU (dfu : Subset) (later : List Revision) : Subset :=
  later.foldl (fun acc r =>
    match r.edit with
    | .edit _ _ inserts _ =>
      if inserts.is_empty then acc else acc.transform_union inserts
    | .undo _ => acc) dfu

/-- `Engine::deletes_from_union_for_index`. -/
def Engine.deletes_from_union_for_index (e : Engine) (rev_index : Nat) : Subset :=
  liftDFU ((e.revs.getD rev_index dummyRev).deletes_from_union)
    (e.revs.drop (rev_index + 1))

/-- `Engine::rev_content_for_index`. -/
def Engine.rev_content_for_index (e : Engine) (rev_index : Nat) : Rope :=
  let old_dfu := e.deletes_from_union_for_index rev_index
  let hr := e.head_rev
  (Delta.synthesize e.tombstones hr.deletes_from_union hr.union_str_len
    hr.deletes_from_union old_dfu).apply e.text

/-- `Engine::get_head_rev_id`. -/
def Engine.get_head_rev_id (e : Engine) : Nat := e.head_rev.rev_id

/-- `Engine::get_head`. -/
def Engine.get_head (e : Engine) : Rope := e.text

/-- `Engine::get_rev`. -/
def Engine.get_rev (e : Engine) (rev : Nat) : Option Rope :=
  (e.find_rev rev).map e.rev_content_for_index

/-- `Engine::shuffle_tombstones`. -/
def Engine.shuffle_tombstones (text tombstones : Rope)
    (old_deletes_from_union new_deletes_from_union : Subset) : Rope :=
  let union_len := text.length + tombstones.length
  let inverse_tombstones_map := old_deletes_from_union.complement union_len
  (Delta.synthesize text inverse_tombstones_map union_len inverse_tombstones_map
    (new_deletes_from_union.complement union_len)).apply tombstones

/-- `Engine::shuffle`. -/
def Engine.shuffle (text tombstones : Rope)
    (old_deletes_from_union new_deletes_from_union : Subset) : Rope × Rope :=
  let union_len := text.length + tombstones.length
  ((Delta.synthesize tombstones old_deletes_from_union union_len
      old_deletes_from_union new_deletes_from_union).apply text,
   Engine.shuffle_tombstones text tombstones old_deletes_from_union
     new_deletes_from_union)

/-- `Engine::delta_rev_head`; `none` models the panic on an unknown
`base_rev`. -/
def Engine.delta_rev_head (e : Engine) (base_rev : Nat) : Option Delta :=
  (e.find_rev base_rev).map fun ix =>
    let prev_from_union := liftDFU ((e.revs.getD ix dummyRev).deletes_from_union)
      (e.revs.drop (ix + 1))
    let hr := e.head_rev
    let old_tombstones := Engine.shuffle_tombstones e.text e.tombstones
      hr.deletes_from_union prev_from_union
    Delta.synthesize old_tombstones prev_from_union hr.union_str_len
      prev_from_union hr.deletes_from_union

/-- `Engine::mk_new_rev`; `none` models the panic on an unknown
`base_rev`. -/
def Engine.mk_new_rev (e : Engine) (new_priority undo_group base_rev : Nat)
    (delta : Delta) : Option (Revision × Rope × Rope) :=
  (e.find_rev base_rev).map fun ix =>
    let rev := e.revs.getD ix dummyRev
    let fd := delta.factor
    let union_ins_delta0 :=
      fd.1.transform_expand rev.deletes_from_union rev.union_str_len true
    let new_deletes0 := fd.2.transform_expand rev.deletes_from_union
    let stepped := (e.revs.drop (ix + 1)).foldl (fun (p : Delta × Subset) r =>
      match r.edit with
      | .edit priority _ inserts _ =>
        if inserts.is_empty then p
        else
          (p.1.transform_expand inserts r.union_str_len (decide (new_priority ≥ priority)),
           p.2.transform_expand inserts)
      | .undo _ => p) (union_ins_delta0, new_deletes0)
    let union_ins_delta := stepped.1
    let new_inserts := union_ins_delta.inserted_subset
    let new_deletes :=
      if new_inserts.is_empty then stepped.2 else stepped.2.transform_expand new_inserts
    let cur_deletes_from_union := e.head_rev.deletes_from_union
    let text_ins_delta := union_ins_delta.transform_shrink cur_deletes_from_union
    let text_with_inserts := text_ins_delta.apply e.text
    let rebased_deletes_from_union := cur_deletes_from_union.transform_expand new_inserts
    let undone := (e.get_current_undo).elim false (fun undos => undo_group ∈ undos)
    let new_deletes_from_union :=
      rebased_deletes_from_union.union (if undone then new_inserts else new_deletes)
    let nt := Engine.shuffle text_with_inserts e.tombstones
      rebased_deletes_from_union new_deletes_from_union
    ({ rev_id := e.rev_id_counter,
       deletes_from_union := new_deletes_from_union,
       union_str_len := union_ins_delta.new_document_len,
       edit := .edit new_priority undo_group new_inserts new_deletes },
     nt.1, nt.2)

/-- `Engine::edit_rev`; `none` models the panic on an unknown
`base_rev`. -/
def Engine.edit_rev (e : Engine) (priority undo_group base_rev : Nat)
    (delta : Delta) : Option Engine :=
  (e.mk_new_rev priority undo_group base_rev delta).map fun r =>
    { rev_id_counter := e.rev_id_counter + 1,
      text := r.2.1,
      tombstones := r.2.2,
      revs := e.revs ++ [r.1] }

/-- `Engine::compute_undo`. -/
def Engine.compute_undo (e : Engine) (groups : Finset Nat) : Revision :=
  let deletes_from_union := e.revs.foldl (fun acc r =>
    match r.edit with
    | .edit _ undo_group inserts deletes =>
      if undo_group ∈ groups then
        if inserts.is_empty then acc else acc.transform_union inserts
      else
        let acc1 := if inserts.is_empty then acc else acc.transform_expand inserts
        if deletes.is_empty then acc1 else acc1.union deletes
    | .undo _ => acc) Subset.default
  { rev_id := e.rev_id_counter,
    deletes_from_union := deletes_from_union,
    union_str_len := e.head_rev.union_str_len,
    edit := .undo groups }

/-- `Engine::undo`. -/
def Engine.undo (e : Engine) (groups : Finset Nat) : Engine :=
  let new_rev := e.compute_undo groups
  let nt := Engine.shuffle e.text e.tombstones
    e.head_rev.deletes_from_union new_rev.deletes_from_union
  { rev_id_counter := e.rev_id_counter + 1,
    text := nt.1,
    tombstones := nt.2,
    revs := e.revs ++ [new_rev] }

/-- `Engine::is_equivalent_revision`. -/
def Engine.is_equivalent_revision (e : Engine) (base_rev other_rev : Nat) : Bool :=
  let base_subset := (e.find_rev base_rev).map e.deletes_from_union_for_index
  let other_subset := (e.find_rev other_rev).map e.deletes_from_union_for_index
  base_subset.isSome && base_subset == other_subset

/-- `Engine::gc`. -/
def Engine.gc (e : Engine) (gc_groups : Finset Nat) : Engine :=
  let retain_revs : Finset Nat := match e.revs.getLast? with
    | some l => {l.rev_id}
    | none => ∅
  let cur_undo := e.get_current_undo
  -- first pass: accumulate `gc_dels`
  let gc_dels := e.revs.foldl (fun gc_dels r =>
    match r.edit with
    | .edit _ undo_group inserts deletes =>
      if r.rev_id ∉ retain_revs ∧ undo_group ∈ gc_groups then
        if cur_undo.elim false (fun undos => undo_group ∈ undos) then
          if inserts.is_empty then gc_dels else gc_dels.transform_union inserts
        else
          let g1 := if inserts.is_empty then gc_dels else gc_dels.transform_expand inserts
          if deletes.is_empty then g1 else g1.union deletes
      else if ¬ inserts.is_empty then gc_dels.transform_expand inserts
      else gc_dels
    | .undo _ => gc_dels) Subset.default
  -- shrink the tombstones
  let tombstones1 :=
    if ¬ gc_dels.is_empty then
      let hr := e.head_rev
      let not_in_tombstones := hr.deletes_from_union.complement hr.union_str_len
      (gc_dels.transform_shrink not_in_tombstones).delete_from e.tombstones
    else e.tombstones
  -- second pass: rebuild the revisions in reverse order
  let rebuilt := e.revs.reverse.foldl (fun (p : List Revision × Subset) rev =>
    let gc_dels := p.2
    match rev.edit with
    | .edit priority undo_group inserts deletes =>
      let new_gc_dels :=
        if inserts.is_empty then none else some (inserts.transform_shrink gc_dels)
      let revs1 :=
        if rev.rev_id ∈ retain_revs ∨ undo_group ∉ gc_groups then
          let q :=
            if gc_dels.is_empty then
              (inserts, deletes, rev.deletes_from_union, rev.union_str_len)
            else
              (gc_dels.transform_shrink inserts,
               gc_dels.transform_shrink deletes,
               gc_dels.transform_shrink rev.deletes_from_union,
               gc_dels.len_after_delete rev.union_str_len)
          p.1 ++ [{ rev_id := rev.rev_id, deletes_from_union := q.2.2.1,
                    union_str_len := q.2.2.2,
                    edit := .edit priority undo_group q.1 q.2.1 }]
        else p.1
      (revs1, new_gc_dels.getD gc_dels)
    | .undo groups =>
      if rev.rev_id ∈ retain_revs then
        let q :=
          if gc_dels.is_empty then
            (rev.deletes_from_union, rev.union_str_len)
          else
            (gc_dels.transform_shrink rev.deletes_from_union,
             gc_dels.len_after_delete rev.union_str_len)
        (p.1 ++ [{ rev_id := rev.rev_id, deletes_from_union := q.1,
                   union_str_len := q.2,
                   edit := .undo (groups \ gc_groups) }], gc_dels)
      else (p.1, gc_dels)) ([], gc_dels)
  { rev_id_counter := e.rev_id_counter,
    text := e.text,
    tombstones := tombstones1,
    revs := rebuilt.1.reverse }

/-! ## IndexSet (`rust/core-lib/src/index_set.rs`) -/

structure IndexSet where
  ranges : List (Nat × Nat)
  deriving DecidableEq, Repr

/-- `IndexSet::new`. -/
def IndexSet.new : IndexSet := ⟨[]⟩

/-- `IndexSet::clear`. -/
def IndexSet.clear (_s : IndexSet) : IndexSet := ⟨[]⟩

/-- The `j`-scan of `union_one_range`'s merge arm: consume following
ranges while `end >= ranges[j + 1].0`; returns `max(end, ranges[j].1)`
and the suffix that remains after `remove_n_at`. -/
def unionMergeEnd (e : Nat) : Nat → List (Nat × Nat) → Nat × List (Nat × Nat)
  | cur, [] => (max e cur, [])
  | cur, (ns, ne) :: tail =>
    if e ≥ ns then unionMergeEnd e ne tail else (max e cur, (ns, ne) :: tail)

/-- The loop of `IndexSet::union_one_range`. -/
def unionLoop (start e : Nat) : List (Nat × Nat) → List (Nat × Nat)
  | [] => [(start, e)]
  | (istart, iend) :: rest =>
    if start > iend then (istart, iend) :: unionLoop start e rest
    else if e < istart then (start, e) :: (istart, iend) :: rest
    else
      let m := unionMergeEnd e iend rest
      (min start istart, m.1) :: m.2

/-- `IndexSet::union_one_range`. -/
def IndexSet.union_one_range (s : IndexSet) (start e : Nat) : IndexSet :=
  ⟨unionLoop start e s.ranges⟩

/-- `MinusIter::next`, unrolled into the full list of yielded ranges. -/
def minusList (start e : Nat) : List (Nat × Nat) → List (Nat × Nat)
  | [] => if start < e then [(start, e)] else []
  | (rs, re) :: rest =>
    if start < e then
      if e ≤ rs then [(start, e)]
      else if rs > start then (start, rs) :: minusList re e rest
      else minusList re e rest
    else []

/-- `IndexSet::minus_one_range` (the construction of `MinusIter`
followed by collecting the iterator). -/
def IndexSet.minus_one_range (s : IndexSet) (start e : Nat) : List (Nat × Nat) :=
  minusList start e (s.ranges.dropWhile (fun r => r.2 ≤ start))

/-- The canonical form of an `IndexSet` (spec §6: sorted,
non-overlapping `[b, e)` ranges). -/
def IndexSet.WF (s : IndexSet) : Prop :=
  (∀ r ∈ s.ranges, r.1 ≤ r.2) ∧ s.ranges.Chain' (fun r r' => r.2 ≤ r'.1)

/-- A record of one builder call, for reasoning about call sequences. -/
inductive BuildOp where
  | del (iv : Nat × Nat)
  | rep (iv : Nat × Nat) (r : Rope)

/-- The interval supplied by a builder call. -/
def BuildOp.iv : BuildOp → Nat × Nat
  | .del iv => iv
  | .rep iv _ => iv

/-- Run a sequence of builder calls; `none` as soon as one panics. -/
def runOps (bu : Builder) : List BuildOp → Option Builder
  | [] => some bu
  | .del iv :: ops => bu.delete iv >>= fun b => runOps b ops
  | .rep iv r :: ops => bu.replace iv r >>= fun b => runOps b ops

/-! ## Well-formedness predicates and semantic helpers -/

/-- `applyEls els s` is the contribution of a list of delta elements to
`Delta::apply` (so `d.apply s = applyEls d.els s`). -/
def applyEls (els : List DeltaElement) (s : Rope) : Rope :=
  (els.map (elemApply s)).flatten

/-- The `Delta` data-model invariant of spec §3, relative to a lower
bound for the next copy start: copy ranges `lo ≤ b ≤ e` in increasing
order, ending no later than `L`. -/
def ElsWF : Nat → List DeltaElement → Nat → Prop
  | lo, [], L => lo ≤ L
  | lo, .copy b e :: rest, L => lo ≤ b ∧ b ≤ e ∧ ElsWF e rest L
  | lo, .insert _ :: rest, L => ElsWF lo rest L

/-- The `Delta` invariant (spec §3): copy ranges in increasing order
within `[0, base_len]`. -/
def Delta.WF (d : Delta) : Prop := ElsWF 0 d.els d.base_len

/-- Kept-rank: the number of kept (false) positions before `p`. -/
def rankF (s : List Bool) (p : Nat) : Nat := countFalse (s.take p)

/-- All copies of a delta-element list have `b ≤ e` (invariant carried
through the `synthesize` loop for the copy-merging step). -/
def ElsCopiesLE (els : List DeltaElement) : Prop :=
  ∀ b e : Nat, DeltaElement.copy b e ∈ els → b ≤ e

/-- The accounting mark of the run cursor: the reached position `w`,
capped by the start of the head run (a run may stay partially
consumed). -/
def rsMark (rs : List (Nat × Nat)) (w : Nat) : Nat :=
  match rs with
  | [] => w
  | (b, _) :: _ => min w b

/-- Loop-invariant state for the range cursors of `Delta::synthesize`:
`rs` is the still-unconsumed suffix of the kept runs of `l`, `x` the
number of kept positions already accounted, `w` the position the loop
has reached. -/
def RunsState (l : List Bool) (x : Nat) (rs : List (Nat × Nat)) (w : Nat) : Prop :=
  (∀ r ∈ rs, r.1 < r.2 ∧ r.2 ≤ l.length ∧
      (∀ p, r.1 ≤ p → p < r.2 → getB l p = false)) ∧
    rs.Chain' (fun r r' => r.2 ≤ r'.1) ∧
    (∀ p, rsMark rs w ≤ p → p < l.length → getB l p = false →
      ∃ r ∈ rs, r.1 ≤ p ∧ p < r.2) ∧
    x = rankF l (rsMark rs w)

/-! ## Engine state predicates -/

/-- The engine union-string invariant (the spec's glossary defines the
union string as text and tombstones interleaved by
`head.deletes_from_union`): the recorded `union_str_len` is the total
length, and `text`/`tombstones` are exactly the kept/deleted parts of
the interleaving. -/
def Engine.InvUnion (e : Engine) : Prop :=
  let F := padTo e.head_rev.union_str_len e.head_rev.deletes_from_union
  let u := mergeParts F e.text e.tombstones
  e.text.length + e.tombstones.length = e.head_rev.union_str_len ∧
    e.text = filterKept F u ∧ e.tombstones = filterDel F u

instance (e : Engine) : Decidable (Engine.InvUnion e) := by
  unfold Engine.InvUnion
  infer_instance

/-! ## Structural predicates for insert-delta elements -/

/-- Copy ranges of an insert-only delta tile the base exactly: each
copy starts where the previous one ended, from `lo` up to `L`. -/
def ElsTiling : Nat → List DeltaElement → Nat → Prop
  | lo, [], L => lo = L
  | lo, .copy b e :: rest, L => b = lo ∧ lo ≤ e ∧ ElsTiling e rest L
  | lo, .insert _ :: rest, L => ElsTiling lo rest L

/-- The weakening of `ElsTiling` maintained through the partially
consumed head copy of the `transform_expand` loop (the loop reads only
the end of each copy). -/
def CTile : Nat → List DeltaElement → Nat → Prop
  | x, [], L => x = L
  | x, .copy _ e :: rest, L => x ≤ e ∧ CTile e rest L
  | x, .insert _ :: rest, L => CTile x rest L

/-- The inserted sequences of a delta, in order. -/
def insList : List DeltaElement → List Rope
  | [] => []
  | .copy _ _ :: rest => insList rest
  | .insert n :: rest => n :: insList rest

/-- Total length of the inserted sequences. -/
def insTotal (els : List DeltaElement) : Nat :=
  ((insList els).map List.length).sum

/-- The next range start of the `transform_expand` loop (`next_iv_beg`:
the head range's start, or `l` when the ranges are exhausted). -/
def rsNib (rs : List (Nat × Nat)) (l : Nat) : Nat :=
  match rs with
  | (xb, _) :: _ => xb
  | [] => l

/-- Loop invariant of `InsertDelta::transform_expand`: the range cursor
satisfies the `synthesize` cursor invariant, `x` is the kept-rank of
`y`, the head range is not yet passed, the remaining elements continue
a tiling of the old universe, and the output tiles `[0, b1)`. -/
def TEInv (F : List Bool) (els : List DeltaElement) (x y b1 : Nat)
    (rs : List (Nat × Nat)) (out : List DeltaElement) : Prop :=
  RunsState F (rankF F (rsMark rs y)) rs y ∧
    x = rankF F y ∧
    (∀ r ∈ rs.head?, y < r.2) ∧
    y ≤ F.length ∧
    CTile x els (countFalse F) ∧
    b1 ≤ y ∧
    ElsTiling 0 out b1

/-- The inserted-position marks of an insert-delta, without the
trailing-kept trimming of `inserted_subset`. -/
def insMarks : List DeltaElement → List Bool
  | [] => []
  | .copy b e :: rest => List.replicate (e - b) false ++ insMarks rest
  | .insert n :: rest => List.replicate n.length true ++ insMarks rest

/-- The deletion marks produced by `factor` from cursor `e1` to the
end of the base. -/
def delMarks : List DeltaElement → Nat → Nat → List Bool
  | [], e1, L => List.replicate (L - e1) true
  | .copy b e :: rest, e1, L =>
    List.replicate (b - e1) true ++ List.replicate (e - b) false ++ delMarks rest e L
  | .insert _ :: rest, e1, L => delMarks rest e1 L

/-- Selection semantics of an insert-delta against a deletion subset:
each copy keeps the kept part of its slice, each insert its text;
`del` and `s` are consumed as suffixes. -/
def selApply : List DeltaElement → Subset → Rope → Rope
  | [], _, _ => []
  | .copy b e :: rest, del, s =>
    filterKept (del.take (e - b)) (s.take (e - b))
      ++ selApply rest (del.drop (e - b)) (s.drop (e - b))
  | .insert n :: rest, del, s => n ++ selApply rest del s

/-- Total length copied by a list of delta elements. -/
def copiesTotal : List DeltaElement → Nat
  | [] => 0
  | .copy b e :: rest => (e - b) + copiesTotal rest
  | .insert _ :: rest => copiesTotal rest

/-- Engine states built by `edit_rev` and `undo` calls from
`Engine::new`.  An `edit_rev` call carries the contract of its
arguments: the delta satisfies the `Delta` data-model invariant and is
built against the base revision's document (its `base_len` is the
number of characters that revision keeps of its union string). -/
inductive Reachable : Engine → Prop where
  | base (s : Rope) : Reachable (Engine.new s)
  | edit (e e' : Engine) (p g b ix : Nat) (d : Delta)
      (he : Reachable e)
      (hix : e.find_rev b = some ix)
      (hwf : Delta.WF d)
      (hbase : d.base_len = Subset.len_after_delete
        ((e.revs.getD ix dummyRev).deletes_from_union)
        ((e.revs.getD ix dummyRev).union_str_len))
      (hstep : e.edit_rev p g b d = some e') : Reachable e'
  | undo (e : Engine) (G : Finset Nat) (he : Reachable e) : Reachable (e.undo G)

/-! Concrete engine states used to probe `gc` (two inserts; two
deletes). -/

def probeA0 : Engine := Engine.new "hello".toList

def probeA1 : Engine :=
  (probeA0.edit_rev 1 0 0 ⟨[.insert "A".toList, .copy 0 5], 5⟩).getD probeA0

def probeA2 : Engine :=
  (probeA1.edit_rev 1 1 1 ⟨[.insert "B".toList, .copy 0 6], 6⟩).getD probeA1

def probeB0 : Engine := Engine.new "abcdefgh".toList

def probeB1 : Engine :=
  (probeB0.edit_rev 1 0 0 ⟨[.copy 3 8], 8⟩).getD probeB0

def probeB2 : Engine :=
  (probeB1.edit_rev 2 1 1 ⟨[.copy 0 3], 5⟩).getD probeB1

/-! ## History length invariants -/

/-- Length discipline of one revision relative to its predecessor
union length `P`: the stored subsets live in the revision's union
universe, and an edit grows the union by exactly its insert count. -/
def StepOK (P : Nat) (r : Revision) : Prop :=
  r.deletes_from_union.length ≤ r.union_str_len ∧
    match r.edit with
    | .edit _ _ inserts deletes =>
      inserts.length ≤ r.union_str_len ∧ deletes.length ≤ r.union_str_len ∧
        r.union_str_len = P + countTrue inserts
    | .undo _ => r.union_str_len = P

/-- The chained discipline along a revision list. -/
def RevsOK : Nat → List Revision → Prop
  | _, [] => True
  | P, r :: rest => StepOK P r ∧ RevsOK r.union_str_len rest

/-- Length discipline of the initial revision (it has no
predecessor). -/
def Rev0OK (r : Revision) : Prop :=
  r.deletes_from_union.length ≤ r.union_str_len ∧
    match r.edit with
    | .edit _ _ inserts deletes =>
      inserts.length ≤ r.union_str_len ∧ deletes.length ≤ r.union_str_len
    | .undo _ => True

/-- The union length at the end of a revision list, `P` when empty. -/
def lastLen (revs : List Revision) (P : Nat) : Nat :=
  match revs.getLast? with
  | some r => r.union_str_len
  | none => P

/-- The engine history invariant. -/
def Engine.Hist (e : Engine) : Prop :=
  match e.revs with
  | [] => False
  | r0 :: rest => Rev0OK r0 ∧ RevsOK r0.union_str_len rest

/-- The engine state invariant: the history length discipline plus the
union-string length facts of the materialised `text`/`tombstones`
split. -/
def Engine.GoodState (e : Engine) : Prop :=
  e.Hist ∧
    e.text.length + e.tombstones.length = e.head_rev.union_str_len ∧
    e.head_rev.deletes_from_union.length ≤ e.head_rev.union_str_len ∧
    countTrue e.head_rev.deletes_from_union = e.tombstones.length

/-! ## IndexSet lemmas (claims C7 and C10) -/

theorem wfLB : ∀ (tl : List (Nat × Nat)) (m : Nat),
    (∀ r ∈ tl, r.1 ≤ r.2) →
    tl.Chain' (fun r r' => r.2 ≤ r'.1) →
    (∀ b ∈ tl.head?, m ≤ b.1) →
    ∀ r ∈ tl, m ≤ r.2
  | [], _, _, _, _, r, hr => absurd hr (List.not_mem_nil r)
  | a :: l, m, wf1, wf2, hhd, r, hr => by
    rw [List.chain'_cons'] at wf2
    have ha2 : m ≤ a.2 :=
      le_trans (hhd a (by simp)) (wf1 a (List.mem_cons_self a l))
    rcases List.mem_cons.mp hr with h | h
    · exact h ▸ ha2
    · exact le_trans ha2
        (wfLB l a.2 (fun r hr => wf1 r (List.mem_cons_of_mem _ hr)) wf2.2 wf2.1 r h)

/-- `minusList` yields only non-empty in-bound ranges in strictly
increasing disjoint order. -/
theorem minusList_sound : ∀ (ranges : List (Nat × Nat)) (start e : Nat),
    (∀ r ∈ ranges, r.1 ≤ r.2) →
    ranges.Chain' (fun r r' => r.2 ≤ r'.1) →
    (∀ r ∈ ranges, start ≤ r.2) →
    (∀ p ∈ minusList start e ranges, start ≤ p.1 ∧ p.1 < p.2 ∧ p.2 ≤ e) ∧
      (minusList start e ranges).Chain' (fun p q => p.2 ≤ q.1)
  | [], start, e, _, _, _ => by
    simp only [minusList]
    split
    · refine ⟨fun p hp => ?_, by simp⟩
      rcases List.mem_singleton.mp hp with rfl
      exact ⟨le_refl _, by assumption, le_refl _⟩
    · simp
  | (rs, re) :: rest, start, e, wf1, wf2, pre => by
    rw [List.chain'_cons'] at wf2
    have hresre : rs ≤ re := wf1 (rs, re) (List.mem_cons_self _ _)
    have wf1' : ∀ r ∈ rest, r.1 ≤ r.2 := fun r hr => wf1 r (List.mem_cons_of_mem _ hr)
    have pre' : ∀ r ∈ rest, re ≤ r.2 := wfLB rest re wf1' wf2.2 wf2.1
    have ih := minusList_sound rest re e wf1' wf2.2 pre'
    have hstre : start ≤ re := pre (rs, re) (List.mem_cons_self _ _)
    simp only [minusList]
    split
    · rename_i hse
      split
      · rename_i hers
        refine ⟨fun p hp => ?_, by simp⟩
        rcases List.mem_singleton.mp hp with rfl
        exact ⟨le_refl _, hse, le_refl _⟩
      · rename_i hers
        split
        · rename_i hrsst
          constructor
          · intro p hp
            rcases List.mem_cons.mp hp with rfl | hp
            · exact ⟨le_refl _, hrsst, le_of_not_le hers⟩
            · have := (ih.1 p hp)
              exact ⟨le_trans (le_of_lt hrsst) (le_trans hresre this.1), this.2.1, this.2.2⟩
          · refine List.chain'_cons'.mpr ⟨fun q hq => ?_, ih.2⟩
            have hqm : q ∈ minusList re e rest := List.mem_of_mem_head? hq
            exact le_trans hresre (ih.1 q hqm).1
        · rename_i hrsst
          refine ⟨fun p hp => ?_, ih.2⟩
          have := ih.1 p hp
          exact ⟨le_trans hstre this.1, this.2.1, this.2.2⟩
    · simp

/-- A zero-width query yields nothing, from any range list. -/
theorem minusList_zero (start : Nat) : ∀ ranges, minusList start start ranges = []
  | [] => by simp [minusList]
  | (rs, re) :: rest => by simp [minusList]

/-- The head of `dropWhile p l` does not satisfy `p`. -/
theorem head_dropWhile_not (p : α → Bool) :
    ∀ (l : List α), ∀ b ∈ (l.dropWhile p).head?, ¬ p b
  | [], b, hb => by simp [List.dropWhile] at hb
  | a :: l, b, hb => by
    rw [List.dropWhile_cons] at hb
    split at hb
    · exact head_dropWhile_not p l b hb
    · rename_i h
      simp only [List.head?_cons, Option.mem_def, Option.some.injEq] at hb
      exact hb ▸ h

/-- The suffix kept by `minus_one_range`'s initial skip still satisfies
the preconditions of `minusList_sound`. -/
theorem dropWhile_pre (start : Nat) (l : List (Nat × Nat))
    (wf1 : ∀ r ∈ l, r.1 ≤ r.2)
    (wf2 : l.Chain' (fun r r' => r.2 ≤ r'.1)) :
    ∀ r ∈ l.dropWhile (fun r => r.2 ≤ start), start ≤ r.2 := by
  intro r hr
  set dw := l.dropWhile (fun r => r.2 ≤ start) with hdw
  have hsub : dw.Sublist l := List.dropWhile_sublist _
  have hsuffix : dw.IsSuffix l := List.dropWhile_suffix _
  have wf1' : ∀ r ∈ dw, r.1 ≤ r.2 := fun r hr => wf1 r (hsub.mem hr)
  have wf2' : dw.Chain' (fun r r' => r.2 ≤ r'.1) := wf2.suffix hsuffix
  match hm : dw with
  | [] => rw [hm] at hr; cases hr
  | h :: t =>
    have hh : start < h.2 := by
      have := head_dropWhile_not (fun r => r.2 ≤ start) l h (by rw [← hdw, hm]; simp)
      simpa using this
    rw [hm] at wf1' wf2' hr
    rw [List.chain'_cons'] at wf2'
    rcases List.mem_cons.mp hr with rfl | hr
    · exact le_of_lt hh
    · exact le_trans (le_of_lt hh)
        (wfLB t h.2 (fun r hrr => wf1' r (List.mem_cons_of_mem _ hrr)) wf2'.2 wf2'.1 r hr)

/-- C7 (counterexample): `union_one_range` does merge exactly-adjacent
ranges.  Inserting `(3,4)` and then `(4,5)` (sharing only the boundary
point `4`) into the empty set produces the single range `(3,5)`, not
the two separate ranges the claim asserts. -/
theorem C7_counterexample :
    ((IndexSet.new.union_one_range 3 4).union_one_range 4 5).ranges = [(3, 5)] ∧
      ((IndexSet.new.union_one_range 3 4).union_one_range 4 5).ranges ≠ [(3, 4), (4, 5)] := by
  decide

/-- C7 (amended): `union_one_range` merges overlapping *and*
exactly-adjacent ranges: after inserting `(a,b)` and then `(b,c)`
(`a < b < c`, sharing only the boundary point `b`) into an empty
`IndexSet`, the set contains the single merged range `(a,c)`. -/
theorem C7_adjacent_ranges_merge (a b c : Nat) (hab : a < b) (hbc : b < c) :
    ((IndexSet.new.union_one_range a b).union_one_range b c).ranges = [(a, c)] := by
  have h1 : ¬ b > b := by omega
  have h2 : ¬ c < a := by omega
  simp only [IndexSet.new, IndexSet.union_one_range, unionLoop, unionMergeEnd,
    if_neg h1, if_neg h2]
  rw [Nat.min_eq_right (le_of_lt hab), Nat.max_eq_left (le_of_lt hbc)]

/-- C7 (witness for the amended claim at `a = 3`, `b = 4`, `c = 5`). -/
theorem C7_adjacent_ranges_merge_witness :
    ((IndexSet.new.union_one_range 3 4).union_one_range 4 5).ranges = [(3, 5)] :=
  C7_adjacent_ranges_merge 3 4 5 (by decide) (by decide)

/-- C10: on a canonical `IndexSet` and query bounds `start ≤ end`,
every range yielded by `minus_one_range` is non-empty and lies within
the query, successive yielded ranges are disjoint and strictly
increasing, and a zero-width query yields nothing. -/
theorem C10_minus_one_range_sound (s : IndexSet) (start e : Nat)
    (hwf : s.WF) (hse : start ≤ e) :
    (∀ p ∈ s.minus_one_range start e, start ≤ p.1 ∧ p.1 < p.2 ∧ p.2 ≤ e) ∧
      (s.minus_one_range start e).Chain' (fun p q => p.2 ≤ q.1) ∧
      s.minus_one_range start start = [] := by
  obtain ⟨wf1, wf2⟩ := hwf
  set dw := s.ranges.dropWhile (fun r => r.2 ≤ start) with hdw
  have hsub : dw.Sublist s.ranges := List.dropWhile_sublist _
  have hsuffix : dw.IsSuffix s.ranges := List.dropWhile_suffix _
  have wf1' : ∀ r ∈ dw, r.1 ≤ r.2 := fun r hr => wf1 r (hsub.mem hr)
  have wf2' : dw.Chain' (fun r r' => r.2 ≤ r'.1) := wf2.suffix hsuffix
  have pre := dropWhile_pre start s.ranges wf1 wf2
  have hs := minusList_sound dw start e wf1' wf2' pre
  exact ⟨hs.1, hs.2, minusList_zero start dw⟩

/-- C10 (witness): the set `{[3,5), [7,9)}` queried on `[0, 10)`. -/
theorem C10_minus_one_range_sound_witness :
    (∀ p ∈ (IndexSet.mk [(3, 5), (7, 9)]).minus_one_range 0 10,
        0 ≤ p.1 ∧ p.1 < p.2 ∧ p.2 ≤ 10) ∧
      ((IndexSet.mk [(3, 5), (7, 9)]).minus_one_range 0 10).Chain'
        (fun p q => p.2 ≤ q.1) ∧
      (IndexSet.mk [(3, 5), (7, 9)]).minus_one_range 0 0 = [] :=
  C10_minus_one_range_sound (IndexSet.mk [(3, 5), (7, 9)]) 0 10
    (by constructor <;> simp) (by omega)

/-! ## Builder claim (C8) -/

/-- The builder's panic discipline over a whole call sequence: the run
succeeds iff the supplied intervals are sorted (`iv.start` at least
the end of the previously supplied interval; the virtual previous end
for the first call is the fresh builder's `last_offset`). -/
theorem runOps_isSome (ops : List BuildOp) : ∀ (bu : Builder),
    (runOps bu ops).isSome = true ↔
      List.Chain' (fun i j => i.2 ≤ j.1) ((0, bu.last_offset) :: ops.map BuildOp.iv) := by
  induction ops with
  | nil => intro bu; simp [runOps]
  | cons op ops ih =>
    intro bu
    have hstep : ∀ (iv : Nat × Nat) (bu' : Builder), bu'.last_offset = iv.2 →
        ((runOps bu' ops).isSome = true ↔
          List.Chain' (fun i j => i.2 ≤ j.1) ((0, bu.last_offset) :: iv :: ops.map BuildOp.iv)) →
        True := fun _ _ _ _ => trivial
    cases op with
    | del iv =>
      by_cases h : iv.1 < bu.last_offset
      · have hd : bu.delete iv = none := by simp [Builder.delete, h]
        simp only [runOps, hd, List.map_cons, BuildOp.iv]
        rw [List.chain'_cons]
        simp only [Option.none_bind, Option.isSome_none]
        constructor
        · intro hfalse; cases hfalse
        · intro hc; omega
      · have hd : bu.delete iv = some
            ⟨⟨bu.delta.els ++ (if iv.1 > bu.last_offset then [.copy bu.last_offset iv.1] else []),
              bu.delta.base_len⟩, iv.2⟩ := by
          simp [Builder.delete, h]
        simp only [runOps, hd, Option.bind_eq_bind, Option.some_bind, List.map_cons, BuildOp.iv]
        rw [ih]
        rw [List.chain'_cons', List.chain'_cons', List.chain'_cons']
        simp only [List.head?_cons, Option.mem_def, Option.some.injEq, forall_eq']
        constructor
        · rintro ⟨h1, h2⟩; exact ⟨by omega, h1, h2⟩
        · rintro ⟨_, h1, h2⟩; exact ⟨h1, h2⟩
    | rep iv r =>
      by_cases h : iv.1 < bu.last_offset
      · have hd : bu.replace iv r = none := by simp [Builder.replace, Builder.delete, h]
        simp only [runOps, hd, List.map_cons, BuildOp.iv]
        rw [List.chain'_cons]
        simp only [Option.none_bind, Option.isSome_none]
        constructor
        · intro hfalse; cases hfalse
        · intro hc; omega
      · have hd : bu.replace iv r = some
            ⟨⟨(bu.delta.els ++ (if iv.1 > bu.last_offset then [.copy bu.last_offset iv.1] else []))
                ++ [.insert r],
              bu.delta.base_len⟩, iv.2⟩ := by
          simp [Builder.replace, Builder.delete, h]
        simp only [runOps, hd, Option.bind_eq_bind, Option.some_bind, List.map_cons, BuildOp.iv]
        rw [ih]
        rw [List.chain'_cons', List.chain'_cons', List.chain'_cons']
        simp only [List.head?_cons, Option.mem_def, Option.some.injEq, forall_eq']
        constructor
        · rintro ⟨h1, h2⟩; exact ⟨by omega, h1, h2⟩
        · rintro ⟨_, h1, h2⟩; exact ⟨h1, h2⟩

/-- C8: a sequence of `delete`/`replace` calls on a fresh builder
succeeds (no call panics, and `build()` then returns a `Delta`) if and
only if each interval's start is at least the end of the previously
supplied interval (there is no constraint on the first interval).  A
single failing call is the `none` of `runOps`, which occurs exactly
when its interval start undercuts the previous interval's end. -/
theorem C8_builder_sorted (base_len : Nat) (ops : List BuildOp) :
    (∃ bu : Builder, runOps (Builder.new base_len) ops = some bu ∧
        ∃ d : Delta, (Builder.build bu) = d) ↔
      List.Chain' (fun i j => i.2 ≤ j.1) (ops.map BuildOp.iv) := by
  have h := runOps_isSome ops (Builder.new base_len)
  have hnew : (Builder.new base_len).last_offset = 0 := rfl
  rw [hnew] at h
  constructor
  · rintro ⟨bu, hbu, -⟩
    have : (runOps (Builder.new base_len) ops).isSome = true := by rw [hbu]; rfl
    have hc := h.mp this
    rw [List.chain'_cons'] at hc
    exact hc.2
  · intro hc
    have hc' : List.Chain' (fun i j => i.2 ≤ j.1) ((0, 0) :: ops.map BuildOp.iv) := by
      rw [List.chain'_cons']
      exact ⟨fun y _ => Nat.zero_le _, hc⟩
    have := h.mpr hc'
    rcases Option.isSome_iff_exists.mp this with ⟨bu, hbu⟩
    exact ⟨bu, hbu, ⟨Builder.build bu, rfl⟩⟩

/-! ## Missing-revision queries (C9) -/

/-- `find_rev` misses exactly when no revision carries the id. -/
theorem find_rev_eq_none (e : Engine) (r : Nat)
    (h : ∀ rev ∈ e.revs, rev.rev_id ≠ r) : e.find_rev r = none := by
  unfold Engine.find_rev
  have hnone : e.revs.reverse.findIdx? (fun rev => rev.rev_id == r) = none := by
    rw [List.findIdx?_eq_none_iff]
    intro x hx
    simp only [beq_eq_false_iff_ne, ne_eq]
    exact h x (List.mem_reverse.mp hx)
  rw [hnone]

/-- C9: queries for a revision id that is not in the history return an
absent result rather than failing: `get_rev` returns `none`, and
`is_equivalent_revision` returns `false` when either argument is
missing.  (Both queries are pure functions of the engine — `&self` in
the source — so they leave the engine state unchanged by
construction.) -/
theorem C9_missing_revision_queries (e : Engine) (r a b : Nat)
    (hr : ∀ rev ∈ e.revs, rev.rev_id ≠ r)
    (hab : (∀ rev ∈ e.revs, rev.rev_id ≠ a) ∨ (∀ rev ∈ e.revs, rev.rev_id ≠ b)) :
    e.get_rev r = none ∧ e.is_equivalent_revision a b = false := by
  constructor
  · unfold Engine.get_rev
    rw [find_rev_eq_none e r hr]
    rfl
  · unfold Engine.is_equivalent_revision
    rcases hab with ha | hb
    · rw [find_rev_eq_none e a ha]
      rfl
    · rw [find_rev_eq_none e b hb]
      cases hfa : e.find_rev a <;> rfl

/-- C9 (witness): a one-revision engine queried at the absent id 7. -/
theorem C9_missing_revision_queries_witness :
    (Engine.new ['a']).get_rev 7 = none ∧
      (Engine.new ['a']).is_equivalent_revision 7 0 = false :=
  C9_missing_revision_queries (Engine.new ['a']) 7 7 0 (by decide) (Or.inl (by decide))

/-! ## Delta apply / summary lemmas (claim C6) -/

theorem applyEls_cons (el : DeltaElement) (els : List DeltaElement) (s : Rope) :
    applyEls (el :: els) s = elemApply s el ++ applyEls els s := by
  simp [applyEls]

theorem applyEls_append (els1 els2 : List DeltaElement) (s : Rope) :
    applyEls (els1 ++ els2) s = applyEls els1 s ++ applyEls els2 s := by
  simp [applyEls]

theorem apply_eq_applyEls (d : Delta) (s : Rope) : d.apply s = applyEls d.els s := rfl

theorem totalElementLen_go (els : List DeltaElement) :
    ∀ a, els.foldl (fun sum el => sum + el.len) a = a + (els.map DeltaElement.len).sum := by
  induction els with
  | nil => simp
  | cons el els ih =>
    intro a
    simp only [List.foldl_cons, ih, List.map_cons, List.sum_cons]
    omega

theorem totalElementLen_eq (els : List DeltaElement) :
    totalElementLen els = (els.map DeltaElement.len).sum := by
  simpa [totalElementLen] using totalElementLen_go els 0

theorem totalElementLen_append (l1 l2 : List DeltaElement) :
    totalElementLen (l1 ++ l2) = totalElementLen l1 + totalElementLen l2 := by
  simp [totalElementLen_eq]

theorem elswf_le : ∀ (els : List DeltaElement) {lo L : Nat}, ElsWF lo els L → lo ≤ L
  | [], _, _, h => h
  | .copy _ _ :: rest, _, _, h => le_trans h.1 (le_trans h.2.1 (elswf_le rest h.2.2))
  | .insert _ :: rest, _, _, h => elswf_le rest h

theorem applyEls_length (els : List DeltaElement) : ∀ {lo L : Nat} (s : Rope),
    ElsWF lo els L → L ≤ s.length → (applyEls els s).length = totalElementLen els := by
  induction els with
  | nil => intro lo L s h hL; simp [applyEls, totalElementLen]
  | cons el rest ih =>
    intro lo L s h hL
    cases el with
    | copy b e =>
      have he : e ≤ L := elswf_le rest h.2.2
      have hb : b ≤ e := h.2.1
      have hih : (applyEls rest s).length = totalElementLen rest := ih s h.2.2 hL
      rw [applyEls_cons, List.length_append, hih, totalElementLen_eq,
        totalElementLen_eq, List.map_cons, List.sum_cons, ← totalElementLen_eq]
      simp only [elemApply, List.length_take, List.length_drop, DeltaElement.len]
      omega
    | insert r =>
      have hih : (applyEls rest s).length = totalElementLen rest := ih s h hL
      rw [applyEls_cons, List.length_append, hih, totalElementLen_eq,
        totalElementLen_eq, List.map_cons, List.sum_cons, ← totalElementLen_eq]
      simp [elemApply, DeltaElement.len]

theorem elswf_concat_copy : ∀ (els : List DeltaElement) {lo b e L : Nat},
    ElsWF lo (els ++ [.copy b e]) L → ElsWF lo els b ∧ b ≤ e
  | [], _, _, _, _, h => ⟨h.1, h.2.1⟩
  | .copy _ _ :: rest, _, _, _, _, h =>
    ⟨⟨h.1, h.2.1, (elswf_concat_copy rest h.2.2).1⟩, (elswf_concat_copy rest h.2.2).2⟩
  | .insert _ :: rest, _, _, _, _, h =>
    ⟨(elswf_concat_copy rest h).1, (elswf_concat_copy rest h).2⟩

/-- What `simple_edit` builds, applied: replace `[a, b)` by `rope`. -/
theorem simple_edit_spec (a b : Nat) (rope : Rope) (L : Nat) (s : Rope)
    (hs : s.length = L) :
    ∃ ed, Delta.simple_edit (a, b) rope L = some ed ∧
      ed.apply s = s.take a ++ rope ++ s.drop b := by
  have hse : Delta.simple_edit (a, b) rope L = some (Builder.build
      ⟨⟨(if 0 < a then [DeltaElement.copy 0 a] else []) ++
          (if 0 < rope.length then [DeltaElement.insert rope] else []), L⟩, b⟩) := by
    by_cases hr : rope.length > 0 <;>
      simp [Delta.simple_edit, hr, Builder.replace, Builder.delete, Builder.new,
        Nat.pos_iff_ne_zero]
  refine ⟨_, hse, ?_⟩
  have hA : applyEls (if 0 < a then [DeltaElement.copy 0 a] else []) s = s.take a := by
    by_cases ha : 0 < a
    · simp [ha, applyEls, elemApply]
    · have h0 : a = 0 := by omega
      simp [h0, applyEls]
  have hB : applyEls (if 0 < rope.length then [DeltaElement.insert rope] else []) s
      = rope := by
    by_cases hr : 0 < rope.length
    · simp [hr, applyEls, elemApply]
    · have h0 : rope = [] := List.length_eq_zero.mp (by omega)
      simp [h0, applyEls]
  by_cases hbL : b < L
  · have hdropb : (s.drop b).take (L - b) = s.drop b :=
      List.take_of_length_le (by simp [hs])
    simp only [Builder.build, hbL, if_true, apply_eq_applyEls]
    rw [applyEls_append, applyEls_append, hA, hB]
    simp [applyEls, elemApply, hdropb]
  · have hdropb : s.drop b = [] := List.drop_eq_nil_of_le (by omega)
    simp only [Builder.build, hbL, if_false, apply_eq_applyEls]
    rw [applyEls_append, hA, hB]
    simp [hdropb]

/-- Core of C6: when the applied delta splits as untouched prefix,
replaced middle of known length, untouched suffix, the summary-driven
`simple_edit` reproduces it. -/
theorem summary_core (ivs ive L2 : Nat) (mid s A : Rope)
    (hA : A = s.take ivs ++ mid ++ s.drop ive)
    (hmid : mid.length = L2) (hivs : ivs ≤ s.length) :
    ∃ ed, Delta.simple_edit (ivs, ive) ((A.drop ivs).take L2) s.length = some ed ∧
      ed.apply s = A := by
  have hsub : (A.drop ivs).take L2 = mid := by
    subst hA
    rw [List.append_assoc, List.drop_left' (by simp [hivs]),
      ← hmid, List.take_left]
  obtain ⟨ed, h1, h2⟩ := simple_edit_spec ivs ive ((A.drop ivs).take L2) s.length s rfl
  exact ⟨ed, h1, by rw [h2, hsub, hA]⟩

theorem getLast?_split : ∀ (l : List α) (a : α), l.getLast? = some a → l = l.dropLast ++ [a]
  | [], a, h => by cases h
  | [x], a, h => by
    simp only [List.getLast?_singleton, Option.some.injEq] at h
    simp [h]
  | x :: y :: t, a, h => by
    rw [List.getLast?_cons_cons] at h
    have ih := getLast?_split (y :: t) a h
    calc x :: y :: t = x :: ((y :: t).dropLast ++ [a]) := by rw [← ih]
      _ = (x :: y :: t).dropLast ++ [a] := by simp

/-- The last-element trim of `summary`, as a reusable step. -/
theorem summary_snd (els1 : List DeltaElement) (ivs L ive : Nat)
    (els2 : List DeltaElement) (s : Rope)
    (hwf1 : ElsWF ivs els1 L) (hs : s.length = L)
    (hmatch : (match els1.getLast? with
       | some (.copy b e) => if e = L then (b, els1.dropLast) else (L, els1)
       | _ => (L, els1)) = (ive, els2))
    (A : Rope) (hA : A = s.take ivs ++ applyEls els1 s) :
    ∃ ed, Delta.simple_edit (ivs, ive) ((A.drop ivs).take (totalElementLen els2)) s.length
        = some ed ∧ ed.apply s = A := by
  have hivs : ivs ≤ s.length := hs ▸ elswf_le els1 hwf1
  have hdropL : s.drop L = [] := List.drop_eq_nil_of_le (by omega)
  have htriv : A = s.take ivs ++ applyEls els1 s ++ s.drop L := by
    rw [hdropL, List.append_nil, hA]
  have hfull : (applyEls els1 s).length = totalElementLen els1 :=
    applyEls_length els1 s hwf1 (by omega)
  cases hl : els1.getLast? with
  | none =>
    rw [hl] at hmatch
    obtain ⟨rfl, rfl⟩ : L = ive ∧ els1 = els2 := by
      constructor <;> injection hmatch with h1 h2
    exact summary_core ivs L (totalElementLen els1) (applyEls els1 s) s A htriv hfull hivs
  | some el =>
    cases el with
    | insert r =>
      rw [hl] at hmatch
      obtain ⟨rfl, rfl⟩ : L = ive ∧ els1 = els2 := by
        constructor <;> injection hmatch with h1 h2
      exact summary_core ivs L (totalElementLen els1) (applyEls els1 s) s A htriv hfull hivs
    | copy b' e' =>
      rw [hl] at hmatch
      have hmatch2 : (if e' = L then (b', els1.dropLast) else (L, els1)) = (ive, els2) :=
        hmatch
      clear hmatch
      by_cases he : e' = L
      · rw [if_pos he] at hmatch2
        obtain ⟨rfl, rfl⟩ : b' = ive ∧ els1.dropLast = els2 := by
          constructor <;> injection hmatch2 with h1 h2
        have hsplit : els1 = els1.dropLast ++ [.copy b' e'] :=
          getLast?_split els1 _ hl
        have hwf2 : ElsWF ivs els1.dropLast b' ∧ b' ≤ e' :=
          elswf_concat_copy els1.dropLast (hsplit ▸ hwf1)
        have hb'len : b' ≤ s.length := by
          have := elswf_le els1.dropLast hwf2.1  -- ivs ≤ b'; need b' ≤ L
          omega
        have happ : applyEls els1 s
            = applyEls els1.dropLast s ++ ((s.drop b').take (e' - b')) := by
          conv_lhs => rw [hsplit]
          rw [applyEls_append]
          simp [applyEls, elemApply]
        have hdropb' : (s.drop b').take (e' - b') = s.drop b' := by
          apply List.take_of_length_le
          simp [hs, he]
        have hA2 : A = s.take ivs ++ applyEls els1.dropLast s ++ s.drop b' := by
          rw [hA, happ, hdropb', List.append_assoc]
        have hmidlen : (applyEls els1.dropLast s).length = totalElementLen els1.dropLast :=
          applyEls_length els1.dropLast s hwf2.1 hb'len
        exact summary_core ivs b' (totalElementLen els1.dropLast)
          (applyEls els1.dropLast s) s A hA2 hmidlen hivs
      · rw [if_neg he] at hmatch2
        obtain ⟨rfl, rfl⟩ : L = ive ∧ els1 = els2 := by
          constructor <;> injection hmatch2 with h1 h2
        exact summary_core ivs L (totalElementLen els1) (applyEls els1 s) s A htriv hfull hivs

/-- C6: with `(iv, L) = d.summary()`, the single-interval edit
`simple_edit(iv, d.apply(s).subrange(iv.start, iv.start + L), |s|)`
applied to `s` equals `d.apply(s)` — so everything outside `iv` is
unchanged (outside `iv`, the rebuilt delta only copies `s`). -/
theorem C6_summary_consistency (d : Delta) (s : Rope) (hwf : d.WF)
    (hs : s.length = d.base_len) :
    ∃ ed, Delta.simple_edit (d.summary.1.1, d.summary.1.2)
        (((d.apply s).drop d.summary.1.1).take d.summary.2) s.length = some ed ∧
      ed.apply s = d.apply s := by
  obtain ⟨els, L⟩ := d
  simp only [Delta.WF] at hwf
  rcases els with - | ⟨el, rest⟩
  · exact summary_snd [] 0 L _ _ s hwf hs Prod.mk.eta.symm _ (by simp [Delta.apply, applyEls])
  · rcases el with ⟨b, e⟩ | r
    · rcases b with - | b
      · refine summary_snd rest e L _ _ s hwf.2.2 hs Prod.mk.eta.symm _ ?_
        rw [apply_eq_applyEls, applyEls_cons]
        simp [elemApply]
      · refine summary_snd (DeltaElement.copy (b + 1) e :: rest) 0 L _ _ s hwf hs
          Prod.mk.eta.symm _ (by simp [apply_eq_applyEls])
    · exact summary_snd (DeltaElement.insert r :: rest) 0 L _ _ s hwf hs
        Prod.mk.eta.symm _ (by simp [apply_eq_applyEls])

/-- C6 (witness): the `simple` test delta on `"hello world"`. -/
theorem C6_summary_consistency_witness :
    ∃ ed, Delta.simple_edit
        ((Delta.mk [.copy 0 1, .insert "era".data, .copy 9 11] 11).summary.1.1,
         (Delta.mk [.copy 0 1, .insert "era".data, .copy 9 11] 11).summary.1.2)
        ((((Delta.mk [.copy 0 1, .insert "era".data, .copy 9 11] 11).apply
            "hello world".data).drop
          (Delta.mk [.copy 0 1, .insert "era".data, .copy 9 11] 11).summary.1.1).take
          (Delta.mk [.copy 0 1, .insert "era".data, .copy 9 11] 11).summary.2)
        "hello world".data.length = some ed ∧
      ed.apply "hello world".data
        = (Delta.mk [.copy 0 1, .insert "era".data, .copy 9 11] 11).apply
            "hello world".data :=
  C6_summary_consistency (Delta.mk [.copy 0 1, .insert "era".data, .copy 9 11] 11)
    "hello world".data (by simp [Delta.WF, ElsWF]) (by decide)

/-! ## List-level lemmas on counts and selections -/

theorem countTrue_cons (b : Bool) (l : List Bool) :
    countTrue (b :: l) = countTrue l + (if b then 1 else 0) := by
  cases b <;> simp [countTrue, List.count_cons]

theorem countFalse_cons (b : Bool) (l : List Bool) :
    countFalse (b :: l) = countFalse l + (if b then 0 else 1) := by
  cases b <;> simp [countFalse, List.count_cons]

theorem countTrue_append (l1 l2 : List Bool) :
    countTrue (l1 ++ l2) = countTrue l1 + countTrue l2 := by
  simp [countTrue, List.count_append]

theorem countFalse_append (l1 l2 : List Bool) :
    countFalse (l1 ++ l2) = countFalse l1 + countFalse l2 := by
  simp [countFalse, List.count_append]

theorem countTrue_add_countFalse (l : List Bool) :
    countTrue l + countFalse l = l.length := by
  induction l with
  | nil => rfl
  | cons b t ih => rw [countTrue_cons, countFalse_cons]; cases b <;> simp <;> omega

theorem countTrue_replicate_false (n : Nat) :
    countTrue (List.replicate n false) = 0 := by
  simp [countTrue, List.count_replicate]

theorem countFalse_replicate_false (n : Nat) :
    countFalse (List.replicate n false) = n := by
  simp [countFalse]

theorem countTrue_padTo (L : Nat) (l : List Bool) :
    countTrue (padTo L l) = countTrue l := by
  simp [padTo, countTrue_append, countTrue_replicate_false]

theorem countFalse_padTo (L : Nat) (l : List Bool) (h : l.length ≤ L) :
    countFalse (padTo L l) = L - countTrue l := by
  rw [padTo, countFalse_append, countFalse_replicate_false]
  have := countTrue_add_countFalse l
  omega

theorem padTo_length (L : Nat) (l : List Bool) (h : l.length ≤ L) :
    (padTo L l).length = L := by
  simp [padTo]
  omega

theorem getD_append_left' (l1 l2 : List α) (d : α) (p : Nat) (h : p < l1.length) :
    (l1 ++ l2).getD p d = l1.getD p d := by
  unfold List.getD
  rw [List.get?_append h]

theorem getD_append_right' (l1 l2 : List α) (d : α) (p : Nat) (h : l1.length ≤ p) :
    (l1 ++ l2).getD p d = l2.getD (p - l1.length) d := by
  unfold List.getD
  rw [List.get?_append_right h]

theorem getD_replicate_self (a : α) : ∀ (n p : Nat), (List.replicate n a).getD p a = a
  | 0, _ => rfl
  | n + 1, 0 => rfl
  | n + 1, p + 1 => getD_replicate_self a n p

theorem getB_padTo (L : Nat) (l : List Bool) (p : Nat) :
    getB (padTo L l) p = getB l p := by
  unfold getB padTo
  by_cases h : p < l.length
  · rw [getD_append_left' _ _ _ _ h]
  · rw [getD_append_right' _ _ _ _ (by omega)]
    rw [getD_replicate_self]
    rw [List.getD_eq_default _ _ (by omega)]

theorem countTrue_take_padTo (L : Nat) (l : List Bool) (i : Nat) :
    countTrue ((padTo L l).take i) = countTrue (l.take i) := by
  unfold padTo
  rw [List.take_append_eq_append_take, countTrue_append, List.take_replicate]
  simp [countTrue, List.count_replicate]


/-! ## Selection lemmas: `filterKept`, `filterDel` -/

theorem filterKept_nil_left (u : List α) : filterKept [] u = u := by
  cases u <;> rfl

theorem filterDel_nil_left (u : List α) : filterDel [] u = ([] : List α) := by
  cases u <;> rfl

theorem filterDel_nil : ∀ (f : List Bool), filterDel f ([] : List α) = []
  | [] => rfl
  | true :: _ => rfl
  | false :: _ => rfl

theorem filterKept_nil : ∀ (f : List Bool), filterKept f ([] : List α) = []
  | [] => rfl
  | true :: _ => rfl
  | false :: _ => rfl

theorem filterKept_length : ∀ (f : List Bool) (u : List α), f.length = u.length →
    (filterKept f u).length = countFalse f
  | [], [], _ => rfl
  | [], _ :: _, h => by cases h
  | _ :: _, [], h => by cases h
  | true :: f, c :: u, h => by
    have ih := filterKept_length f u (by simpa using h)
    rw [show filterKept (true :: f) (c :: u) = filterKept f u from rfl, ih,
      countFalse_cons]
    simp
  | false :: f, c :: u, h => by
    have ih := filterKept_length f u (by simpa using h)
    rw [show filterKept (false :: f) (c :: u) = c :: filterKept f u from rfl,
      List.length_cons, ih, countFalse_cons]
    simp

theorem filterDel_length : ∀ (f : List Bool) (u : List α), f.length ≤ u.length →
    (filterDel f u).length = countTrue f
  | [], u, _ => by simp [filterDel_nil_left, countTrue]
  | _ :: _, [], h => by simp at h
  | true :: f, c :: u, h => by
    have ih := filterDel_length f u (by simpa using h)
    rw [show filterDel (true :: f) (c :: u) = c :: filterDel f u from rfl,
      List.length_cons, ih, countTrue_cons]
    simp
  | false :: f, c :: u, h => by
    have ih := filterDel_length f u (by simpa using h)
    rw [show filterDel (false :: f) (c :: u) = filterDel f u from rfl, ih,
      countTrue_cons]
    simp

theorem filterDel_drop : ∀ (a : Nat) (f : List Bool) (u : List α),
    (filterDel f u).drop (countTrue (f.take a)) = filterDel (f.drop a) (u.drop a)
  | 0, f, u => by simp [countTrue]
  | a + 1, [], u => by simp [filterDel_nil_left, countTrue]
  | a + 1, b :: f, [] => by
    simp [filterDel_nil]
  | a + 1, true :: f, c :: u => by
    have ih := filterDel_drop a f u
    rw [show filterDel (true :: f) (c :: u) = c :: filterDel f u from rfl,
      List.take_succ_cons, countTrue_cons, List.drop_succ_cons, List.drop_succ_cons]
    simpa using ih
  | a + 1, false :: f, c :: u => by
    have ih := filterDel_drop a f u
    rw [show filterDel (false :: f) (c :: u) = filterDel f u from rfl,
      List.take_succ_cons, countTrue_cons, List.drop_succ_cons, List.drop_succ_cons]
    simpa using ih

theorem filterKept_drop : ∀ (a : Nat) (f : List Bool) (u : List α),
    f.length = u.length →
    (filterKept f u).drop (countFalse (f.take a)) = filterKept (f.drop a) (u.drop a)
  | 0, f, u, _ => by simp [countFalse]
  | a + 1, [], u, h => by
    have : u = [] := by simpa using h.symm
    simp [this, filterKept_nil, countFalse]
  | a + 1, _ :: _, [], h => by cases h
  | a + 1, true :: f, c :: u, h => by
    have ih := filterKept_drop a f u (by simpa using h)
    rw [show filterKept (true :: f) (c :: u) = filterKept f u from rfl,
      List.take_succ_cons, countFalse_cons, List.drop_succ_cons, List.drop_succ_cons]
    simpa using ih
  | a + 1, false :: f, c :: u, h => by
    have ih := filterKept_drop a f u (by simpa using h)
    rw [show filterKept (false :: f) (c :: u) = c :: filterKept f u from rfl,
      List.take_succ_cons, countFalse_cons, List.drop_succ_cons, List.drop_succ_cons]
    have hc : countFalse (f.take a) + (if false = true then 0 else 1)
        = countFalse (f.take a) + 1 := by simp
    rw [hc, List.drop_succ_cons]
    exact ih

theorem filterDel_take_all_true : ∀ (n : Nat) (f : List Bool) (u : List α),
    (∀ p, p < n → getB f p = true) → n ≤ u.length →
    (filterDel f u).take (countTrue (f.take n)) = u.take n
  | 0, f, u, _, _ => by simp [countTrue]
  | n + 1, [], u, hall, hn => by
    have := hall 0 (by omega)
    simp [getB] at this
  | n + 1, _ :: _, [], hall, hn => by simp at hn
  | n + 1, true :: f, c :: u, hall, hn => by
    have ih := filterDel_take_all_true n f u (fun p hp => hall (p + 1) (by omega))
      (by simpa using hn)
    rw [show filterDel (true :: f) (c :: u) = c :: filterDel f u from rfl,
      List.take_succ_cons, countTrue_cons, List.take_succ_cons]
    have hc : countTrue (f.take n) + (if true = true then 1 else 0)
        = countTrue (f.take n) + 1 := by simp
    rw [hc, List.take_succ_cons, ih]
  | n + 1, false :: f, c :: u, hall, hn => by
    have := hall 0 (by omega)
    simp [getB] at this

theorem filterKept_take_all_false : ∀ (n : Nat) (f : List Bool) (u : List α),
    (∀ p, p < n → getB f p = false) → n ≤ u.length → n ≤ f.length →
    (filterKept f u).take (countFalse (f.take n)) = u.take n
  | 0, f, u, _, _, _ => by simp [countFalse]
  | n + 1, [], u, hall, hn, hf => by simp at hf
  | n + 1, _ :: _, [], hall, hn, hf => by simp at hn
  | n + 1, false :: f, c :: u, hall, hn, hf => by
    have ih := filterKept_take_all_false n f u (fun p hp => hall (p + 1) (by omega))
      (by simpa using hn) (by simpa using hf)
    rw [show filterKept (false :: f) (c :: u) = c :: filterKept f u from rfl,
      List.take_succ_cons, countFalse_cons, List.take_succ_cons]
    have hc : countFalse (f.take n) + (if false = true then 0 else 1)
        = countFalse (f.take n) + 1 := by simp
    rw [hc, List.take_succ_cons, ih]
  | n + 1, true :: f, c :: u, hall, hn, hf => by
    have := hall 0 (by omega)
    simp [getB] at this

/-! ## Segment counting and slice lemmas -/

theorem getB_eq_getElem (l : List Bool) (p : Nat) (h : p < l.length) :
    getB l p = l[p] := by
  unfold getB
  exact List.getD_eq_getElem l false h

theorem getB_drop (l : List Bool) (a p : Nat) : getB (l.drop a) p = getB l (a + p) := by
  unfold getB List.getD
  rw [List.get?_drop]

theorem getB_default (l : List Bool) (p : Nat) (h : l.length ≤ p) : getB l p = false :=
  List.getD_eq_default l false h

theorem countTrue_take_add (l : List Bool) (a d : Nat) :
    countTrue (l.take (a + d)) = countTrue (l.take a) + countTrue ((l.drop a).take d) := by
  rw [List.take_add, countTrue_append]

theorem countFalse_take_add (l : List Bool) (a d : Nat) :
    countFalse (l.take (a + d)) = countFalse (l.take a) + countFalse ((l.drop a).take d) := by
  rw [List.take_add, countFalse_append]

theorem countFalse_take_segment (l : List Bool) (a b : Nat) (hab : a ≤ b)
    (hb : b ≤ l.length) (h : ∀ p, a ≤ p → p < b → getB l p = false) :
    countFalse (l.take b) = countFalse (l.take a) + (b - a) := by
  have key := countFalse_take_add l a (b - a)
  rw [show a + (b - a) = b from by omega] at key
  rw [key]
  have hgoal : countFalse ((l.drop a).take (b - a)) = b - a := ?_
  · omega
  have hlen : ((l.drop a).take (b - a)).length = b - a := by
    simp
    omega
  rw [show countFalse ((l.drop a).take (b - a))
      = ((l.drop a).take (b - a)).count false from rfl]
  rw [List.count_eq_length.mpr, hlen]
  intro x hx
  obtain ⟨i, hi, hix⟩ := List.mem_iff_getElem.mp hx
  rw [hlen] at hi
  have hi2 : i < (l.drop a).length := by simp; omega
  have hi3 : a + i < l.length := by
    have h4 := hi2
    simp at h4
    omega
  have h1 : ((l.drop a).take (b - a))[i] = (l.drop a)[i] := List.getElem_take _
  have h2 : (l.drop a)[i] = l[a + i] := by
    rw [List.getElem_drop]
  have h3 : getB l (a + i) = false := h (a + i) (by omega) (by omega)
  rw [getB_eq_getElem l (a + i) (by omega)] at h3
  rw [← hix, h1, h2, h3]

theorem countFalse_take_of_all_true (l : List Bool) (a b : Nat) (hab : a ≤ b)
    (h : ∀ p, a ≤ p → p < b → p < l.length → getB l p = true) :
    countFalse (l.take b) = countFalse (l.take a) := by
  have key := countFalse_take_add l a (b - a)
  rw [show a + (b - a) = b from by omega] at key
  have hz : countFalse ((l.drop a).take (b - a)) = 0 := by
    rw [show countFalse ((l.drop a).take (b - a))
        = ((l.drop a).take (b - a)).count false from rfl]
    rw [List.count_eq_zero]
    intro hmem
    obtain ⟨i, hi, hix⟩ := List.mem_iff_getElem.mp hmem
    have hil : i < (l.drop a).length := by
      have := hi
      simp at this ⊢
      omega
    have hial : a + i < l.length := by simp at hil; omega
    have h1 : ((l.drop a).take (b - a))[i] = (l.drop a)[i] := List.getElem_take _
    have h2 : (l.drop a)[i] = l[a + i] := by rw [List.getElem_drop]
    have hib : i < b - a := by
      have := hi
      simp at this
      omega
    have h3 : getB l (a + i) = true := h (a + i) (by omega) (by omega) hial
    rw [getB_eq_getElem l (a + i) hial] at h3
    rw [h1, h2, h3] at hix
    cases hix
  omega

theorem countTrue_take_of_all_false (l : List Bool) (a b : Nat) (hab : a ≤ b)
    (h : ∀ p, a ≤ p → p < b → p < l.length → getB l p = false) :
    countTrue (l.take b) = countTrue (l.take a) := by
  have key := countTrue_take_add l a (b - a)
  rw [show a + (b - a) = b from by omega] at key
  have hz : countTrue ((l.drop a).take (b - a)) = 0 := by
    rw [show countTrue ((l.drop a).take (b - a))
        = ((l.drop a).take (b - a)).count true from rfl]
    rw [List.count_eq_zero]
    intro hmem
    obtain ⟨i, hi, hix⟩ := List.mem_iff_getElem.mp hmem
    have hil : i < (l.drop a).length := by
      have := hi
      simp at this ⊢
      omega
    have hial : a + i < l.length := by simp at hil; omega
    have h1 : ((l.drop a).take (b - a))[i] = (l.drop a)[i] := List.getElem_take _
    have h2 : (l.drop a)[i] = l[a + i] := by rw [List.getElem_drop]
    have hib : i < b - a := by
      have := hi
      simp at this
      omega
    have h3 : getB l (a + i) = false := h (a + i) (by omega) (by omega) hial
    rw [getB_eq_getElem l (a + i) hial] at h3
    rw [h1, h2, h3] at hix
    cases hix
  omega

/-- The tombstone slice fetched by the `synthesize` insert branch is
exactly the union slice, when the whole segment is deleted. -/
theorem filterDel_slice (f : List Bool) (u : List α) (a b : Nat) (hab : a ≤ b)
    (hb : b ≤ u.length)
    (h : ∀ p, a ≤ p → p < b → getB f p = true) :
    ((filterDel f u).drop (countTrue (f.take a))).take
        (countTrue (f.take b) - countTrue (f.take a))
      = (u.drop a).take (b - a) := by
  rw [filterDel_drop]
  have hsplit : countTrue (f.take b) - countTrue (f.take a)
      = countTrue ((f.drop a).take (b - a)) := by
    have key := countTrue_take_add f a (b - a)
    rw [show a + (b - a) = b from by omega] at key
    omega
  rw [hsplit]
  apply filterDel_take_all_true
  · intro p hp
    rw [getB_drop]
    exact h (a + p) (by omega) (by omega)
  · simp
    omega

/-- The copy slice used by the `synthesize` copy branch is exactly the
union slice, when the whole segment is kept. -/
theorem filterKept_slice (f : List Bool) (u : List α) (a b : Nat) (hab : a ≤ b)
    (hb : b ≤ u.length) (hfu : f.length = u.length)
    (h : ∀ p, a ≤ p → p < b → getB f p = false) :
    ((filterKept f u).drop (countFalse (f.take a))).take
        (countFalse (f.take b) - countFalse (f.take a))
      = (u.drop a).take (b - a) := by
  rw [filterKept_drop _ _ _ hfu]
  have hsplit : countFalse (f.take b) - countFalse (f.take a)
      = countFalse ((f.drop a).take (b - a)) := by
    have key := countFalse_take_add f a (b - a)
    rw [show a + (b - a) = b from by omega] at key
    omega
  rw [hsplit]
  apply filterKept_take_all_false
  · intro p hp
    rw [getB_drop]
    exact h (a + p) (by omega) (by omega)
  · simp
    omega
  · simp
    omega

/-! ## Kept-run (`falseRuns`) lemmas -/

theorem falseRuns_bounds : ∀ (l : List Bool) (off : Nat), ∀ r ∈ falseRuns l off,
    off ≤ r.1 ∧ r.1 < r.2 ∧ r.2 ≤ off + l.length
  | [], off, r, hr => absurd hr (List.not_mem_nil r)
  | true :: rest, off, r, hr => by
    have ih := falseRuns_bounds rest (off + 1) r (by simpa [falseRuns] using hr)
    refine ⟨by omega, ih.2.1, by simp; omega⟩
  | false :: rest, off, r, hr => by
    rcases hR : falseRuns rest (off + 1) with - | ⟨⟨s, e⟩, tl⟩
    · simp only [falseRuns, hR] at hr
      rcases List.mem_singleton.mp hr with rfl
      exact ⟨le_refl _, by omega, by simp⟩
    · have ihh := falseRuns_bounds rest (off + 1) (s, e) (by rw [hR]; exact List.mem_cons_self _ _)
      simp only [falseRuns, hR] at hr
      by_cases hs : s = off + 1
      · rw [if_pos hs] at hr
        rcases List.mem_cons.mp hr with rfl | hr
        · exact ⟨le_refl _, by omega, by simp at ihh ⊢; omega⟩
        · have ih := falseRuns_bounds rest (off + 1) r (by rw [hR]; exact List.mem_cons_of_mem _ hr)
          refine ⟨by omega, ih.2.1, by simp at ih ⊢; omega⟩
      · rw [if_neg hs] at hr
        rcases List.mem_cons.mp hr with rfl | hr
        · exact ⟨le_refl _, by omega, by simp only [List.length_cons]; omega⟩
        · have ih := falseRuns_bounds rest (off + 1) r (by rw [hR]; exact hr)
          refine ⟨by omega, ih.2.1, by simp at ih ⊢; omega⟩

theorem falseRuns_chain : ∀ (l : List Bool) (off : Nat),
    (falseRuns l off).Chain' (fun r r' => r.2 ≤ r'.1)
  | [], _ => List.chain'_nil
  | true :: rest, off => by
    simpa [falseRuns] using falseRuns_chain rest (off + 1)
  | false :: rest, off => by
    have ih := falseRuns_chain rest (off + 1)
    rcases hR : falseRuns rest (off + 1) with - | ⟨⟨s, e⟩, tl⟩
    · simp [falseRuns, hR]
    · rw [hR] at ih
      simp only [falseRuns, hR]
      by_cases hs : s = off + 1
      · rw [if_pos hs]
        rw [List.chain'_cons'] at ih ⊢
        exact ih
      · rw [if_neg hs]
        have hb := falseRuns_bounds rest (off + 1) (s, e)
          (by rw [hR]; exact List.mem_cons_self _ _)
        refine List.chain'_cons'.mpr ⟨?_, ih⟩
        intro y hy
        simp only [List.head?_cons, Option.mem_def, Option.some.injEq] at hy
        subst hy
        simp only
        omega

theorem falseRuns_all_false : ∀ (l : List Bool) (off : Nat), ∀ r ∈ falseRuns l off,
    ∀ q : Nat, r.1 ≤ off + q → off + q < r.2 → getB l q = false
  | [], off, r, hr, _, _, _ => absurd hr (List.not_mem_nil r)
  | true :: rest, off, r, hr, q, h1, h2 => by
    rw [show falseRuns (true :: rest) off = falseRuns rest (off + 1) from rfl] at hr
    have hb := falseRuns_bounds rest (off + 1) r hr
    match q with
    | 0 => omega
    | q + 1 =>
      have := falseRuns_all_false rest (off + 1) r hr q (by omega) (by omega)
      simpa [getB] using this
  | false :: rest, off, r, hr, q, h1, h2 => by
    rcases hR : falseRuns rest (off + 1) with - | ⟨⟨s, e⟩, tl⟩
    · simp only [falseRuns, hR] at hr
      rcases List.mem_singleton.mp hr with rfl
      simp only at h1 h2
      have : q = 0 := by omega
      subst this
      rfl
    · simp only [falseRuns, hR] at hr
      by_cases hs : s = off + 1
      · rw [if_pos hs] at hr
        rcases List.mem_cons.mp hr with rfl | hr
        · simp only at h1 h2
          match q with
          | 0 => rfl
          | q + 1 =>
            have := falseRuns_all_false rest (off + 1) (s, e)
              (by rw [hR]; exact List.mem_cons_self _ _) q (by omega) (by simp only; omega)
            simpa [getB] using this
        · have hb := falseRuns_bounds rest (off + 1) r
            (by rw [hR]; exact List.mem_cons_of_mem _ hr)
          match q with
          | 0 => omega
          | q + 1 =>
            have := falseRuns_all_false rest (off + 1) r
              (by rw [hR]; exact List.mem_cons_of_mem _ hr) q (by omega) (by omega)
            simpa [getB] using this
      · rw [if_neg hs] at hr
        rcases List.mem_cons.mp hr with rfl | hr
        · simp only at h1 h2
          have : q = 0 := by omega
          subst this
          rfl
        · have hb := falseRuns_bounds rest (off + 1) r (by rw [hR]; exact hr)
          match q with
          | 0 => omega
          | q + 1 =>
            have := falseRuns_all_false rest (off + 1) r (by rw [hR]; exact hr) q
              (by omega) (by omega)
            simpa [getB] using this

theorem falseRuns_cover : ∀ (l : List Bool) (off : Nat), ∀ p : Nat, p < l.length →
    getB l p = false → ∃ r ∈ falseRuns l off, r.1 ≤ off + p ∧ off + p < r.2
  | [], _, p, hp, _ => by simp at hp
  | true :: rest, off, p, hp, hg => by
    match p with
    | 0 => cases hg
    | p + 1 =>
      obtain ⟨r, hr, h1, h2⟩ := falseRuns_cover rest (off + 1) p (by simpa using hp)
        (by simpa [getB] using hg)
      exact ⟨r, by simpa [falseRuns] using hr, by omega, by omega⟩
  | false :: rest, off, p, hp, hg => by
    rcases hR : falseRuns rest (off + 1) with - | ⟨⟨s, e⟩, tl⟩
    · match p with
      | 0 => exact ⟨(off, off + 1), by simp [falseRuns, hR], by omega, by omega⟩
      | p + 1 =>
        obtain ⟨r, hr, -⟩ := falseRuns_cover rest (off + 1) p (by simpa using hp)
          (by simpa [getB] using hg)
        rw [hR] at hr
        cases hr
    · by_cases hs : s = off + 1
      · match p with
        | 0 =>
          refine ⟨(off, e), ?_, by omega, ?_⟩
          · simp [falseRuns, hR, hs]
          · have hb := falseRuns_bounds rest (off + 1) (s, e)
              (by rw [hR]; exact List.mem_cons_self _ _)
            simp only
            omega
        | p + 1 =>
          obtain ⟨r, hr, h1, h2⟩ := falseRuns_cover rest (off + 1) p (by simpa using hp)
            (by simpa [getB] using hg)
          rw [hR] at hr
          rcases List.mem_cons.mp hr with rfl | hr
          · exact ⟨(off, e), by simp [falseRuns, hR, hs], by omega, by omega⟩
          · exact ⟨r, by simp only [falseRuns, hR, if_pos hs]; exact List.mem_cons_of_mem _ hr, by omega, by omega⟩
      · match p with
        | 0 => exact ⟨(off, off + 1), by simp [falseRuns, hR, hs], by omega, by omega⟩
        | p + 1 =>
          obtain ⟨r, hr, h1, h2⟩ := falseRuns_cover rest (off + 1) p (by simpa using hp)
            (by simpa [getB] using hg)
          refine ⟨r, ?_, by omega, by omega⟩
          simp only [falseRuns, hR, if_neg hs]
          rw [hR] at hr
          exact List.mem_cons_of_mem _ hr

/-- The kept part of `u` is the concatenation of the `falseRuns`
slices, in order. -/
theorem falseRuns_select : ∀ (l : List Bool) (off : Nat) (u : List α),
    u.length = off + l.length →
    ((falseRuns l off).map (fun r => (u.drop r.1).take (r.2 - r.1))).flatten
      = filterKept l (u.drop off)
  | [], off, u, hu => by
    rw [filterKept_nil_left, List.drop_eq_nil_of_le (by simp at hu; omega)]
    simp [falseRuns]
  | true :: rest, off, u, hu => by
    have ih := falseRuns_select rest (off + 1) u (by simp at hu ⊢; omega)
    have hoff : off < u.length := by simp at hu; omega
    rw [List.drop_eq_getElem_cons hoff]
    rw [show filterKept (true :: rest) (u[off] :: u.drop (off + 1))
        = filterKept rest (u.drop (off + 1)) from rfl]
    rw [show falseRuns (true :: rest) off = falseRuns rest (off + 1) from rfl]
    exact ih
  | false :: rest, off, u, hu => by
    have ih := falseRuns_select rest (off + 1) u (by simp at hu ⊢; omega)
    have hoff : off < u.length := by simp at hu; omega
    have hdrop : u.drop off = u[off] :: u.drop (off + 1) := List.drop_eq_getElem_cons hoff
    rcases hR : falseRuns rest (off + 1) with - | ⟨⟨s, e⟩, tl⟩
    · rw [hR] at ih
      simp only [falseRuns, hR, List.map_cons, List.map_nil, List.flatten_cons,
        List.flatten_nil, List.append_nil]
      rw [hdrop]
      rw [show filterKept (false :: rest) (u[off] :: u.drop (off + 1))
          = u[off] :: filterKept rest (u.drop (off + 1)) from rfl]
      rw [show off + 1 - off = 1 from by omega]
      rw [List.take_succ_cons, List.take_zero]
      simp only [List.map_nil, List.flatten_nil] at ih
      rw [← ih]
    · have hb := falseRuns_bounds rest (off + 1) (s, e)
        (by rw [hR]; exact List.mem_cons_self _ _)
      rw [hR] at ih
      by_cases hs : s = off + 1
      · simp only [falseRuns, hR, if_pos hs, List.map_cons, List.flatten_cons]
        rw [hdrop]
        rw [show filterKept (false :: rest) (u[off] :: u.drop (off + 1))
            = u[off] :: filterKept rest (u.drop (off + 1)) from rfl]
        rw [← ih]
        simp only [List.map_cons, List.flatten_cons]
        rw [show (e - off) = (e - (off + 1)) + 1 from by simp at hb; omega]
        rw [List.take_succ_cons, hs]
        simp
      · simp only [falseRuns, hR, if_neg hs, List.map_cons, List.flatten_cons]
        rw [show filterKept (false :: rest) (u.drop off)
            = u[off] :: filterKept rest (u.drop (off + 1)) from by rw [hdrop]; rfl]
        rw [← ih]
        simp only [List.map_cons, List.flatten_cons]
        rw [show off + 1 - off = 1 from by omega]
        rw [hdrop, List.take_succ_cons, List.take_zero]
        simp

/-! ## RunsState lemmas for the `synthesize` loop -/

theorem runsLB : ∀ (tl : List (Nat × Nat)) (m : Nat),
    (∀ r ∈ tl, r.1 ≤ r.2) → tl.Chain' (fun r r' => r.2 ≤ r'.1) →
    (∀ b ∈ tl.head?, m ≤ b.1) → ∀ r ∈ tl, m ≤ r.1
  | [], _, _, _, _, r, hr => absurd hr (List.not_mem_nil r)
  | a :: l, m, wf1, wf2, hhd, r, hr => by
    rw [List.chain'_cons'] at wf2
    have ha1 : m ≤ a.1 := hhd a (by simp)
    rcases List.mem_cons.mp hr with h | h
    · exact h ▸ ha1
    · have ha2 : m ≤ a.2 := le_trans ha1 (wf1 a (List.mem_cons_self a l))
      exact le_trans ha2
        (runsLB l a.2 (fun r hr => wf1 r (List.mem_cons_of_mem _ hr)) wf2.2 wf2.1 r h)

theorem runsState_init (l : List Bool) : RunsState l 0 (falseRuns l 0) 0 := by
  refine ⟨?_, falseRuns_chain l 0, ?_, ?_⟩
  · intro r hr
    have hb := falseRuns_bounds l 0 r hr
    refine ⟨hb.2.1, by simpa using hb.2.2, ?_⟩
    intro p h1 h2
    have := falseRuns_all_false l 0 r hr p (by omega) (by omega)
    exact this
  · intro p hp1 hp2 hp3
    obtain ⟨r, hr, h1, h2⟩ := falseRuns_cover l 0 p hp2 hp3
    exact ⟨r, hr, by omega, by omega⟩
  · cases hR : falseRuns l 0 with
    | nil => simp [rsMark, rankF, countFalse]
    | cons hd tl =>
      obtain ⟨b, e⟩ := hd
      simp [rsMark, rankF, countFalse]

theorem rsMark_le_rsMark (rs : List (Nat × Nat)) (w w' : Nat) (h : w ≤ w') :
    rsMark rs w ≤ rsMark rs w' := by
  cases rs with
  | nil => exact h
  | cons hd tl => obtain ⟨b, e⟩ := hd; simp [rsMark]; omega

/-- No kept position lies between the mark and a later mark of the
same cursor state. -/
theorem runsState_no_false_gap (l : List Bool) (x : Nat) (rs : List (Nat × Nat))
    (w m' : Nat) (h : RunsState l x rs w)
    (hm : ∀ b ∈ rs.head?, m' ≤ b.1) :
    ∀ p, rsMark rs w ≤ p → p < m' → p < l.length → getB l p = true := by
  obtain ⟨hb, hc, hcov, hx⟩ := h
  intro p h1 h2 h3
  by_contra hfalse
  have hgf : getB l p = false := by
    cases hgb : getB l p
    · rfl
    · exact absurd hgb hfalse
  obtain ⟨r, hr, hr1, hr2⟩ := hcov p h1 h3 hgf
  cases rs with
  | nil => cases hr
  | cons hd tl =>
    obtain ⟨b, e⟩ := hd
    have hbm : m' ≤ b := hm (b, e) (by simp)
    rcases List.mem_cons.mp hr with rfl | hrtl
    · simp only at hr1
      omega
    · rw [List.chain'_cons'] at hc
      have : b ≤ r.1 := by
        have he : e ≤ r.1 := runsLB tl e
          (fun r hr => le_of_lt (hb r (List.mem_cons_of_mem _ hr)).1) hc.2 hc.1 r hrtl
        have := (hb (b, e) (List.mem_cons_self _ _)).1
        simp only at this
        omega
      omega

theorem runsState_mono (l : List Bool) (x : Nat) (rs : List (Nat × Nat)) (w w' : Nat)
    (h : RunsState l x rs w) (hw : w ≤ w') : RunsState l x rs w' := by
  have hgap := runsState_no_false_gap l x rs w (rsMark rs w') h
    (by
      intro b hb
      cases rs with
      | nil => simp at hb
      | cons hd tl =>
        obtain ⟨b0, e0⟩ := hd
        simp only [List.head?_cons, Option.mem_def, Option.some.injEq] at hb
        subst hb
        simp [rsMark])
  obtain ⟨hb, hc, hcov, hx⟩ := h
  have hmm : rsMark rs w ≤ rsMark rs w' := rsMark_le_rsMark rs w w' hw
  refine ⟨hb, hc, ?_, ?_⟩
  · intro p hp1 hp2 hp3
    exact hcov p (by omega) hp2 hp3
  · rw [hx]
    unfold rankF
    exact (countFalse_take_of_all_true l (rsMark rs w) (rsMark rs w') hmm
      (fun p h1 h2 h3 => hgap p h1 h2 h3)).symm

/-- Popping one fully passed run preserves the cursor invariant. -/
theorem runsState_pop (l : List Bool) (x ib ie : Nat) (t : List (Nat × Nat)) (w : Nat)
    (h : RunsState l x ((ib, ie) :: t) w) (hie : ie ≤ w) :
    RunsState l (x + (ie - ib)) t w := by
  obtain ⟨hb, hc, hcov, hx⟩ := h
  have hhead := hb (ib, ie) (List.mem_cons_self _ _)
  simp only at hhead
  rw [List.chain'_cons'] at hc
  have hmark : rsMark ((ib, ie) :: t) w = ib := by
    simp only [rsMark]
    omega
  rw [hmark] at hcov hx
  have hxie : countFalse (l.take ie) = x + (ie - ib) := by
    rw [hx]
    unfold rankF
    rw [countFalse_take_segment l ib ie (by omega) hhead.2.1
      (fun p h1 h2 => hhead.2.2 p h1 h2)]
  have hmark' : ie ≤ rsMark t w := by
    cases t with
    | nil => simpa [rsMark] using hie
    | cons hd tl =>
      obtain ⟨b2, e2⟩ := hd
      have : ie ≤ b2 := hc.1 (b2, e2) (by simp)
      simp [rsMark]
      omega
  have hLB : ∀ r ∈ t, rsMark t w ≤ r.1 := by
    cases t with
    | nil => intro r hr; cases hr
    | cons hd tl =>
      obtain ⟨b2, e2⟩ := hd
      intro r hr
      have : b2 ≤ r.1 := runsLB ((b2, e2) :: tl) b2
        (fun r hr => le_of_lt (hb r (List.mem_cons_of_mem _ hr)).1)
        hc.2 (by simp) r hr
      have : rsMark ((b2, e2) :: tl) w = min w b2 := rfl
      omega
  have hcov' : ∀ p, rsMark t w ≤ p → p < l.length → getB l p = false →
      ∃ r ∈ t, r.1 ≤ p ∧ p < r.2 := by
    intro p h1 h2 h3
    obtain ⟨r, hr, hr1, hr2⟩ := hcov p (by omega) h2 h3
    rcases List.mem_cons.mp hr with rfl | hrtl
    · simp only at hr1 hr2
      omega
    · exact ⟨r, hrtl, hr1, hr2⟩
  refine ⟨fun r hr => hb r (List.mem_cons_of_mem _ hr), hc.2, hcov', ?_⟩
  have hnf : ∀ p, ie ≤ p → p < rsMark t w → p < l.length → getB l p = true := by
    intro p h1 h2 h3
    by_contra hfalse
    have hgf : getB l p = false := by
      cases hgb : getB l p
      · rfl
      · exact absurd hgb hfalse
    obtain ⟨r, hr, hr1, hr2⟩ := hcov p (by omega) h3 hgf
    rcases List.mem_cons.mp hr with rfl | hrtl
    · simp only at hr1 hr2
      omega
    · have := hLB r hrtl
      omega
  unfold rankF
  rw [countFalse_take_of_all_true l ie (rsMark t w) hmark' hnf]
  omega

theorem skipOld_state (l : List Bool) : ∀ (rs : List (Nat × Nat)) (x w : Nat),
    RunsState l x rs w →
    RunsState l (skipOld x rs w).1 (skipOld x rs w).2 w ∧
      (∀ r ∈ (skipOld x rs w).2.head?, w < r.2)
  | [], x, w, h => by
    refine ⟨h, ?_⟩
    intro r hr
    simp [skipOld] at hr
  | (ib, ie) :: t, x, w, h => by
    by_cases hie : ie ≤ w
    · rw [show skipOld x ((ib, ie) :: t) w = skipOld (x + (ie - ib)) t w from by
        simp [skipOld, hie]]
      exact skipOld_state l t (x + (ie - ib)) w (runsState_pop l x ib ie t w h hie)
    · rw [show skipOld x ((ib, ie) :: t) w = (x, (ib, ie) :: t) from by
        simp [skipOld, hie]]
      refine ⟨h, ?_⟩
      intro r hr
      simp only [List.head?_cons, Option.mem_def, Option.some.injEq] at hr
      subst hr
      simp only
      omega

/-! ## pushCopy lemmas -/

theorem applyEls_pushCopy (els : List DeltaElement) (b e : Nat) (s : Rope)
    (hwf : ElsCopiesLE els) (hbe : b ≤ e) :
    applyEls (pushCopy els b e) s = applyEls els s ++ (s.drop b).take (e - b) := by
  unfold pushCopy
  split
  · rename_i lb le hl
    split
    · rename_i hmerge
      have hsplit : els = els.dropLast ++ [.copy lb le] := getLast?_split els _ hl
      have hlble : lb ≤ le := hwf lb le (by rw [hsplit]; simp)
      conv_rhs => rw [hsplit]
      rw [applyEls_append, applyEls_append]
      simp only [applyEls, List.map_cons, List.map_nil, List.flatten_cons,
        List.flatten_nil, List.append_nil, elemApply]
      rw [List.append_assoc]
      congr 1
      subst hmerge
      have harith : e - lb = (le - lb) + (e - le) := by omega
      rw [harith, List.take_add, List.drop_drop]
      congr 3
      omega
    · simp [applyEls_append, applyEls, elemApply]
  · simp [applyEls_append, applyEls, elemApply]

theorem elsCopiesLE_pushCopy (els : List DeltaElement) (b e : Nat)
    (hwf : ElsCopiesLE els) (hbe : b ≤ e) : ElsCopiesLE (pushCopy els b e) := by
  unfold pushCopy
  split
  · rename_i lb le hl
    split
    · rename_i hmerge
      have hsplit : els = els.dropLast ++ [.copy lb le] := getLast?_split els _ hl
      have hlble : lb ≤ le := hwf lb le (by rw [hsplit]; simp)
      intro b' e' hmem
      rcases List.mem_append.mp hmem with h | h
      · exact hwf b' e' (by rw [hsplit]; exact List.mem_append_left _ h)
      · rcases List.mem_singleton.mp h with h
        injection h with h1 h2
        omega
    · intro b' e' hmem
      rcases List.mem_append.mp hmem with h | h
      · exact hwf b' e' h
      · rcases List.mem_singleton.mp h with h
        injection h with h1 h2
        omega
  · intro b' e' hmem
    rcases List.mem_append.mp hmem with h | h
    · exact hwf b' e' h
    · rcases List.mem_singleton.mp h with h
      injection h with h1 h2
      omega

theorem elsCopiesLE_append_insert (els : List DeltaElement) (r : Rope)
    (hwf : ElsCopiesLE els) : ElsCopiesLE (els ++ [.insert r]) := by
  intro b' e' hmem
  rcases List.mem_append.mp hmem with h | h
  · exact hwf b' e' h
  · rcases List.mem_singleton.mp h with h
    cases h

/-! ## The `synthesize` fill loop -/

theorem drop_take_join (u : List α) (a b c : Nat) (h1 : a ≤ b) (h2 : b ≤ c) :
    (u.drop a).take (b - a) ++ (u.drop b).take (c - b) = (u.drop a).take (c - a) := by
  have harith : c - a = (b - a) + (c - b) := by omega
  rw [harith, List.take_add, List.drop_drop]
  congr 3
  omega

theorem countFalse_take_mono (l : List Bool) (a b : Nat) (h : a ≤ b) :
    countFalse (l.take a) ≤ countFalse (l.take b) := by
  have key := countFalse_take_add l a (b - a)
  rw [show a + (b - a) = b from by omega] at key
  omega

/-- One segment of the `synthesize` loop copies / inserts exactly the
union slice `[beg, e)`, and moves the cursor state to `e`. -/
theorem fillSeg_spec : ∀ (fuel beg e x : Nat) (rs : List (Nat × Nat))
    (els : List DeltaElement) (u : Rope) (f td : List Bool),
    f.length = u.length →
    (∀ i, countTrue (td.take i) = countTrue (f.take i)) →
    RunsState f x rs beg →
    beg ≤ e → e ≤ u.length → e - beg ≤ fuel →
    ElsCopiesLE els →
    RunsState f (fillSeg (filterDel f u) td fuel beg e x rs els).1
        (fillSeg (filterDel f u) td fuel beg e x rs els).2.1 e ∧
      ElsCopiesLE (fillSeg (filterDel f u) td fuel beg e x rs els).2.2 ∧
      applyEls (fillSeg (filterDel f u) td fuel beg e x rs els).2.2 (filterKept f u)
        = applyEls els (filterKept f u) ++ (u.drop beg).take (e - beg)
  | 0, beg, e, x, rs, els, u, f, td, hfu, htd, hstate, hbe, heu, hfuel, hwf => by
    have hbeg : beg = e := by omega
    subst hbeg
    rw [show fillSeg (filterDel f u) td 0 beg beg x rs els = (x, rs, els) from rfl]
    exact ⟨hstate, hwf, by simp⟩
  | fuel + 1, beg, e, x, rs, els, u, f, td, hfu, htd, hstate, hbe, heu, hfuel, hwf => by
    have hdef : fillSeg (filterDel f u) td (fuel + 1) beg e x rs els
        = if beg < e then
            (match (skipOld x rs beg).2 with
             | (ib, ie) :: rest =>
               if ib ≤ beg then
                 fillSeg (filterDel f u) td fuel (min e ie) e (skipOld x rs beg).1
                   ((ib, ie) :: rest)
                   (pushCopy els (beg + (skipOld x rs beg).1 - ib)
                     (min e ie + (skipOld x rs beg).1 - ib))
               else
                 fillSeg (filterDel f u) td fuel (min e ib) e (skipOld x rs beg).1
                   ((ib, ie) :: rest)
                   (els ++ [.insert (((filterDel f u).drop (Subset.doc_index_to_subset td beg)).take
                     (Subset.doc_index_to_subset td (min e ib) - Subset.doc_index_to_subset td beg))])
             | [] =>
               fillSeg (filterDel f u) td fuel e e (skipOld x rs beg).1 []
                 (els ++ [.insert (((filterDel f u).drop (Subset.doc_index_to_subset td beg)).take
                   (Subset.doc_index_to_subset td e - Subset.doc_index_to_subset td beg))]))
          else (x, rs, els) := rfl
    by_cases hlt : beg < e
    · obtain ⟨hst1, hpost⟩ := skipOld_state f rs x beg hstate
      rcases hsk : skipOld x rs beg with ⟨x1, rs1⟩
      rw [hsk] at hst1 hpost
      simp only at hst1 hpost
      have hdts : ∀ i, Subset.doc_index_to_subset td i = countTrue (f.take i) :=
        fun i => htd i
      cases rs1 with
      | nil =>
        have hunfold : fillSeg (filterDel f u) td (fuel + 1) beg e x rs els
            = fillSeg (filterDel f u) td fuel e e x1 []
                (els ++ [.insert (((filterDel f u).drop (Subset.doc_index_to_subset td beg)).take
                  (Subset.doc_index_to_subset td e - Subset.doc_index_to_subset td beg))]) := by
          rw [hdef, if_pos hlt, hsk]
        rw [hunfold]
        have halltrue : ∀ p, beg ≤ p → p < e → getB f p = true := by
          intro p h1 h2
          have hm : rsMark ([] : List (Nat × Nat)) beg = beg := rfl
          by_contra hfalse
          have hgf : getB f p = false := by
            cases hgb : getB f p
            · rfl
            · exact absurd hgb hfalse
          obtain ⟨r, hr, -⟩ := hst1.2.2.1 p (by rw [hm]; omega) (by omega) hgf
          cases hr
        have hslice : ((filterDel f u).drop (Subset.doc_index_to_subset td beg)).take
            (Subset.doc_index_to_subset td e - Subset.doc_index_to_subset td beg)
            = (u.drop beg).take (e - beg) := by
          rw [hdts, hdts]
          exact filterDel_slice f u beg e (by omega) heu halltrue
        rw [hslice]
        have ih := fillSeg_spec fuel e e x1 []
          (els ++ [.insert ((u.drop beg).take (e - beg))]) u f td hfu htd
          (runsState_mono f x1 [] beg e hst1 (by omega)) (le_refl e) heu
          (by omega) (elsCopiesLE_append_insert _ _ hwf)
        refine ⟨ih.1, ih.2.1, ?_⟩
        rw [ih.2.2, applyEls_append]
        simp [applyEls, elemApply]
      | cons hd rest =>
        obtain ⟨ib, ie⟩ := hd
        have hunfold : fillSeg (filterDel f u) td (fuel + 1) beg e x rs els
            = if ib ≤ beg then
                fillSeg (filterDel f u) td fuel (min e ie) e x1 ((ib, ie) :: rest)
                  (pushCopy els (beg + x1 - ib) (min e ie + x1 - ib))
              else
                fillSeg (filterDel f u) td fuel (min e ib) e x1 ((ib, ie) :: rest)
                  (els ++ [.insert (((filterDel f u).drop (Subset.doc_index_to_subset td beg)).take
                    (Subset.doc_index_to_subset td (min e ib) - Subset.doc_index_to_subset td beg))]) := by
          rw [hdef, if_pos hlt, hsk]
        rw [hunfold]
        have hhead := hst1.1 (ib, ie) (List.mem_cons_self _ _)
        simp only at hhead
        have hbegie : beg < ie := by
          have := hpost (ib, ie) (by simp)
          simpa using this
        by_cases hib : ib ≤ beg
        · -- copy branch
          rw [if_pos hib]
          have hmark : rsMark ((ib, ie) :: rest) beg = ib := by
            simp only [rsMark]
            omega
          have hx1 : x1 = countFalse (f.take ib) := by
            have := hst1.2.2.2
            rw [hmark] at this
            exact this
          set en := min e ie with hen
          have hben : beg < en := by omega
          have henie : en ≤ ie := by omega
          have henu : en ≤ u.length := by omega
          have hallf : ∀ p, ib ≤ p → p < en → getB f p = false := by
            intro p h1 h2
            exact hhead.2.2 p h1 (by omega)
          have harith1 : beg + x1 - ib = countFalse (f.take beg) := by
            rw [countFalse_take_segment f ib beg hib (by omega)
              (fun p h1 h2 => hhead.2.2 p h1 (by omega)), ← hx1]
            omega
          have harith2 : en + x1 - ib = countFalse (f.take en) := by
            rw [countFalse_take_segment f ib en (by omega) (by omega) hallf, ← hx1]
            omega
          have hrble : beg + x1 - ib ≤ en + x1 - ib := by
            rw [harith1, harith2]
            exact countFalse_take_mono f beg en (by omega)
          have hpushed := applyEls_pushCopy els (beg + x1 - ib) (en + x1 - ib)
            (filterKept f u) hwf hrble
          have hslice : ((filterKept f u).drop (beg + x1 - ib)).take
              ((en + x1 - ib) - (beg + x1 - ib)) = (u.drop beg).take (en - beg) := by
            rw [harith1, harith2]
            exact filterKept_slice f u beg en (by omega) henu hfu
              (fun p h1 h2 => hallf p (by omega) h2)
          have ih := fillSeg_spec fuel en e x1 ((ib, ie) :: rest)
            (pushCopy els (beg + x1 - ib) (en + x1 - ib)) u f td hfu htd
            (runsState_mono f x1 ((ib, ie) :: rest) beg en hst1 (by omega))
            (by omega) heu (by omega)
            (elsCopiesLE_pushCopy els _ _ hwf hrble)
          refine ⟨ih.1, ih.2.1, ?_⟩
          rw [ih.2.2, hpushed, hslice, List.append_assoc]
          rw [drop_take_join u beg en e (by omega) (by omega)]
        · -- insert branch
          rw [if_neg hib]
          set en := min e ib with hen
          have hben : beg < en := by omega
          have henu : en ≤ u.length := by omega
          have halltrue : ∀ p, beg ≤ p → p < en → getB f p = true := by
            intro p h1 h2
            have := runsState_no_false_gap f x1 ((ib, ie) :: rest) beg en hst1
              (by
                intro b hb
                simp only [List.head?_cons, Option.mem_def, Option.some.injEq] at hb
                subst hb
                simp only
                omega)
            have hm : rsMark ((ib, ie) :: rest) beg = beg := by
              simp only [rsMark]
              omega
            exact this p (by rw [hm]; omega) h2 (by omega)
          have hslice : ((filterDel f u).drop (Subset.doc_index_to_subset td beg)).take
              (Subset.doc_index_to_subset td en - Subset.doc_index_to_subset td beg)
              = (u.drop beg).take (en - beg) := by
            rw [hdts, hdts]
            exact filterDel_slice f u beg en (by omega) henu halltrue
          rw [hslice]
          have ih := fillSeg_spec fuel en e x1 ((ib, ie) :: rest)
            (els ++ [.insert ((u.drop beg).take (en - beg))]) u f td hfu htd
            (runsState_mono f x1 ((ib, ie) :: rest) beg en hst1 (by omega))
            (by omega) heu (by omega)
            (elsCopiesLE_append_insert _ _ hwf)
          refine ⟨ih.1, ih.2.1, ?_⟩
          rw [ih.2.2, applyEls_append]
          simp only [applyEls, List.map_cons, List.map_nil, List.flatten_cons,
            List.flatten_nil, List.append_nil, elemApply]
          rw [List.append_assoc]
          rw [drop_take_join u beg en e (by omega) (by omega)]
    · have hbeg : beg = e := by omega
      subst hbeg
      rw [hdef, if_neg hlt]
      exact ⟨hstate, hwf, by simp⟩

theorem filterKept_replicate_false : ∀ (k : Nat) (u : List α),
    filterKept (List.replicate k false) u = u
  | 0, u => filterKept_nil_left u
  | _ + 1, [] => rfl
  | k + 1, a :: u => by
    rw [List.replicate_succ]
    rw [show filterKept (false :: List.replicate k false) (a :: u)
        = a :: filterKept (List.replicate k false) u from rfl]
    rw [filterKept_replicate_false k u]

theorem filterDel_replicate_false : ∀ (k : Nat) (u : List α),
    filterDel (List.replicate k false) u = []
  | 0, u => filterDel_nil_left u
  | _ + 1, [] => rfl
  | k + 1, a :: u => by
    rw [List.replicate_succ]
    rw [show filterDel (false :: List.replicate k false) (a :: u)
        = filterDel (List.replicate k false) u from rfl]
    rw [filterDel_replicate_false k u]

/-- Padding a subset with kept positions does not change which
elements it keeps. -/
theorem filterKept_padTo : ∀ (f : List Bool) (L : Nat) (u : List α),
    filterKept (padTo L f) u = filterKept f u
  | [], L, u => by
    rw [filterKept_nil_left]
    unfold padTo
    simp only [List.nil_append, List.length_nil, Nat.sub_zero]
    exact filterKept_replicate_false L u
  | b :: f, L, [] => by
    unfold padTo
    cases b <;> rfl
  | true :: f, L, a :: u => by
    unfold padTo
    rw [show ((true :: f) ++ List.replicate (L - (true :: f).length) false)
        = true :: (f ++ List.replicate (L - (true :: f).length) false) from rfl]
    rw [show filterKept (true :: (f ++ List.replicate (L - (true :: f).length) false)) (a :: u)
        = filterKept (f ++ List.replicate (L - (true :: f).length) false) u from rfl]
    rw [show filterKept (true :: f) (a :: u) = filterKept f u from rfl]
    have := filterKept_padTo f (f.length + (L - (true :: f).length)) u
    unfold padTo at this
    rw [show f.length + (L - (true :: f).length) - f.length = L - (true :: f).length
      from by omega] at this
    exact this
  | false :: f, L, a :: u => by
    unfold padTo
    rw [show ((false :: f) ++ List.replicate (L - (false :: f).length) false)
        = false :: (f ++ List.replicate (L - (false :: f).length) false) from rfl]
    rw [show filterKept (false :: (f ++ List.replicate (L - (false :: f).length) false)) (a :: u)
        = a :: filterKept (f ++ List.replicate (L - (false :: f).length) false) u from rfl]
    rw [show filterKept (false :: f) (a :: u) = a :: filterKept f u from rfl]
    have := filterKept_padTo f (f.length + (L - (false :: f).length)) u
    unfold padTo at this
    rw [show f.length + (L - (false :: f).length) - f.length = L - (false :: f).length
      from by omega] at this
    rw [this]

/-- Padding a subset with kept positions does not change which
elements it deletes. -/
theorem filterDel_padTo : ∀ (f : List Bool) (L : Nat) (u : List α),
    filterDel (padTo L f) u = filterDel f u
  | [], L, u => by
    rw [filterDel_nil_left]
    unfold padTo
    simp only [List.nil_append, List.length_nil, Nat.sub_zero]
    exact filterDel_replicate_false L u
  | b :: f, L, [] => by
    unfold padTo
    cases b <;> rfl
  | true :: f, L, a :: u => by
    unfold padTo
    rw [show ((true :: f) ++ List.replicate (L - (true :: f).length) false)
        = true :: (f ++ List.replicate (L - (true :: f).length) false) from rfl]
    rw [show filterDel (true :: (f ++ List.replicate (L - (true :: f).length) false)) (a :: u)
        = a :: filterDel (f ++ List.replicate (L - (true :: f).length) false) u from rfl]
    rw [show filterDel (true :: f) (a :: u) = a :: filterDel f u from rfl]
    have := filterDel_padTo f (f.length + (L - (true :: f).length)) u
    unfold padTo at this
    rw [show f.length + (L - (true :: f).length) - f.length = L - (true :: f).length
      from by omega] at this
    rw [this]
  | false :: f, L, a :: u => by
    unfold padTo
    rw [show ((false :: f) ++ List.replicate (L - (false :: f).length) false)
        = false :: (f ++ List.replicate (L - (false :: f).length) false) from rfl]
    rw [show filterDel (false :: (f ++ List.replicate (L - (false :: f).length) false)) (a :: u)
        = filterDel (f ++ List.replicate (L - (false :: f).length) false) u from rfl]
    rw [show filterDel (false :: f) (a :: u) = filterDel f u from rfl]
    have := filterDel_padTo f (f.length + (L - (false :: f).length)) u
    unfold padTo at this
    rw [show f.length + (L - (false :: f).length) - f.length = L - (false :: f).length
      from by omega] at this
    rw [this]

/-- The outer `synthesize` loop: with disjoint increasing in-bound
segments, the elements built cover exactly the listed union slices. -/
theorem synthLoop_spec : ∀ (segs : List (Nat × Nat)) (x w : Nat) (rs : List (Nat × Nat))
    (els : List DeltaElement) (u : Rope) (f td : List Bool),
    f.length = u.length →
    (∀ i, countTrue (td.take i) = countTrue (f.take i)) →
    (∀ r ∈ segs, r.1 < r.2 ∧ r.2 ≤ u.length) →
    segs.Chain' (fun r r' => r.2 ≤ r'.1) →
    (∀ b ∈ segs.head?, w ≤ b.1) →
    RunsState f x rs w →
    ElsCopiesLE els →
    applyEls (synthLoop (filterDel f u) td segs x rs els) (filterKept f u)
      = applyEls els (filterKept f u)
          ++ (segs.map (fun r => (u.drop r.1).take (r.2 - r.1))).flatten
  | [], x, w, rs, els, u, f, td, _, _, _, _, _, _, _ => by
    simp [synthLoop]
  | (b, e) :: segs, x, w, rs, els, u, f, td, hfu, htd, hbnd, hch, hhd, hstate, hwf => by
    have hbe : b < e := by
      have := hbnd (b, e) (List.mem_cons_self _ _)
      simpa using this.1
    have heu : e ≤ u.length := by
      have := hbnd (b, e) (List.mem_cons_self _ _)
      simpa using this.2
    have hwb : w ≤ b := by simpa using hhd (b, e) (by simp)
    have hfill := fillSeg_spec (e - b) b e x rs els u f td hfu htd
      (runsState_mono f x rs w b hstate hwb) (by omega) heu (le_refl _) hwf
    rw [List.chain'_cons'] at hch
    have ih := synthLoop_spec segs
      (fillSeg (filterDel f u) td (e - b) b e x rs els).1 e
      (fillSeg (filterDel f u) td (e - b) b e x rs els).2.1
      (fillSeg (filterDel f u) td (e - b) b e x rs els).2.2 u f td hfu htd
      (fun r hr => hbnd r (List.mem_cons_of_mem _ hr)) hch.2
      (fun b' hb' => hch.1 b' hb') hfill.1 hfill.2.1
    rw [show synthLoop (filterDel f u) td ((b, e) :: segs) x rs els
        = synthLoop (filterDel f u) td segs
            (fillSeg (filterDel f u) td (e - b) b e x rs els).1
            (fillSeg (filterDel f u) td (e - b) b e x rs els).2.1
            (fillSeg (filterDel f u) td (e - b) b e x rs els).2.2 from rfl]
    rw [ih, hfill.2.2]
    simp [List.append_assoc]

/-- The synthesize characterisation: with `u` the union string, `f` the
deletions giving the current text (`filterKept f u`) and tombstones
(`filterDel f u`), the delta synthesized from `f` to `t` maps the text
for `f` to the text for `t`. -/
theorem synthesize_apply (u : Rope) (f t : List Bool) (L : Nat)
    (hL : L = u.length) (hfu : f.length ≤ u.length) (htL : t.length ≤ L) :
    (Delta.synthesize (filterDel f u) f L f t).apply (filterKept f u)
      = filterKept (padTo L t) u := by
  have hFlen : (padTo L f).length = u.length := by
    rw [padTo_length L f (by omega)]
    omega
  have hTlen : (padTo L t).length = u.length := by
    rw [padTo_length L t htL]
    omega
  have hFK : filterKept (padTo L f) u = filterKept f u := filterKept_padTo f L u
  have hFD : filterDel (padTo L f) u = filterDel f u := filterDel_padTo f L u
  have htd : ∀ i, countTrue (f.take i) = countTrue ((padTo L f).take i) :=
    fun i => (countTrue_take_padTo L f i).symm
  have hmain := synthLoop_spec (falseRuns (padTo L t) 0) 0 0
    (falseRuns (padTo L f) 0) [] u (padTo L f) f hFlen htd
    (fun r hr => by
      have hb := falseRuns_bounds (padTo L t) 0 r hr
      constructor
      · omega
      · omega)
    (falseRuns_chain (padTo L t) 0)
    (fun b _ => Nat.zero_le _)
    (runsState_init (padTo L f))
    (fun b e h => absurd h (List.not_mem_nil _))
  rw [hFK, hFD] at hmain
  have hsel := falseRuns_select (padTo L t) 0 u (by omega)
  rw [List.drop_zero] at hsel
  show applyEls (synthLoop (filterDel f u) f
      (Subset.complement_iter t L) 0 (Subset.complement_iter f L) []) (filterKept f u)
    = filterKept (padTo L t) u
  unfold Subset.complement_iter
  rw [hmain, hsel]
  rw [show applyEls [] (filterKept f u) = [] from rfl]
  rw [List.nil_append]

/-! ## `mergeParts` and complement lemmas -/

theorem mergeParts_filterKept : ∀ (f : List Bool) (text tomb : List α),
    countTrue f = tomb.length → countFalse f ≤ text.length →
    filterKept f (mergeParts f text tomb) = text
  | [], text, tomb, _, _ => filterKept_nil_left text
  | false :: s, text, tomb, hT, hF => by
    cases text with
    | nil => simp [countFalse] at hF
    | cons c t =>
      rw [show mergeParts (false :: s) (c :: t) tomb
          = c :: mergeParts s t tomb from rfl]
      rw [show filterKept (false :: s) (c :: mergeParts s t tomb)
          = c :: filterKept s (mergeParts s t tomb) from rfl]
      rw [mergeParts_filterKept s t tomb (by simpa [countTrue] using hT)
        (by simp [countFalse] at hF; simpa using hF)]
  | true :: s, text, tomb, hT, hF => by
    cases tomb with
    | nil => simp [countTrue] at hT
    | cons c t =>
      rw [show mergeParts (true :: s) text (c :: t)
          = c :: mergeParts s text t from rfl]
      rw [show filterKept (true :: s) (c :: mergeParts s text t)
          = filterKept s (mergeParts s text t) from rfl]
      exact mergeParts_filterKept s text t (by simp [countTrue] at hT; simpa using hT)
        (by simpa [countFalse] using hF)

theorem mergeParts_filterDel : ∀ (f : List Bool) (text tomb : List α),
    countTrue f = tomb.length → countFalse f ≤ text.length →
    filterDel f (mergeParts f text tomb) = tomb
  | [], text, tomb, hT, _ => by
    rw [filterDel_nil_left]
    simp [countTrue] at hT
    exact (List.eq_nil_of_length_eq_zero hT.symm).symm
  | false :: s, text, tomb, hT, hF => by
    cases text with
    | nil => simp [countFalse] at hF
    | cons c t =>
      rw [show mergeParts (false :: s) (c :: t) tomb
          = c :: mergeParts s t tomb from rfl]
      rw [show filterDel (false :: s) (c :: mergeParts s t tomb)
          = filterDel s (mergeParts s t tomb) from rfl]
      exact mergeParts_filterDel s t tomb (by simpa [countTrue] using hT)
        (by simp [countFalse] at hF; simpa using hF)
  | true :: s, text, tomb, hT, hF => by
    cases tomb with
    | nil => simp [countTrue] at hT
    | cons c t =>
      rw [show mergeParts (true :: s) text (c :: t)
          = c :: mergeParts s text t from rfl]
      rw [show filterDel (true :: s) (c :: mergeParts s text t)
          = c :: filterDel s (mergeParts s text t) from rfl]
      rw [mergeParts_filterDel s text t (by simp [countTrue] at hT; simpa using hT)
        (by simpa [countFalse] using hF)]

theorem mergeParts_length : ∀ (f : List Bool) (text tomb : List α),
    countTrue f = tomb.length → countFalse f ≤ text.length →
    (mergeParts f text tomb).length = text.length + tomb.length
  | [], text, tomb, hT, _ => by
    simp [countTrue] at hT
    simp [mergeParts, ← hT]
  | false :: s, text, tomb, hT, hF => by
    cases text with
    | nil => simp [countFalse] at hF
    | cons c t =>
      rw [show mergeParts (false :: s) (c :: t) tomb
          = c :: mergeParts s t tomb from rfl]
      simp only [List.length_cons]
      rw [mergeParts_length s t tomb (by simpa [countTrue] using hT)
        (by simp [countFalse] at hF; simpa using hF)]
      omega
  | true :: s, text, tomb, hT, hF => by
    cases tomb with
    | nil => simp [countTrue] at hT
    | cons c t =>
      rw [show mergeParts (true :: s) text (c :: t)
          = c :: mergeParts s text t from rfl]
      simp only [List.length_cons]
      rw [mergeParts_length s text t (by simp [countTrue] at hT; simpa using hT)
        (by simpa [countFalse] using hF)]
      omega

theorem filterKept_map_not : ∀ (F : List Bool) (u : List α), u.length ≤ F.length →
    filterKept (F.map (fun b => !b)) u = filterDel F u
  | [], [], _ => rfl
  | [], _ :: _, h => by simp at h
  | b :: F, [], _ => by
    cases b <;> rfl
  | true :: F, a :: u, h => by
    rw [show ((true :: F).map (fun b => !b)) = false :: F.map (fun b => !b) from rfl]
    rw [show filterKept (false :: F.map (fun b => !b)) (a :: u)
        = a :: filterKept (F.map (fun b => !b)) u from rfl]
    rw [show filterDel (true :: F) (a :: u) = a :: filterDel F u from rfl]
    rw [filterKept_map_not F u (by simpa using h)]
  | false :: F, a :: u, h => by
    rw [show ((false :: F).map (fun b => !b)) = true :: F.map (fun b => !b) from rfl]
    rw [show filterKept (true :: F.map (fun b => !b)) (a :: u)
        = filterKept (F.map (fun b => !b)) u from rfl]
    rw [show filterDel (false :: F) (a :: u) = filterDel F u from rfl]
    exact filterKept_map_not F u (by simpa using h)

theorem filterDel_map_not : ∀ (F : List Bool) (u : List α), u.length ≤ F.length →
    filterDel (F.map (fun b => !b)) u = filterKept F u
  | [], [], _ => rfl
  | [], _ :: _, h => by simp at h
  | b :: F, [], _ => by
    cases b <;> rfl
  | true :: F, a :: u, h => by
    rw [show ((true :: F).map (fun b => !b)) = false :: F.map (fun b => !b) from rfl]
    rw [show filterDel (false :: F.map (fun b => !b)) (a :: u)
        = filterDel (F.map (fun b => !b)) u from rfl]
    rw [show filterKept (true :: F) (a :: u) = filterKept F u from rfl]
    exact filterDel_map_not F u (by simpa using h)
  | false :: F, a :: u, h => by
    rw [show ((false :: F).map (fun b => !b)) = true :: F.map (fun b => !b) from rfl]
    rw [show filterDel (true :: F.map (fun b => !b)) (a :: u)
        = a :: filterDel (F.map (fun b => !b)) u from rfl]
    rw [show filterKept (false :: F) (a :: u) = a :: filterKept F u from rfl]
    rw [filterDel_map_not F u (by simpa using h)]

theorem complement_length (s : Subset) (L : Nat) (h : s.length ≤ L) :
    (s.complement L).length = L := by
  unfold Subset.complement
  rw [List.length_map, padTo_length L s h]

theorem countTrue_map_not (F : List Bool) :
    countTrue (F.map (fun b => !b)) = countFalse F := by
  induction F with
  | nil => rfl
  | cons b F ih =>
    cases b <;> simp [countTrue, countFalse, List.count_cons] at ih ⊢ <;> omega

/-! ## Subset operation lengths and counts -/

theorem transform_union_length : ∀ (s I : Subset),
    (Subset.transform_union s I).length = I.length + (s.length - countFalse I)
  | s, [] => by simp [Subset.transform_union, countFalse]
  | s, true :: I => by
    rw [show Subset.transform_union s (true :: I)
        = true :: Subset.transform_union s I from by cases s <;> rfl]
    simp only [List.length_cons, transform_union_length s I]
    simp [countFalse, List.count_cons]
    omega
  | [], false :: I => by
    rw [show Subset.transform_union [] (false :: I)
        = false :: Subset.transform_union [] I from rfl]
    simp only [List.length_cons, transform_union_length [] I]
    simp [countFalse, List.count_cons]
  | a :: s, false :: I => by
    rw [show Subset.transform_union (a :: s) (false :: I)
        = a :: Subset.transform_union s I from rfl]
    simp only [List.length_cons, transform_union_length s I]
    simp only [countFalse, List.count_cons]
    simp [countFalse]
    omega

theorem transform_expand_length : ∀ (s I : Subset),
    (Subset.transform_expand s I).length = I.length + (s.length - countFalse I)
  | s, [] => by simp [Subset.transform_expand, countFalse]
  | s, true :: I => by
    rw [show Subset.transform_expand s (true :: I)
        = false :: Subset.transform_expand s I from by cases s <;> rfl]
    simp only [List.length_cons, transform_expand_length s I]
    simp [countFalse, List.count_cons]
    omega
  | [], false :: I => by
    rw [show Subset.transform_expand [] (false :: I)
        = false :: Subset.transform_expand [] I from rfl]
    simp only [List.length_cons, transform_expand_length [] I]
    simp [countFalse, List.count_cons]
  | a :: s, false :: I => by
    rw [show Subset.transform_expand (a :: s) (false :: I)
        = a :: Subset.transform_expand s I from rfl]
    simp only [List.length_cons, transform_expand_length s I]
    simp only [countFalse, List.count_cons]
    simp [countFalse]
    omega

theorem transform_expand_countTrue : ∀ (s I : Subset),
    countTrue (Subset.transform_expand s I) = countTrue s
  | s, [] => by simp [Subset.transform_expand]
  | s, true :: I => by
    rw [show Subset.transform_expand s (true :: I)
        = false :: Subset.transform_expand s I from by cases s <;> rfl]
    have := transform_expand_countTrue s I
    simp only [countTrue] at this ⊢
    simp [List.count_cons, this]
  | [], false :: I => by
    rw [show Subset.transform_expand [] (false :: I)
        = false :: Subset.transform_expand [] I from rfl]
    have := transform_expand_countTrue [] I
    simp only [countTrue] at this ⊢
    simp [List.count_cons, this]
  | a :: s, false :: I => by
    rw [show Subset.transform_expand (a :: s) (false :: I)
        = a :: Subset.transform_expand s I from rfl]
    simp only [countTrue, List.count_cons]
    have := transform_expand_countTrue s I
    simp only [countTrue] at this ⊢
    rw [this]

theorem subset_union_length : ∀ (a b : Subset),
    (Subset.union a b).length = max a.length b.length
  | a, [] => by
    rw [show Subset.union a [] = a from by cases a <;> rfl]
    simp
  | [], b :: t => by
    rw [show Subset.union [] (b :: t) = b :: t from rfl]
    simp
  | a :: s, b :: t => by
    rw [show Subset.union (a :: s) (b :: t) = (a || b) :: Subset.union s t from rfl]
    simp only [List.length_cons, subset_union_length s t]
    omega

theorem is_empty_countTrue (s : Subset) (h : s.is_empty = true) : countTrue s = 0 := by
  unfold Subset.is_empty at h
  rw [List.all_eq_true] at h
  unfold countTrue
  rw [List.count_eq_zero]
  intro hmem
  have := h true hmem
  simp at this

/-! ## The gc probes: reachability and counterexamples -/

theorem probeA2_reachable : Reachable probeA2 := by
  refine Reachable.edit probeA1 probeA2 1 1 1 1 ⟨[.insert "B".toList, .copy 0 6], 6⟩
    ?_ (by decide) ?_ (by decide) (by decide)
  · refine Reachable.edit probeA0 probeA1 1 0 0 0 ⟨[.insert "A".toList, .copy 0 5], 5⟩
      (Reachable.base _) (by decide) ?_ (by decide) (by decide)
    exact (by omega : (0:Nat) ≤ 0 ∧ 0 ≤ 5 ∧ 5 ≤ 5)
  · exact (by omega : (0:Nat) ≤ 0 ∧ 0 ≤ 6 ∧ 6 ≤ 6)

theorem probeB2_reachable : Reachable probeB2 := by
  refine Reachable.edit probeB1 probeB2 2 1 1 1 ⟨[.copy 0 3], 5⟩
    ?_ (by decide) ?_ (by decide) (by decide)
  · refine Reachable.edit probeB0 probeB1 1 0 0 0 ⟨[.copy 3 8], 8⟩
      (Reachable.base _) (by decide) ?_ (by decide) (by decide)
    exact (by omega : (0:Nat) ≤ 3 ∧ 3 ≤ 8 ∧ 8 ≤ 8)
  · exact (by omega : (0:Nat) ≤ 0 ∧ 0 ≤ 3 ∧ 3 ≤ 5)

/-- Claim C5, counterexample: on the reachable engine `probeA2`
(insert "A", then insert "B", no undos, so `gc ∅` garbage-collects no
group reachable from head — indeed no group at all), `get_head` is
preserved but the retained revision 1 changes content: `get_rev 1` is
"Ahello" before the gc and "hello" after it. -/
theorem C5_counterexample :
    Reachable probeA2 ∧
      (probeA2.gc ∅).get_head = probeA2.get_head ∧
      probeA2.get_rev 1 = some "Ahello".toList ∧
      (probeA2.gc ∅).get_rev 1 = some "hello".toList ∧
      ¬ (probeA2.gc ∅).get_rev 1 = probeA2.get_rev 1 :=
  ⟨probeA2_reachable, by decide, by decide, by decide, by decide⟩

/-- Claim C3, counterexample: the engine invariant holds on the
reachable engine `probeB2` (two deletions) but not after `gc {0}`:
the collected engine keeps `|text| + |tombstones| = union_str_len`
(3 + 2 = 5) but its head `deletes_from_union` marks no deletions, so
the tombstones are no longer the deleted part of the union string. -/
theorem C3_counterexample :
    Reachable probeB2 ∧ Engine.InvUnion probeB2 ∧
      ¬ Engine.InvUnion (probeB2.gc {0}) :=
  ⟨probeB2_reachable, by decide, by decide⟩

/-! ## Tiling lemmas -/

theorem ctile_le : ∀ (x : Nat) (els : List DeltaElement) (L : Nat),
    CTile x els L → x ≤ L
  | x, [], L, h => le_of_eq h
  | x, .copy _ e :: rest, L, h => le_trans h.1 (ctile_le e rest L h.2)
  | x, .insert _ :: rest, L, h => ctile_le x rest L h

theorem elsTiling_ctile : ∀ (lo : Nat) (els : List DeltaElement) (L : Nat),
    ElsTiling lo els L → CTile lo els L
  | lo, [], L, h => h
  | lo, .copy b e :: rest, L, h => ⟨h.2.1, elsTiling_ctile e rest L h.2.2⟩
  | lo, .insert _ :: rest, L, h => elsTiling_ctile lo rest L h

theorem elsTiling_le : ∀ (lo : Nat) (els : List DeltaElement) (L : Nat),
    ElsTiling lo els L → lo ≤ L
  | lo, els, L, h => ctile_le lo els L (elsTiling_ctile lo els L h)

theorem elsTiling_append_copy : ∀ (lo : Nat) (out : List DeltaElement) (b e : Nat),
    ElsTiling lo out b → b ≤ e → ElsTiling lo (out ++ [.copy b e]) e
  | lo, [], b, e, h, hbe => by
    subst h
    exact ⟨rfl, hbe, rfl⟩
  | lo, .copy b0 e0 :: rest, b, e, h, hbe =>
    ⟨h.1, h.2.1, elsTiling_append_copy e0 rest b e h.2.2 hbe⟩
  | lo, .insert _ :: rest, b, e, h, hbe =>
    elsTiling_append_copy lo rest b e h hbe

theorem elsTiling_append_insert : ∀ (lo : Nat) (out : List DeltaElement) (n : Rope) (b : Nat),
    ElsTiling lo out b → ElsTiling lo (out ++ [.insert n]) b
  | lo, [], n, b, h => h
  | lo, .copy b0 e0 :: rest, n, b, h =>
    ⟨h.1, h.2.1, elsTiling_append_insert e0 rest n b h.2.2⟩
  | lo, .insert _ :: rest, n, b, h =>
    elsTiling_append_insert lo rest n b h

theorem insList_append : ∀ (l1 l2 : List DeltaElement),
    insList (l1 ++ l2) = insList l1 ++ insList l2
  | [], l2 => rfl
  | .copy _ _ :: rest, l2 => insList_append rest l2
  | .insert n :: rest, l2 => by
    rw [show ((.insert n :: rest) ++ l2) = .insert n :: (rest ++ l2) from rfl]
    rw [show insList (.insert n :: (rest ++ l2)) = n :: insList (rest ++ l2) from rfl]
    rw [show insList (.insert n :: rest) = n :: insList rest from rfl]
    rw [insList_append rest l2]
    rfl

theorem elsTiling_totalLen : ∀ (lo : Nat) (els : List DeltaElement) (L : Nat),
    ElsTiling lo els L → totalElementLen els + lo = L + insTotal els
  | lo, [], L, h => by
    subst h
    simp [totalElementLen, insTotal, insList]
  | lo, .copy b e :: rest, L, h => by
    obtain ⟨hb, hle, ht⟩ := h
    subst hb
    have ih := elsTiling_totalLen e rest L ht
    have hmono := elsTiling_le e rest L ht
    rw [show totalElementLen (DeltaElement.copy b e :: rest)
        = (e - b) + totalElementLen rest from by
      simp [totalElementLen_eq, DeltaElement.len]]
    rw [show insTotal (DeltaElement.copy b e :: rest) = insTotal rest from by
      simp [insTotal, insList]]
    omega
  | lo, .insert n :: rest, L, h => by
    have ih := elsTiling_totalLen lo rest L h
    rw [show totalElementLen (DeltaElement.insert n :: rest)
        = n.length + totalElementLen rest from by
      simp [totalElementLen_eq, DeltaElement.len]]
    rw [show insTotal (DeltaElement.insert n :: rest) = n.length + insTotal rest from by
      simp [insTotal, insList]]
    omega

/-! ## The `transform_expand` loop invariant -/

theorem rankF_le (F : List Bool) (a b : Nat) (hab : a ≤ b) :
    rankF F a ≤ rankF F b := by
  unfold rankF
  exact countFalse_take_mono F a b hab

theorem rankF_full (F : List Bool) (b : Nat) (h : F.length ≤ b) :
    rankF F b = countFalse F := by
  unfold rankF
  rw [List.take_of_length_le h]

/-- Advancing `y` to a point no later than the head range start
preserves the loop invariant (the skipped positions are all
inserted). -/
theorem teJump (F : List Bool) (els : List DeltaElement) (x y b1 : Nat)
    (rs : List (Nat × Nat)) (out : List DeltaElement) (n : Nat)
    (h : TEInv F els x y b1 rs out) (hyn : y ≤ n) (hn : n ≤ rsNib rs F.length) :
    TEInv F els x n b1 rs out := by
  obtain ⟨hRS, hx, hH3, hy, hCT, hb1, hout⟩ := h
  have halltrue : ∀ p, y ≤ p → p < n → p < F.length → getB F p = true := by
    cases rs with
    | nil =>
      intro p h1 h2 h3
      exact runsState_no_false_gap F _ [] y n hRS (by intro b hb; simp at hb) p
        (by simpa [rsMark] using h1) h2 h3
    | cons hd rt =>
      obtain ⟨xb, xe⟩ := hd
      intro p h1 h2 h3
      have hyxb : y ≤ xb := by
        simp only [rsNib] at hn
        omega
      have hrm : rsMark ((xb, xe) :: rt) y = y := by
        simp only [rsMark]
        omega
      refine runsState_no_false_gap F _ ((xb, xe) :: rt) y xb hRS ?_ p ?_ ?_ h3
      · intro b hb
        simp only [List.head?_cons, Option.mem_def, Option.some.injEq] at hb
        subst hb
        exact le_refl _
      · rw [hrm]; omega
      · simp only [rsNib] at hn; omega
  have hrank : rankF F n = rankF F y := by
    unfold rankF
    exact countFalse_take_of_all_true F y n hyn halltrue
  have hrsmark : rsMark rs n = n ∧ rsMark rs y = y ∨ rs = [] := by
    cases rs with
    | nil => exact Or.inr rfl
    | cons hd rt =>
      obtain ⟨xb, xe⟩ := hd
      simp only [rsNib] at hn
      left
      constructor <;> (simp only [rsMark]; omega)
  refine ⟨?_, by rw [hx, hrank], ?_, ?_, hCT, by omega, hout⟩
  · have hmono := runsState_mono F _ rs y n hRS hyn
    rcases hrsmark with ⟨h1, h2⟩ | h1
    · rw [h1, hrank]
      rw [h2] at hmono
      exact hmono
    · subst h1
      simp only [rsMark] at hmono ⊢
      rw [hrank]
      exact hmono
  · intro r hr
    cases rs with
    | nil => simp at hr
    | cons hd rt =>
      obtain ⟨xb, xe⟩ := hd
      simp only [List.head?_cons, Option.mem_def, Option.some.injEq] at hr
      subst hr
      have hb := hRS.1 (xb, xe) (List.mem_cons_self _ _)
      simp only at hb
      simp only [rsNib] at hn
      omega
  · cases rs with
    | nil => simpa [rsNib] using hn
    | cons hd rt =>
      obtain ⟨xb, xe⟩ := hd
      have hb := hRS.1 (xb, xe) (List.mem_cons_self _ _)
      simp only at hb
      simp only [rsNib] at hn
      omega

/-- An exhausted element list is incompatible with a remaining kept
range: all kept positions are accounted by then. -/
theorem teStuckEmpty (F : List Bool) (x y b1 : Nat)
    (rs : List (Nat × Nat)) (out : List DeltaElement)
    (h : TEInv F [] x y b1 rs out) : rs = [] := by
  obtain ⟨hRS, hx, hH3, hy, hCT, hb1, hout⟩ := h
  cases rs with
  | nil => rfl
  | cons hd rt =>
    obtain ⟨xb, xe⟩ := hd
    exfalso
    have hb := hRS.1 (xb, xe) (List.mem_cons_self _ _)
    simp only at hb
    have hyxe : y < xe := by simpa using hH3 (xb, xe) (by simp)
    have hxL : x = countFalse F := hCT
    set m := max xb y with hm
    have hmy : y ≤ m := by omega
    have hmxe : m < xe := by omega
    have hseg : countFalse (F.take xe) = countFalse (F.take m) + (xe - m) := by
      refine countFalse_take_segment F m xe (by omega) hb.2.1 ?_
      intro p h1 h2
      exact hb.2.2 p (by omega) h2
    have htrue : ∀ p, y ≤ p → p < m → p < F.length → getB F p = true := by
      intro p h1 h2 h3
      cases Nat.lt_or_ge p xb with
      | inl hpxb =>
        refine runsState_no_false_gap F _ ((xb, xe) :: rt) y xb hRS ?_ p ?_ hpxb h3
        · intro b hb2
          simp only [List.head?_cons, Option.mem_def, Option.some.injEq] at hb2
          subst hb2
          exact le_refl _
        · simp only [rsMark]
          omega
      | inr hpxb => omega
    have heq : countFalse (F.take m) = countFalse (F.take y) :=
      countFalse_take_of_all_true F y m hmy htrue
    have hmono : countFalse (F.take xe) ≤ countFalse F := by
      have := countFalse_take_mono F xe F.length (hb.2.1)
      rwa [List.take_length] at this
    rw [hx] at hxL
    unfold rankF at hxL
    omega

/-- One pass of the inner element loop of `transform_expand`: the
invariant is preserved, inserts move to the output in order, `y`
advances, and either an element or a range is consumed — or the state
is returned unchanged with the elements exhausted or the head copy
blocked before the next range. -/
theorem teInner_spec : ∀ (els : List DeltaElement) (F : List Bool) (x y b1 : Nat)
    (rs : List (Nat × Nat)) (out : List DeltaElement)
    (els' : List DeltaElement) (x' y' b1' : Nat)
    (rs' : List (Nat × Nat)) (out' : List DeltaElement),
    TEInv F els x y b1 rs out →
    teInner (rsNib rs F.length) els x y b1 rs out = (els', x', y', b1', rs', out') →
    TEInv F els' x' y' b1' rs' out' ∧
      insList out' ++ insList els' = insList out ++ insList els ∧
      y ≤ y' ∧
      (rs' = rs ∨ rsNib rs F.length ≤ y') ∧
      (els'.length + rs'.length < els.length + rs.length ∨
        ((els', x', y', b1', rs', out') = (els, x, y, b1, rs, out) ∧
          (els = [] ∨ ∃ b e rest, els = .copy b e :: rest ∧ y < rsNib rs F.length)))
  | [], F, x, y, b1, rs, out, els', x', y', b1', rs', out', hinv, hE => by
    rw [show teInner (rsNib rs F.length) [] x y b1 rs out
        = ([], x, y, b1, rs, out) from rfl] at hE
    simp only [Prod.mk.injEq] at hE
    obtain ⟨h1, h2, h3, h4, h5, h6⟩ := hE
    subst h1; subst h2; subst h3; subst h4; subst h5; subst h6
    exact ⟨hinv, rfl, le_refl y, Or.inl rfl, Or.inr ⟨rfl, Or.inl rfl⟩⟩
  | .insert n :: rest, F, x, y, b1, rs, out, els', x', y', b1', rs', out', hinv, hE => by
    obtain ⟨hRS, hx, hH3, hy, hCT, hb1, hout⟩ := hinv
    rw [show teInner (rsNib rs F.length) (.insert n :: rest) x y b1 rs out
        = teInner (rsNib rs F.length) rest x y y rs
            ((if y > b1 then out ++ [.copy b1 y] else out) ++ [.insert n]) from rfl] at hE
    have hout2 : ElsTiling 0 ((if y > b1 then out ++ [.copy b1 y] else out)
        ++ [.insert n]) y := by
      by_cases hyb : y > b1
      · rw [if_pos hyb]
        exact elsTiling_append_insert 0 _ n y
          (elsTiling_append_copy 0 out b1 y hout (by omega))
      · rw [if_neg hyb]
        have hb1y : b1 = y := by omega
        subst hb1y
        exact elsTiling_append_insert 0 out n b1 hout
    have ih := teInner_spec rest F x y y rs
      ((if y > b1 then out ++ [.copy b1 y] else out) ++ [.insert n])
      els' x' y' b1' rs' out'
      ⟨hRS, hx, hH3, hy, hCT, le_refl y, hout2⟩ hE
    obtain ⟨ihinv, ihins, ihy, ihrs, ihprog⟩ := ih
    refine ⟨ihinv, ?_, ihy, ihrs, ?_⟩
    · rw [ihins]
      rw [show insList ((if y > b1 then out ++ [.copy b1 y] else out) ++ [.insert n])
          = insList (if y > b1 then out ++ [.copy b1 y] else out) ++ [n] from by
        rw [insList_append]; rfl]
      rw [show insList (.insert n :: rest) = n :: insList rest from rfl]
      by_cases hyb : y > b1
      · rw [if_pos hyb, insList_append]
        simp [insList]
      · rw [if_neg hyb]
        simp
    · left
      rcases ihprog with h | ⟨heq, _⟩
      · simp only [List.length_cons]
        omega
      · simp only [Prod.mk.injEq] at heq
        rw [heq.1, heq.2.2.2.2.1]
        simp only [List.length_cons]
        omega
  | .copy b e :: rest, F, x, y, b1, rs, out, els', x', y', b1', rs', out', hinv, hE => by
    obtain ⟨hRS, hx, hH3, hy, hCT, hb1, hout⟩ := hinv
    obtain ⟨hxe, hCTrest⟩ := hCT
    by_cases hnib : rsNib rs F.length ≤ y
    · -- the copy step runs
      cases rs with
      | nil =>
        -- y is at the end of the new universe; the copy is fully consumed
        have hyl : y = F.length := by
          simp only [rsNib] at hnib
          omega
        have hxL : x = countFalse F := by
          rw [hx, hyl, rankF_full F F.length (le_refl _)]
        have heL : e = countFalse F := by
          have := ctile_le e rest (countFalse F) hCTrest
          omega
        have hxe' : x = e := by omega
        rw [show teInner (rsNib ([] : List (Nat × Nat)) F.length)
              (.copy b e :: rest) x y b1 [] out
            = if rsNib ([] : List (Nat × Nat)) F.length ≤ y then
                (if x + (e + y - x - y) = e then rest else .copy b e :: rest,
                 x + (e + y - x - y), e + y - x, b1, [], out)
              else (.copy b e :: rest, x, y, b1, [], out) from rfl] at hE
        rw [if_pos hnib] at hE
        rw [show e + y - x - y = 0 from by omega] at hE
        rw [show e + y - x = y from by omega] at hE
        rw [if_pos (by omega : x + 0 = e)] at hE
        simp only [Prod.mk.injEq] at hE
        obtain ⟨h1, h2, h3, h4, h5, h6⟩ := hE
        subst h1; subst h2; subst h3; subst h4; subst h5; subst h6
        refine ⟨⟨hRS, by omega, hH3, hy, by rw [show x + 0 = e from by omega]; exact hCTrest,
          hb1, hout⟩, by rw [show insList (.copy b e :: rest) = insList rest from rfl],
          le_refl y, Or.inl rfl, Or.inl (by simp)⟩
      | cons hd rt =>
        obtain ⟨xb, xe⟩ := hd
        have hnib' : xb ≤ y := by simpa [rsNib] using hnib
        have hyxe : y < xe := by simpa using hH3 (xb, xe) (by simp)
        have hb := hRS.1 (xb, xe) (List.mem_cons_self _ _)
        simp only at hb
        set A := e + y - x with hA
        set ny := min A xe with hny
        set x1 := x + (ny - y) with hx1
        have hyny : y ≤ ny := by
          have : y ≤ A := by omega
          omega
        have hnyxe : ny ≤ xe := by omega
        have hnyF : ny ≤ F.length := by omega
        have hrank : rankF F ny = rankF F y + (ny - y) := by
          unfold rankF
          exact countFalse_take_segment F y ny hyny hnyF
            (fun p h1 h2 => hb.2.2 p (by omega) (by omega))
        have hx1rank : x1 = rankF F ny := by
          rw [hx1, hrank, ← hx]
        have hx1e : x1 ≤ e := by
          rw [hx1]
          omega
        rw [show teInner (rsNib ((xb, xe) :: rt) F.length)
              (.copy b e :: rest) x y b1 ((xb, xe) :: rt) out
            = if rsNib ((xb, xe) :: rt) F.length ≤ y then
                (if x + (min (e + y - x) xe - y) = e then rest else .copy b e :: rest,
                 x + (min (e + y - x) xe - y), min (e + y - x) xe, b1,
                 if min (e + y - x) xe = xe then rt else (xb, xe) :: rt, out)
              else (.copy b e :: rest, x, y, b1, (xb, xe) :: rt, out) from rfl] at hE
        rw [if_pos hnib] at hE
        rw [show min (e + y - x) xe = ny from rfl] at hE
        rw [show x + (ny - y) = x1 from rfl] at hE
        have hmark : rsMark ((xb, xe) :: rt) y = xb := by
          simp only [rsMark]
          omega
        have hmarkny : rsMark ((xb, xe) :: rt) ny = xb := by
          simp only [rsMark]
          omega
        have hmono := runsState_mono F _ ((xb, xe) :: rt) y ny hRS hyny
        by_cases hpop : ny = xe
        · rw [if_pos hpop] at hE
          simp only [Prod.mk.injEq] at hE
          obtain ⟨h1, h2, h3, h4, h5, h6⟩ := hE
          subst h2
          subst h3
          subst h4
          subst h5
          subst h6
          have hRS2 : RunsState F (rankF F (rsMark ((xb, xe) :: rt) y) + (xe - xb)) rt ny := by
            refine runsState_pop F _ xb xe rt ny hmono (by omega)
          have hx'eq : rankF F (rsMark ((xb, xe) :: rt) y) + (xe - xb)
              = rankF F (rsMark rt ny) := hRS2.2.2.2
          rw [hx'eq] at hRS2
          have hH3' : ∀ r ∈ rt.head?, ny < r.2 := by
            intro r hr
            cases rt with
            | nil => simp at hr
            | cons hd2 rt2 =>
              obtain ⟨b2, e2⟩ := hd2
              simp only [List.head?_cons, Option.mem_def, Option.some.injEq] at hr
              subst hr
              have hch := hRS.2.1
              rw [List.chain'_cons'] at hch
              have hx2 := hch.1 (b2, e2) (by simp)
              have hb2 := hRS.1 (b2, e2) (List.mem_cons_of_mem _ (List.mem_cons_self _ _))
              simp only at hx2 hb2
              omega
          refine ⟨⟨hRS2, hx1rank, hH3', hnyF, ?_, by omega, hout⟩, ?_, hyny, ?_, ?_⟩
          · by_cases hfull : x1 = e
            · rw [if_pos hfull] at h1
              subst h1
              rw [hfull]
              exact hCTrest
            · rw [if_neg hfull] at h1
              subst h1
              exact ⟨hx1e, hCTrest⟩
          · by_cases hfull : x1 = e
            · rw [if_pos hfull] at h1
              subst h1
              rw [show insList (.copy b e :: rest) = insList rest from rfl]
            · rw [if_neg hfull] at h1
              subst h1
              rfl
          · right
            simp only [rsNib]
            omega
          · left
            by_cases hfull : x1 = e
            · rw [if_pos hfull] at h1
              subst h1
              simp only [List.length_cons]
              omega
            · rw [if_neg hfull] at h1
              subst h1
              simp only [List.length_cons]
              omega
        · rw [if_neg hpop] at hE
          simp only [Prod.mk.injEq] at hE
          obtain ⟨h1, h2, h3, h4, h5, h6⟩ := hE
          subst h2
          subst h3
          subst h4
          subst h5
          subst h6
          have hAe : ny = A := by omega
          have hfull : x1 = e := by
            rw [hx1, hAe, hA]
            omega
          rw [if_pos hfull] at h1
          subst h1
          have hRS2 : RunsState F (rankF F (rsMark ((xb, xe) :: rt) ny)) ((xb, xe) :: rt) ny := by
            have hmm : rankF F (rsMark ((xb, xe) :: rt) ny)
                = rankF F (rsMark ((xb, xe) :: rt) y) := by
              rw [hmarkny, hmark]
            rw [hmm]
            exact hmono
          have hH3' : ∀ r ∈ ((xb, xe) :: rt).head?, ny < r.2 := by
            intro r hr
            simp only [List.head?_cons, Option.mem_def, Option.some.injEq] at hr
            subst hr
            simp only
            omega
          refine ⟨⟨hRS2, hx1rank, hH3', hnyF, by rw [hfull]; exact hCTrest, by omega, hout⟩,
            by rw [show insList (.copy b e :: rest) = insList rest from rfl], hyny, ?_, ?_⟩
          · right
            simp only [rsNib]
            omega
          · left
            simp only [List.length_cons]
            omega
    · -- blocked: y is before the next range
      cases rs with
      | nil =>
        rw [show teInner (rsNib ([] : List (Nat × Nat)) F.length)
              (.copy b e :: rest) x y b1 [] out
            = if rsNib ([] : List (Nat × Nat)) F.length ≤ y then
                (if x + (e + y - x - y) = e then rest else .copy b e :: rest,
                 x + (e + y - x - y), e + y - x, b1, [], out)
              else (.copy b e :: rest, x, y, b1, [], out) from rfl] at hE
        rw [if_neg hnib] at hE
        simp only [Prod.mk.injEq] at hE
        obtain ⟨h1, h2, h3, h4, h5, h6⟩ := hE
        subst h1; subst h2; subst h3; subst h4; subst h5; subst h6
        refine ⟨⟨hRS, hx, hH3, hy, ⟨hxe, hCTrest⟩, hb1, hout⟩, rfl, le_refl y,
          Or.inl rfl, Or.inr ⟨rfl, Or.inr ⟨b, e, rest, rfl, ?_⟩⟩⟩
        simp only [rsNib] at hnib ⊢
        omega
      | cons hd rt =>
        obtain ⟨xb, xe⟩ := hd
        rw [show teInner (rsNib ((xb, xe) :: rt) F.length)
              (.copy b e :: rest) x y b1 ((xb, xe) :: rt) out
            = if rsNib ((xb, xe) :: rt) F.length ≤ y then
                (if x + (min (e + y - x) xe - y) = e then rest else .copy b e :: rest,
                 x + (min (e + y - x) xe - y), min (e + y - x) xe, b1,
                 if min (e + y - x) xe = xe then rt else (xb, xe) :: rt, out)
              else (.copy b e :: rest, x, y, b1, (xb, xe) :: rt, out) from rfl] at hE
        rw [if_neg hnib] at hE
        simp only [Prod.mk.injEq] at hE
        obtain ⟨h1, h2, h3, h4, h5, h6⟩ := hE
        subst h1; subst h2; subst h3; subst h4; subst h5; subst h6
        exact ⟨⟨hRS, hx, hH3, hy, ⟨hxe, hCTrest⟩, hb1, hout⟩, rfl, le_refl y,
          Or.inl rfl, Or.inr ⟨rfl, Or.inr ⟨b, e, rest, rfl, by omega⟩⟩⟩

theorem rsNib_le (F : List Bool) (x : Nat) (rs : List (Nat × Nat)) (w : Nat)
    (h : RunsState F x rs w) : rsNib rs F.length ≤ F.length := by
  cases rs with
  | nil => exact le_refl _
  | cons hd rt =>
    obtain ⟨xb, xe⟩ := hd
    have hb := h.1 (xb, xe) (List.mem_cons_self _ _)
    simp only at hb
    simp only [rsNib]
    omega

/-- The outer `transform_expand` loop reaches the end of the new
universe and emits a tiling output carrying the inserts in order. -/
theorem teLoop_spec (F : List Bool) (after : Bool) : ∀ (fuel : Nat)
    (els : List DeltaElement) (x y b1 : Nat) (rs : List (Nat × Nat))
    (out : List DeltaElement),
    TEInv F els x y b1 rs out →
    els.length + rs.length + (F.length - y) < fuel →
    (teLoop F.length after fuel els x y b1 rs out).1 = F.length ∧
      (teLoop F.length after fuel els x y b1 rs out).2.1 ≤ F.length ∧
      ElsTiling 0 (teLoop F.length after fuel els x y b1 rs out).2.2
        (teLoop F.length after fuel els x y b1 rs out).2.1 ∧
      insList (teLoop F.length after fuel els x y b1 rs out).2.2
        = insList out ++ insList els
  | 0, els, x, y, b1, rs, out, hinv, hfuel => absurd hfuel (by omega)
  | fuel + 1, els, x, y, b1, rs, out, hinv, hfuel => by
    have hy : y ≤ F.length := hinv.2.2.2.1
    have hnible : rsNib rs F.length ≤ F.length := rsNib_le F _ rs y hinv.1
    by_cases hcond : y < F.length ∨ ¬ els.isEmpty
    · set y1 := if after = true ∧ y < rsNib rs F.length then rsNib rs F.length else y
        with hy1def
      have hyy1 : y ≤ y1 := by
        rw [hy1def]
        split
        · omega
        · exact le_refl y
      have hy1nib : y1 ≤ rsNib rs F.length ∨ y1 = y := by
        rw [hy1def]
        split
        · exact Or.inl (le_refl _)
        · exact Or.inr rfl
      have hinv1 : TEInv F els x y1 b1 rs out := by
        rw [hy1def]
        split
        · rcases (by assumption : after = true ∧ y < rsNib rs F.length) with ⟨-, hlt⟩
          exact teJump F els x y b1 rs out (rsNib rs F.length) hinv (by omega) (le_refl _)
        · exact hinv
      rcases hE : teInner (rsNib rs F.length) els x y1 b1 rs out
        with ⟨els2, x2, y2, b12, rs2, out2⟩
      have hspec := teInner_spec els F x y1 b1 rs out els2 x2 y2 b12 rs2 out2 hinv1 hE
      obtain ⟨hinv2, hins2, hy12, hrs2, hprog⟩ := hspec
      set y3 := if ¬ after = true ∧ y2 < rsNib rs F.length then rsNib rs F.length else y2
        with hy3def
      have hy23 : y2 ≤ y3 := by
        rw [hy3def]
        split
        · rcases (by assumption : ¬ after = true ∧ y2 < rsNib rs F.length) with ⟨-, hlt⟩
          omega
        · exact le_refl y2
      have hy3le : y3 ≤ F.length := by
        rw [hy3def]
        split
        · exact hnible
        · exact hinv2.2.2.2.1
      have hinv3 : TEInv F els2 x2 y3 b12 rs2 out2 := by
        rw [hy3def]
        split
        · rcases (by assumption : ¬ after = true ∧ y2 < rsNib rs F.length) with ⟨-, hlt⟩
          have hrs2eq : rs2 = rs := by
            rcases hrs2 with h | h
            · exact h
            · omega
          refine teJump F els2 x2 y2 b12 rs2 out2 (rsNib rs F.length) hinv2 (by omega) ?_
          rw [hrs2eq]
        · exact hinv2
      have hstep : teLoop F.length after (fuel + 1) els x y b1 rs out
          = teLoop F.length after fuel els2 x2 y3 b12 rs2 out2 := by
        rw [show teLoop F.length after (fuel + 1) els x y b1 rs out
            = if y < F.length ∨ ¬ els.isEmpty then
                teLoop F.length after fuel
                  (teInner (rsNib rs F.length) els x y1 b1 rs out).1
                  (teInner (rsNib rs F.length) els x y1 b1 rs out).2.1
                  (if ¬ after = true ∧
                      (teInner (rsNib rs F.length) els x y1 b1 rs out).2.2.1
                        < rsNib rs F.length then rsNib rs F.length
                   else (teInner (rsNib rs F.length) els x y1 b1 rs out).2.2.1)
                  (teInner (rsNib rs F.length) els x y1 b1 rs out).2.2.2.1
                  (teInner (rsNib rs F.length) els x y1 b1 rs out).2.2.2.2.1
                  (teInner (rsNib rs F.length) els x y1 b1 rs out).2.2.2.2.2
              else (y, b1, out) from rfl]
        rw [if_pos hcond, hE]
      have hmu : els2.length + rs2.length + (F.length - y3) < fuel := by
        rcases hprog with h | ⟨heq, hstuck⟩
        · omega
        · simp only [Prod.mk.injEq] at heq
          obtain ⟨he1, he2, he3, he4, he5, he6⟩ := heq
          rcases hstuck with hnil | ⟨cb, ce, crest, hcels, hblock⟩
          · subst hnil
            have hrsnil : rs = [] := teStuckEmpty F x y1 b1 rs out hinv1
            subst hrsnil
            have hyl : y < F.length := by
              rcases hcond with h | h
              · exact h
              · simp at h
            have hy3l : y3 = F.length := by
              rw [hy3def]
              cases hafter : after with
              | true =>
                have hy1l : y1 = F.length := by
                  rw [hy1def, hafter]
                  simp only [rsNib]
                  simp [hyl]
                rw [he3, hy1l]
                simp [rsNib]
              | false =>
                have hy1l : y1 = y := by
                  rw [hy1def, hafter]
                  simp
                simp only [rsNib] at *
                rw [he3, hy1l]
                rw [if_pos ⟨by simp [hafter], by omega⟩]
            rw [he1, he5, hy3l]
            simp only [List.length_nil]
            omega
          · subst hcels
            have hafter : after = false := by
              cases hafter : after with
              | false => rfl
              | true =>
                exfalso
                rw [hy1def, hafter] at hblock
                by_cases hylt : y < rsNib rs F.length
                · rw [if_pos ⟨rfl, hylt⟩] at hblock
                  omega
                · rw [if_neg (by simp [hylt])] at hblock
                  omega
            have hy1y : y1 = y := by
              rw [hy1def, hafter]
              simp
            have hy3nib : y3 = rsNib rs F.length := by
              rw [hy3def, he3, hy1y]
              rw [if_pos ⟨by simp [hafter], by rw [hy1y] at hblock; exact hblock⟩]
            rw [he1, he5, hy3nib]
            rw [hy1y] at hblock
            simp only [List.length_cons] at hfuel ⊢
            omega
      have ih := teLoop_spec F after fuel els2 x2 y3 b12 rs2 out2 hinv3 hmu
      rw [hstep]
      refine ⟨ih.1, ih.2.1, ih.2.2.1, ?_⟩
      rw [ih.2.2.2, hins2]
    · push_neg at hcond
      obtain ⟨hyl, hels⟩ := hcond
      have helsnil : els = [] := by
        cases els with
        | nil => rfl
        | cons hd tl => simp at hels
      subst helsnil
      have hyeq : y = F.length := by omega
      rw [show teLoop F.length after (fuel + 1) [] x y b1 rs out
          = if y < F.length ∨ ¬ ([] : List DeltaElement).isEmpty then
              teLoop F.length after fuel
                (teInner (rsNib rs F.length) [] x
                  (if after = true ∧ y < rsNib rs F.length then rsNib rs F.length else y)
                  b1 rs out).1
                (teInner (rsNib rs F.length) [] x
                  (if after = true ∧ y < rsNib rs F.length then rsNib rs F.length else y)
                  b1 rs out).2.1
                (if ¬ after = true ∧
                    (teInner (rsNib rs F.length) [] x
                      (if after = true ∧ y < rsNib rs F.length then rsNib rs F.length
                       else y) b1 rs out).2.2.1 < rsNib rs F.length
                 then rsNib rs F.length
                 else (teInner (rsNib rs F.length) [] x
                   (if after = true ∧ y < rsNib rs F.length then rsNib rs F.length else y)
                   b1 rs out).2.2.1)
                (teInner (rsNib rs F.length) [] x
                  (if after = true ∧ y < rsNib rs F.length then rsNib rs F.length else y)
                  b1 rs out).2.2.2.1
                (teInner (rsNib rs F.length) [] x
                  (if after = true ∧ y < rsNib rs F.length then rsNib rs F.length else y)
                  b1 rs out).2.2.2.2.1
                (teInner (rsNib rs F.length) [] x
                  (if after = true ∧ y < rsNib rs F.length then rsNib rs F.length else y)
                  b1 rs out).2.2.2.2.2
            else (y, b1, out) from rfl]
      rw [if_neg (by simp [hyl])]
      refine ⟨hyeq, by rw [← hyeq]; exact le_trans hinv.2.2.2.2.2.1 (le_refl y), ?_, by simp [insList]⟩
      have hb1y : b1 ≤ y := hinv.2.2.2.2.2.1
      exact hinv.2.2.2.2.2.2

/-- `InsertDelta::transform_expand` maps a tiling insert-delta on base
`[0, base_len)` to a tiling insert-delta on `[0, l)` with the same
inserts, whenever the transform keeps exactly `base_len` positions. -/
theorem transform_expand_struct (d : Delta) (xform : Subset) (l : Nat) (after : Bool)
    (ht : ElsTiling 0 d.els d.base_len)
    (hlen : xform.length ≤ l)
    (hcf : countFalse (padTo l xform) = d.base_len) :
    ElsTiling 0 (d.transform_expand xform l after).els l ∧
      insList (d.transform_expand xform l after).els = insList d.els ∧
      (d.transform_expand xform l after).base_len = l := by
  have hFlen : (padTo l xform).length = l := padTo_length l xform hlen
  have hinit := runsState_init (padTo l xform)
  have hx0 := hinit.2.2.2
  have hinv : TEInv (padTo l xform) d.els 0 0 0 (falseRuns (padTo l xform) 0) [] := by
    refine ⟨?_, ?_, ?_, Nat.zero_le _, ?_, le_refl 0, rfl⟩
    · rw [← hx0]
      exact hinit
    · rfl
    · intro r hr
      have hb := falseRuns_bounds (padTo l xform) 0 r (List.mem_of_mem_head? hr)
      omega
    · rw [hcf]
      exact elsTiling_ctile 0 d.els d.base_len ht
  have hfuel : d.els.length + (falseRuns (padTo l xform) 0).length
        + ((padTo l xform).length - 0)
      < l + 2 * d.els.length + (falseRuns (padTo l xform) 0).length + 2 := by
    rw [hFlen]
    omega
  have hmain := teLoop_spec (padTo l xform) after
    (l + 2 * d.els.length + (falseRuns (padTo l xform) 0).length + 2)
    d.els 0 0 0 (falseRuns (padTo l xform) 0) [] hinv hfuel
  rw [hFlen] at hmain
  obtain ⟨h1, h2, h3, h4⟩ := hmain
  have hels : (d.transform_expand xform l after).els
      = if (teLoop l after
            (l + 2 * d.els.length + (falseRuns (padTo l xform) 0).length + 2)
            d.els 0 0 0 (falseRuns (padTo l xform) 0) []).1
          > (teLoop l after
            (l + 2 * d.els.length + (falseRuns (padTo l xform) 0).length + 2)
            d.els 0 0 0 (falseRuns (padTo l xform) 0) []).2.1 then
          (teLoop l after
            (l + 2 * d.els.length + (falseRuns (padTo l xform) 0).length + 2)
            d.els 0 0 0 (falseRuns (padTo l xform) 0) []).2.2
            ++ [.copy (teLoop l after
                (l + 2 * d.els.length + (falseRuns (padTo l xform) 0).length + 2)
                d.els 0 0 0 (falseRuns (padTo l xform) 0) []).2.1
              (teLoop l after
                (l + 2 * d.els.length + (falseRuns (padTo l xform) 0).length + 2)
                d.els 0 0 0 (falseRuns (padTo l xform) 0) []).1]
        else (teLoop l after
          (l + 2 * d.els.length + (falseRuns (padTo l xform) 0).length + 2)
          d.els 0 0 0 (falseRuns (padTo l xform) 0) []).2.2 := rfl
  refine ⟨?_, ?_, rfl⟩
  · rw [hels]
    by_cases hgt : (teLoop l after
        (l + 2 * d.els.length + (falseRuns (padTo l xform) 0).length + 2)
        d.els 0 0 0 (falseRuns (padTo l xform) 0) []).1
      > (teLoop l after
        (l + 2 * d.els.length + (falseRuns (padTo l xform) 0).length + 2)
        d.els 0 0 0 (falseRuns (padTo l xform) 0) []).2.1
    · rw [if_pos hgt, h1]
      rw [h1] at hgt
      exact elsTiling_append_copy 0 _ _ l h3 (by omega)
    · rw [if_neg hgt]
      rw [h1] at hgt
      have hb1l : (teLoop l after
          (l + 2 * d.els.length + (falseRuns (padTo l xform) 0).length + 2)
          d.els 0 0 0 (falseRuns (padTo l xform) 0) []).2.1 = l := by omega
      rw [hb1l] at h3
      exact h3
  · rw [hels]
    by_cases hgt : (teLoop l after
        (l + 2 * d.els.length + (falseRuns (padTo l xform) 0).length + 2)
        d.els 0 0 0 (falseRuns (padTo l xform) 0) []).1
      > (teLoop l after
        (l + 2 * d.els.length + (falseRuns (padTo l xform) 0).length + 2)
        d.els 0 0 0 (falseRuns (padTo l xform) 0) []).2.1
    · rw [if_pos hgt, insList_append, h4]
      simp [insList]
    · rw [if_neg hgt, h4]
      simp [insList]

/-! ## `factor` and `inserted_subset` structure -/

theorem sbAddRange_length (cur : List Bool) (b e : Nat) :
    (sbAddRange cur b e).length = max (max cur.length b) e := by
  simp [sbAddRange]
  omega

theorem sbAddRange_countTrue (cur : List Bool) (b e : Nat) :
    countTrue (sbAddRange cur b e)
      = countTrue cur + (e - max b cur.length) := by
  unfold sbAddRange
  rw [countTrue_append, countTrue_append]
  unfold countTrue
  rw [List.count_replicate, List.count_replicate]
  simp

theorem factorGo_spec : ∀ (els : List DeltaElement) (b1 e1 : Nat)
    (ins : List DeltaElement) (sb : List Bool) (L : Nat),
    ElsWF e1 els L → b1 ≤ e1 → ElsTiling 0 ins b1 → sb.length ≤ e1 →
    ElsTiling 0 (factorGo els b1 e1 ins sb).1 (factorGo els b1 e1 ins sb).2.2.1 ∧
      insList (factorGo els b1 e1 ins sb).1 = insList ins ++ insList els ∧
      (factorGo els b1 e1 ins sb).2.2.1 ≤ (factorGo els b1 e1 ins sb).2.2.2 ∧
      (factorGo els b1 e1 ins sb).2.2.2 ≤ L ∧
      (factorGo els b1 e1 ins sb).2.1.length ≤ (factorGo els b1 e1 ins sb).2.2.2
  | [], b1, e1, ins, sb, L, hwf, hb1, hins, hsb => by
    rw [show factorGo [] b1 e1 ins sb = (ins, sb, b1, e1) from rfl]
    exact ⟨hins, by simp [insList], hb1, hwf, hsb⟩
  | .copy b e :: rest, b1, e1, ins, sb, L, hwf, hb1, hins, hsb => by
    obtain ⟨he1b, hbe, hwfrest⟩ := hwf
    rw [show factorGo (.copy b e :: rest) b1 e1 ins sb
        = factorGo rest b1 e ins (sbAddRange sb e1 b) from rfl]
    have ih := factorGo_spec rest b1 e ins (sbAddRange sb e1 b) L hwfrest
      (by omega) hins
      (by rw [sbAddRange_length]; omega)
    rw [show insList (.copy b e :: rest) = insList rest from rfl]
    exact ih
  | .insert n :: rest, b1, e1, ins, sb, L, hwf, hb1, hins, hsb => by
    rw [show factorGo (.insert n :: rest) b1 e1 ins sb
        = factorGo rest e1 e1
            (ins ++ (if e1 > b1 then [.copy b1 e1] else []) ++ [.insert n]) sb from rfl]
    have hins2 : ElsTiling 0 (ins ++ (if e1 > b1 then [.copy b1 e1] else [])
        ++ [.insert n]) e1 := by
      by_cases hgt : e1 > b1
      · rw [if_pos hgt]
        exact elsTiling_append_insert 0 _ n e1
          (elsTiling_append_copy 0 ins b1 e1 hins (by omega))
      · rw [if_neg hgt]
        have : b1 = e1 := by omega
        subst this
        simp only [List.append_nil]
        exact elsTiling_append_insert 0 ins n b1 hins
    have ih := factorGo_spec rest e1 e1
      (ins ++ (if e1 > b1 then [.copy b1 e1] else []) ++ [.insert n]) sb L
      hwf (le_refl e1) hins2 hsb
    refine ⟨ih.1, ?_, ih.2.2.1, ih.2.2.2.1, ih.2.2.2.2⟩
    rw [ih.2.1]
    rw [insList_append, insList_append]
    rw [show insList (.insert n :: rest) = n :: insList rest from rfl]
    rw [show insList [DeltaElement.insert n] = [n] from rfl]
    have hcopyins : insList (if e1 > b1 then [DeltaElement.copy b1 e1] else []) = [] := by
      split <;> rfl
    rw [hcopyins]
    simp

/-- `Delta::factor`: the insert-only part of a well-formed delta tiles
the base exactly, keeps the inserts in order, and the deletion subset
covers the whole base universe. -/
theorem factor_struct (d : Delta) (h : Delta.WF d) :
    ElsTiling 0 d.factor.1.els d.base_len ∧
      insList d.factor.1.els = insList d.els ∧
      d.factor.1.base_len = d.base_len ∧
      d.factor.2.length = d.base_len := by
  have hgo := factorGo_spec d.els 0 0 [] [] d.base_len h (le_refl 0) rfl (by simp)
  obtain ⟨htile, hinsl, hb1e1, he1L, hsb⟩ := hgo
  have hfe : d.factor.1.els
      = (factorGo d.els 0 0 [] []).1
        ++ if (factorGo d.els 0 0 [] []).2.2.1 < d.base_len then
            [.copy (factorGo d.els 0 0 [] []).2.2.1 d.base_len] else [] := rfl
  have hfs : d.factor.2
      = sbAddRange (factorGo d.els 0 0 [] []).2.1
          (factorGo d.els 0 0 [] []).2.2.2 d.base_len := rfl
  refine ⟨?_, ?_, rfl, ?_⟩
  · rw [hfe]
    by_cases hlt : (factorGo d.els 0 0 [] []).2.2.1 < d.base_len
    · rw [if_pos hlt]
      exact elsTiling_append_copy 0 _ _ d.base_len htile (by omega)
    · rw [if_neg hlt]
      have : (factorGo d.els 0 0 [] []).2.2.1 = d.base_len := by omega
      rw [List.append_nil, ← this]
      exact htile
  · rw [hfe, insList_append, hinsl]
    have : insList (if (factorGo d.els 0 0 [] []).2.2.1 < d.base_len then
        [DeltaElement.copy (factorGo d.els 0 0 [] []).2.2.1 d.base_len] else []) = [] := by
      split <;> rfl
    rw [this]
    simp [insList]
  · rw [hfs, sbAddRange_length]
    omega

theorem insTotal_nil : insTotal ([] : List DeltaElement) = 0 := rfl

theorem insTotal_copy (b e : Nat) (rest : List DeltaElement) :
    insTotal (.copy b e :: rest) = insTotal rest := rfl

theorem insTotal_insert (n : Rope) (rest : List DeltaElement) :
    insTotal (.insert n :: rest) = n.length + insTotal rest := by
  simp [insTotal, insList]

theorem insertedSubsetGo_spec : ∀ (els : List DeltaElement) (x : Nat) (sb : List Bool),
    sb.length ≤ x →
    countTrue (insertedSubsetGo els x sb) = countTrue sb + insTotal els ∧
      (insertedSubsetGo els x sb).length ≤ x + totalElementLen els
  | [], x, sb, hsb => by
    rw [show insertedSubsetGo [] x sb = sb from rfl]
    refine ⟨by simp [insTotal, insList], ?_⟩
    rw [show totalElementLen [] = 0 from rfl]
    omega
  | .copy b e :: rest, x, sb, hsb => by
    rw [show insertedSubsetGo (.copy b e :: rest) x sb
        = insertedSubsetGo rest (x + (e - b)) sb from rfl]
    have ih := insertedSubsetGo_spec rest (x + (e - b)) sb (by omega)
    refine ⟨by rw [ih.1, insTotal_copy], ?_⟩
    rw [show totalElementLen (DeltaElement.copy b e :: rest)
        = (e - b) + totalElementLen rest from by simp [totalElementLen_eq, DeltaElement.len]]
    omega
  | .insert n :: rest, x, sb, hsb => by
    rw [show insertedSubsetGo (.insert n :: rest) x sb
        = insertedSubsetGo rest (x + n.length) (sbAddRange sb x (x + n.length)) from rfl]
    have hlen : (sbAddRange sb x (x + n.length)).length = x + n.length := by
      rw [sbAddRange_length]
      omega
    have ih := insertedSubsetGo_spec rest (x + n.length) (sbAddRange sb x (x + n.length))
      (by omega)
    have hct : countTrue (sbAddRange sb x (x + n.length)) = countTrue sb + n.length := by
      rw [sbAddRange_countTrue]
      congr 1
      omega
    refine ⟨?_, ?_⟩
    · rw [ih.1, hct, insTotal_insert]
      omega
    · rw [show totalElementLen (DeltaElement.insert n :: rest)
          = n.length + totalElementLen rest from by
        simp [totalElementLen_eq, DeltaElement.len]]
      omega

/-- `InsertDelta::inserted_subset` marks exactly the inserted
characters: its deleted count is the total insert length, and it never
exceeds the new document length. -/
theorem inserted_subset_spec (d : Delta) :
    countTrue d.inserted_subset = insTotal d.els ∧
      d.inserted_subset.length ≤ totalElementLen d.els := by
  have h := insertedSubsetGo_spec d.els 0 [] (by simp)
  rw [show countTrue [] = 0 from rfl] at h
  simpa [Delta.inserted_subset] using h

theorem is_empty_iff (s : Subset) : s.is_empty = true ↔ countTrue s = 0 := by
  constructor
  · exact is_empty_countTrue s
  · intro h
    unfold Subset.is_empty
    rw [List.all_eq_true]
    intro b hb
    cases hbv : b with
    | false => rfl
    | true =>
      exfalso
      unfold countTrue at h
      rw [List.count_eq_zero] at h
      rw [hbv] at hb
      exact h hb

/-! ## `transform_shrink` and the length of an applied insert-delta -/

theorem rank_compl (xform : Subset) (L p : Nat) :
    Subset.doc_index_to_subset (Subset.complement xform L) p
      = countFalse ((padTo L xform).take p) := by
  unfold Subset.doc_index_to_subset Subset.complement
  rw [← List.map_take]
  exact countTrue_map_not _

theorem applyShrink_length : ∀ (els : List DeltaElement) (lo L : Nat)
    (r : Nat → Nat) (s : Rope),
    ElsTiling lo els L →
    (∀ a b, a ≤ b → b ≤ L → r a ≤ r b) →
    r L ≤ s.length →
    (applyEls (els.map (fun el => match el with
        | DeltaElement.copy b e => DeltaElement.copy (r b) (r e)
        | DeltaElement.insert n => DeltaElement.insert n)) s).length
      = (r L - r lo) + insTotal els
  | [], lo, L, r, s, ht, hmono, hrs => by
    have : lo = L := ht
    subst this
    simp [applyEls, insTotal, insList]
  | .copy b e :: rest, lo, L, r, s, ht, hmono, hrs => by
    obtain ⟨hb, hle, htrest⟩ := ht
    subst hb
    have heL : e ≤ L := elsTiling_le e rest L htrest
    have ih := applyShrink_length rest e L r s htrest hmono hrs
    rw [show ((DeltaElement.copy b e :: rest).map (fun el => match el with
        | DeltaElement.copy b e => DeltaElement.copy (r b) (r e)
        | DeltaElement.insert n => DeltaElement.insert n))
      = DeltaElement.copy (r b) (r e) :: (rest.map (fun el => match el with
        | DeltaElement.copy b e => DeltaElement.copy (r b) (r e)
        | DeltaElement.insert n => DeltaElement.insert n)) from rfl]
    rw [show applyEls (DeltaElement.copy (r b) (r e) :: (rest.map (fun el => match el with
        | DeltaElement.copy b e => DeltaElement.copy (r b) (r e)
        | DeltaElement.insert n => DeltaElement.insert n))) s
      = (s.drop (r b)).take (r e - r b) ++ applyEls (rest.map (fun el => match el with
        | DeltaElement.copy b e => DeltaElement.copy (r b) (r e)
        | DeltaElement.insert n => DeltaElement.insert n)) s from by
      simp [applyEls, elemApply]]
    rw [List.length_append, ih, insTotal_copy]
    rw [List.length_take, List.length_drop]
    have h1 : r b ≤ r e := hmono b e hle heL
    have h2 : r e ≤ r L := hmono e L heL (le_refl L)
    omega
  | .insert n :: rest, lo, L, r, s, ht, hmono, hrs => by
    have ih := applyShrink_length rest lo L r s ht hmono hrs
    rw [show ((DeltaElement.insert n :: rest).map (fun el => match el with
        | DeltaElement.copy b e => DeltaElement.copy (r b) (r e)
        | DeltaElement.insert n => DeltaElement.insert n))
      = DeltaElement.insert n :: (rest.map (fun el => match el with
        | DeltaElement.copy b e => DeltaElement.copy (r b) (r e)
        | DeltaElement.insert n => DeltaElement.insert n)) from rfl]
    rw [show applyEls (DeltaElement.insert n :: (rest.map (fun el => match el with
        | DeltaElement.copy b e => DeltaElement.copy (r b) (r e)
        | DeltaElement.insert n => DeltaElement.insert n))) s
      = n ++ applyEls (rest.map (fun el => match el with
        | DeltaElement.copy b e => DeltaElement.copy (r b) (r e)
        | DeltaElement.insert n => DeltaElement.insert n)) s from by
      simp [applyEls, elemApply]]
    rw [List.length_append, ih, insTotal_insert]
    omega

/-- Applying an insert-delta shrunk through `xform` to the kept part
of its base grows the text by exactly the inserted length. -/
theorem transform_shrink_apply_length (d : Delta) (xform : Subset) (s : Rope)
    (ht : ElsTiling 0 d.els d.base_len)
    (hx : xform.length ≤ d.base_len)
    (hs : s.length = countFalse (padTo d.base_len xform)) :
    ((d.transform_shrink xform).apply s).length = s.length + insTotal d.els := by
  have hmain := applyShrink_length d.els 0 d.base_len
    (Subset.doc_index_to_subset (Subset.complement xform d.base_len)) s ht
    (by
      intro a b hab hbL
      rw [rank_compl, rank_compl]
      exact countFalse_take_mono _ a b hab)
    (by
      rw [rank_compl]
      rw [List.take_of_length_le (by rw [padTo_length _ _ hx])]
      omega)
  rw [show ((d.transform_shrink xform).apply s)
      = applyEls (d.els.map (fun el => match el with
        | DeltaElement.copy b e =>
          DeltaElement.copy
            (Subset.doc_index_to_subset (Subset.complement xform d.base_len) b)
            (Subset.doc_index_to_subset (Subset.complement xform d.base_len) e)
        | DeltaElement.insert n => DeltaElement.insert n)) s from rfl]
  rw [hmain]
  rw [rank_compl, rank_compl]
  rw [List.take_of_length_le (by rw [padTo_length _ _ hx])]
  simp only [List.take_zero]
  rw [show countFalse ([] : List Bool) = 0 from rfl]
  omega

/-! ## History length lemmas -/

theorem tu_bound (acc ins : Subset) (P R : Nat) (hacc : acc.length ≤ P)
    (hlen : ins.length ≤ R) (hR : R = P + countTrue ins) :
    (Subset.transform_union acc ins).length ≤ R := by
  rw [transform_union_length]
  have := countTrue_add_countFalse ins
  unfold countTrue countFalse at *
  omega

theorem te_bound (acc ins : Subset) (P R : Nat) (hacc : acc.length ≤ P)
    (hlen : ins.length ≤ R) (hR : R = P + countTrue ins) :
    (Subset.transform_expand acc ins).length ≤ R := by
  rw [transform_expand_length]
  have := countTrue_add_countFalse ins
  unfold countTrue countFalse at *
  omega

theorem stepOK_ge (P : Nat) (r : Revision) (h : StepOK P r) : P ≤ r.union_str_len := by
  obtain ⟨-, h2⟩ := h
  cases hedit : r.edit with
  | edit p g ins dels =>
    rw [hedit] at h2
    omega
  | undo groups =>
    rw [hedit] at h2
    omega

theorem lastLen_cons (r : Revision) (rest : List Revision) (P : Nat) :
    lastLen (r :: rest) P = lastLen rest r.union_str_len := by
  cases rest with
  | nil => rfl
  | cons r2 rest2 =>
    unfold lastLen
    rw [List.getLast?_cons_cons]
    cases hgl : (r2 :: rest2).getLast? with
    | none => exact absurd (List.getLast?_eq_none_iff.mp hgl) (by simp)
    | some rr => rfl

theorem lastLen_ge (revs : List Revision) : ∀ (P : Nat), RevsOK P revs →
    P ≤ lastLen revs P := by
  induction revs with
  | nil => intro P _; exact le_refl P
  | cons r rest ih =>
    intro P h
    rw [lastLen_cons]
    exact le_trans (stepOK_ge P r h.1) (ih r.union_str_len h.2)

theorem lastLen_getD (l : List Revision) (P : Nat) (h : l ≠ []) :
    lastLen l P = (l.getLast?.getD dummyRev).union_str_len := by
  unfold lastLen
  cases hl : l.getLast? with
  | none => exact absurd (List.getLast?_eq_none_iff.mp hl) h
  | some r => rfl

theorem revsOK_append (r : Revision) : ∀ (l : List Revision) (P : Nat),
    RevsOK P l → StepOK (lastLen l P) r → RevsOK P (l ++ [r])
  | [], P, _, hr => ⟨hr, trivial⟩
  | a :: rest, P, hl, hr => by
    rw [List.cons_append]
    refine ⟨hl.1, revsOK_append r rest a.union_str_len hl.2 ?_⟩
    rw [← lastLen_cons a rest P]
    exact hr

theorem revsOK_index : ∀ (l : List Revision) (P ix : Nat), ix < l.length → RevsOK P l →
    (l.getD ix dummyRev).deletes_from_union.length ≤ (l.getD ix dummyRev).union_str_len ∧
      RevsOK (l.getD ix dummyRev).union_str_len (l.drop (ix + 1)) ∧
      lastLen (l.drop (ix + 1)) (l.getD ix dummyRev).union_str_len = lastLen l P
  | [], P, ix, hix, _ => absurd hix (by simp)
  | r :: rest, P, 0, hix, h => by
    refine ⟨h.1.1, h.2, ?_⟩
    rw [show (r :: rest).drop 1 = rest from rfl, lastLen_cons]
    rfl
  | r :: rest, P, ix + 1, hix, h => by
    have ih := revsOK_index rest r.union_str_len ix (by simpa using hix) h.2
    refine ⟨ih.1, ih.2.1, ?_⟩
    rw [show (r :: rest).drop (ix + 1 + 1) = rest.drop (ix + 1) from rfl]
    rw [show (r :: rest).getD (ix + 1) dummyRev = rest.getD ix dummyRev from rfl]
    rw [ih.2.2, lastLen_cons]

theorem liftDFU_bound : ∀ (revs : List Revision) (dfu : Subset) (P : Nat),
    dfu.length ≤ P → RevsOK P revs → (liftDFU dfu revs).length ≤ lastLen revs P
  | [], dfu, P, hd, _ => hd
  | r :: rest, dfu, P, hd, h => by
    obtain ⟨hstep, hrest⟩ := h
    rw [show liftDFU dfu (r :: rest)
        = liftDFU (match r.edit with
          | .edit _ _ inserts _ =>
            if inserts.is_empty then dfu else dfu.transform_union inserts
          | .undo _ => dfu) rest from rfl]
    rw [lastLen_cons]
    refine liftDFU_bound rest _ r.union_str_len ?_ hrest
    obtain ⟨-, hstep2⟩ := hstep
    cases hedit : r.edit with
    | edit p g ins dels =>
      rw [hedit] at hstep2
      have hs : ins.length ≤ r.union_str_len ∧ dels.length ≤ r.union_str_len ∧
          r.union_str_len = P + countTrue ins := hstep2
      show (if ins.is_empty = true then dfu else dfu.transform_union ins).length
        ≤ r.union_str_len
      by_cases hemp : ins.is_empty
      · rw [if_pos hemp]
        have := hs.2.2
        omega
      · rw [if_neg hemp]
        exact tu_bound dfu ins P r.union_str_len hd hs.1 hs.2.2
    | undo groups =>
      rw [hedit] at hstep2
      have hs : r.union_str_len = P := hstep2
      show dfu.length ≤ r.union_str_len
      omega

theorem foldl_bound_revsOK (f : Subset → Revision → Subset)
    (hstep : ∀ (acc : Subset) (P : Nat) (r : Revision), acc.length ≤ P → StepOK P r →
      (f acc r).length ≤ r.union_str_len) :
    ∀ (revs : List Revision) (acc : Subset) (P : Nat),
    acc.length ≤ P → RevsOK P revs → (revs.foldl f acc).length ≤ lastLen revs P
  | [], acc, P, hacc, _ => hacc
  | r :: rest, acc, P, hacc, h => by
    rw [List.foldl_cons, lastLen_cons]
    exact foldl_bound_revsOK f hstep rest (f acc r) r.union_str_len
      (hstep acc P r hacc h.1) h.2

/-- The fold step of `compute_undo` respects the per-revision length
bounds. -/
theorem undoStep_bound (G : Finset Nat) (acc : Subset) (P : Nat) (r : Revision)
    (hacc : acc.length ≤ P) (hr : StepOK P r) :
    (match r.edit with
      | Contents.edit _ undo_group inserts deletes =>
        if undo_group ∈ G then
          if inserts.is_empty then acc else acc.transform_union inserts
        else
          let acc1 := if inserts.is_empty then acc else acc.transform_expand inserts
          if deletes.is_empty then acc1 else acc1.union deletes
      | Contents.undo _ => acc).length ≤ r.union_str_len := by
  obtain ⟨-, hstep2⟩ := hr
  cases hedit : r.edit with
  | edit p g ins dels =>
    rw [hedit] at hstep2
    have hs : ins.length ≤ r.union_str_len ∧ dels.length ≤ r.union_str_len ∧
        r.union_str_len = P + countTrue ins := hstep2
    show (if g ∈ G then
        (if ins.is_empty = true then acc else acc.transform_union ins)
      else
        (if dels.is_empty = true
          then (if ins.is_empty = true then acc else acc.transform_expand ins)
          else Subset.union
            (if ins.is_empty = true then acc else acc.transform_expand ins)
            dels)).length ≤ r.union_str_len
    have hPle : P ≤ r.union_str_len := by
      have := hs.2.2
      omega
    by_cases hg : g ∈ G
    · rw [if_pos hg]
      by_cases hemp : ins.is_empty
      · rw [if_pos hemp]
        omega
      · rw [if_neg hemp]
        exact tu_bound acc ins P r.union_str_len hacc hs.1 hs.2.2
    · rw [if_neg hg]
      have hacc1 : (if ins.is_empty = true then acc
          else acc.transform_expand ins).length ≤ r.union_str_len := by
        by_cases hemp : ins.is_empty
        · rw [if_pos hemp]
          omega
        · rw [if_neg hemp]
          exact te_bound acc ins P r.union_str_len hacc hs.1 hs.2.2
      by_cases hde : dels.is_empty
      · rw [if_pos hde]
        exact hacc1
      · rw [if_neg hde]
        rw [subset_union_length]
        omega
  | undo groups =>
    rw [hedit] at hstep2
    have hs : r.union_str_len = P := hstep2
    show acc.length ≤ r.union_str_len
    omega

theorem rev0_step_bound (G : Finset Nat) (r : Revision) (h : Rev0OK r) :
    (match r.edit with
      | Contents.edit _ undo_group inserts deletes =>
        if undo_group ∈ G then
          if inserts.is_empty then Subset.default
          else Subset.transform_union Subset.default inserts
        else
          let acc1 := if inserts.is_empty then Subset.default
            else Subset.transform_expand Subset.default inserts
          if deletes.is_empty then acc1 else acc1.union deletes
      | Contents.undo _ => Subset.default).length ≤ r.union_str_len := by
  obtain ⟨-, h2⟩ := h
  cases hedit : r.edit with
  | edit p g ins dels =>
    rw [hedit] at h2
    have hs : ins.length ≤ r.union_str_len ∧ dels.length ≤ r.union_str_len := h2
    show (if g ∈ G then
        (if ins.is_empty = true then Subset.default
          else Subset.transform_union Subset.default ins)
      else
        (if dels.is_empty = true
          then (if ins.is_empty = true then Subset.default
            else Subset.transform_expand Subset.default ins)
          else Subset.union
            (if ins.is_empty = true then Subset.default
              else Subset.transform_expand Subset.default ins)
            dels)).length ≤ r.union_str_len
    have hacc1 : (if ins.is_empty = true then Subset.default
        else Subset.transform_expand Subset.default ins).length ≤ r.union_str_len := by
      by_cases hemp : ins.is_empty
      · rw [if_pos hemp]
        simp [Subset.default]
      · rw [if_neg hemp]
        rw [transform_expand_length]
        simp only [Subset.default, List.length_nil]
        omega
    by_cases hg : g ∈ G
    · rw [if_pos hg]
      by_cases hemp : ins.is_empty
      · rw [if_pos hemp]
        simp [Subset.default]
      · rw [if_neg hemp]
        rw [transform_union_length]
        simp only [Subset.default, List.length_nil]
        omega
    · rw [if_neg hg]
      by_cases hde : dels.is_empty
      · rw [if_pos hde]
        exact hacc1
      · rw [if_neg hde]
        rw [subset_union_length]
        omega
  | undo groups =>
    show (Subset.default : Subset).length ≤ r.union_str_len
    simp [Subset.default]

/-- The undo revision computed by `compute_undo` stays within the head
union universe and records the head union length. -/
theorem compute_undo_ok (e : Engine) (G : Finset Nat) (h : e.Hist) :
    (e.compute_undo G).deletes_from_union.length ≤ e.head_rev.union_str_len ∧
      (e.compute_undo G).union_str_len = e.head_rev.union_str_len := by
  refine ⟨?_, rfl⟩
  unfold Engine.Hist at h
  cases hrevs : e.revs with
  | nil => rw [hrevs] at h; exact absurd h (by simp)
  | cons r0 rest =>
    rw [hrevs] at h
    obtain ⟨h0, hrest⟩ := h
    have hdfu : (e.compute_undo G).deletes_from_union
        = e.revs.foldl (fun acc r => match r.edit with
          | Contents.edit _ undo_group inserts deletes =>
            if undo_group ∈ G then
              if inserts.is_empty then acc else acc.transform_union inserts
            else
              let acc1 := if inserts.is_empty then acc else acc.transform_expand inserts
              if deletes.is_empty then acc1 else acc1.union deletes
          | Contents.undo _ => acc) Subset.default := rfl
    rw [hdfu, hrevs, List.foldl_cons]
    have hhead : e.head_rev.union_str_len = lastLen rest r0.union_str_len := by
      unfold Engine.head_rev
      rw [hrevs]
      rw [← lastLen_getD (r0 :: rest) 0 (by simp), lastLen_cons]
    rw [hhead]
    exact foldl_bound_revsOK _ (undoStep_bound G) rest _ r0.union_str_len
      (rev0_step_bound G r0 h0) hrest

/-! ## The `shuffle` characterisation -/

theorem padTo_self (l : List Bool) (L : Nat) (h : l.length = L) : padTo L l = l := by
  unfold padTo
  rw [h]
  simp

theorem countTrue_le_length (s : List Bool) : countTrue s ≤ s.length :=
  List.count_le_length true s

/-- `Engine::shuffle` re-splits the union string according to the new
deletions. -/
theorem shuffle_char (text tomb : Rope) (hd nd : Subset) (L : Nat)
    (hL : text.length + tomb.length = L)
    (hhd : hd.length ≤ L) (hct : countTrue hd = tomb.length) (hnd : nd.length ≤ L) :
    Engine.shuffle text tomb hd nd
      = (filterKept (padTo L nd) (mergeParts (padTo L hd) text tomb),
         filterDel (padTo L nd) (mergeParts (padTo L hd) text tomb)) := by
  set F := padTo L hd with hF
  set u := mergeParts F text tomb with hu
  have hFlen : F.length = L := padTo_length L hd hhd
  have hctF : countTrue F = tomb.length := by rw [hF, countTrue_padTo, hct]
  have hcfF : countFalse F = text.length := by
    rw [hF, countFalse_padTo L hd hhd]
    have := countTrue_le_length hd
    omega
  have hulen : u.length = L := by
    rw [hu, mergeParts_length F text tomb hctF (le_of_eq hcfF)]
    omega
  have hkept : filterKept hd u = text := by
    rw [← filterKept_padTo hd L u, ← hF, hu]
    exact mergeParts_filterKept F text tomb hctF (le_of_eq hcfF)
  have hdel : filterDel hd u = tomb := by
    rw [← filterDel_padTo hd L u, ← hF, hu]
    exact mergeParts_filterDel F text tomb hctF (le_of_eq hcfF)
  have happly := synthesize_apply u hd nd L (by omega) (by omega) hnd
  rw [hkept, hdel] at happly
  have hC : Subset.complement hd L = F.map (fun b => !b) := rfl
  have hCn : Subset.complement nd L = (padTo L nd).map (fun b => !b) := rfl
  have hCnlen : (Subset.complement nd L).length = L := complement_length nd L hnd
  have hdelC : filterDel (Subset.complement hd L) u = text := by
    rw [hC, filterDel_map_not F u (by omega), hkept.symm.trans rfl]
    rw [← filterKept_padTo hd L u, ← hF]
  have hkeptC : filterKept (Subset.complement hd L) u = tomb := by
    rw [hC, filterKept_map_not F u (by omega)]
    rw [← filterDel_padTo hd L u, ← hF] at hdel
    exact hdel
  have happly2 := synthesize_apply u (Subset.complement hd L) (Subset.complement nd L) L
    (by omega) (by rw [complement_length hd L hhd]; omega) (by rw [hCnlen])
  rw [hdelC, hkeptC] at happly2
  rw [padTo_self (Subset.complement nd L) L hCnlen] at happly2
  have hkeptCn : filterKept (Subset.complement nd L) u = filterDel (padTo L nd) u := by
    rw [hCn, filterKept_map_not (padTo L nd) u (by rw [padTo_length L nd hnd]; omega)]
  rw [hkeptCn] at happly2
  rw [show Engine.shuffle text tomb hd nd
      = ((Delta.synthesize tomb hd (text.length + tomb.length) hd nd).apply text,
         Engine.shuffle_tombstones text tomb hd nd) from rfl]
  rw [show Engine.shuffle_tombstones text tomb hd nd
      = (Delta.synthesize text (Subset.complement hd (text.length + tomb.length))
          (text.length + tomb.length)
          (Subset.complement hd (text.length + tomb.length))
          (Subset.complement nd (text.length + tomb.length))).apply tomb from rfl]
  rw [hL, happly, happly2]

/-! ## `GoodState` preservation: `new`, `undo` -/

theorem goodState_new (s : Rope) : (Engine.new s).GoodState := by
  refine ⟨?_, ?_, ?_, ?_⟩
  · exact ⟨⟨by simp [Subset.default], trivial⟩, trivial⟩
  · simp [Engine.new, Engine.head_rev]
  · simp [Engine.new, Engine.head_rev, Subset.default]
  · simp [Engine.new, Engine.head_rev, Subset.default, countTrue]

theorem head_rev_append (e : Engine) (r : Revision) (revs : List Revision)
    (h : revs = e.revs ++ [r]) :
    (Engine.head_rev { e with revs := revs }) = r := by
  unfold Engine.head_rev
  simp [h]

theorem hist_nonempty (e : Engine) (h : e.Hist) : e.revs ≠ [] := by
  unfold Engine.Hist at h
  cases hrevs : e.revs with
  | nil => rw [hrevs] at h; exact absurd h (by simp)
  | cons r0 rest => simp

theorem hist_lastLen (e : Engine) (r0 : Revision) (rest : List Revision)
    (hrevs : e.revs = r0 :: rest) :
    lastLen rest r0.union_str_len = e.head_rev.union_str_len := by
  unfold Engine.head_rev
  rw [hrevs]
  rw [← lastLen_getD (r0 :: rest) 0 (by simp), lastLen_cons]

theorem hist_append (e : Engine) (r : Revision) (h : e.Hist)
    (hr : StepOK e.head_rev.union_str_len r) :
    match e.revs ++ [r] with
    | [] => False
    | r0 :: rest => Rev0OK r0 ∧ RevsOK r0.union_str_len rest := by
  unfold Engine.Hist at h
  cases hrevs : e.revs with
  | nil => rw [hrevs] at h; exact absurd h (by simp)
  | cons r0 rest =>
    rw [hrevs] at h
    rw [List.cons_append]
    refine ⟨h.1, revsOK_append r rest r0.union_str_len h.2 ?_⟩
    rw [hist_lastLen e r0 rest hrevs]
    exact hr

/-- `Engine::undo` preserves the state invariant; its text and
tombstones are the re-split of the union string by the computed undo
deletions. -/
theorem goodState_undo (e : Engine) (G : Finset Nat) (h : e.GoodState) :
    (e.undo G).GoodState := by
  obtain ⟨hhist, hL, hhd, hct⟩ := h
  have hnd := compute_undo_ok e G hhist
  set L := e.head_rev.union_str_len with hLdef
  set nd := (e.compute_undo G).deletes_from_union with hnddef
  have hshuf := shuffle_char e.text e.tombstones e.head_rev.deletes_from_union nd L
    hL.symm.symm hhd hct hnd.1
  have htext : (e.undo G).text
      = filterKept (padTo L nd) (mergeParts (padTo L e.head_rev.deletes_from_union)
          e.text e.tombstones) := by
    show (Engine.shuffle e.text e.tombstones e.head_rev.deletes_from_union
      (e.compute_undo G).deletes_from_union).1 = _
    rw [← hnddef, hshuf]
  have htomb : (e.undo G).tombstones
      = filterDel (padTo L nd) (mergeParts (padTo L e.head_rev.deletes_from_union)
          e.text e.tombstones) := by
    show (Engine.shuffle e.text e.tombstones e.head_rev.deletes_from_union
      (e.compute_undo G).deletes_from_union).2 = _
    rw [← hnddef, hshuf]
  have hulen : (mergeParts (padTo L e.head_rev.deletes_from_union)
      e.text e.tombstones).length = L := by
    rw [mergeParts_length _ _ _ (by rw [countTrue_padTo]; exact hct)
      (by
        rw [countFalse_padTo L _ hhd]
        have := countTrue_le_length e.head_rev.deletes_from_union
        omega)]
    omega
  have hpndlen : (padTo L nd).length = L := padTo_length L nd hnd.1
  have htextlen : (e.undo G).text.length = L - countTrue nd := by
    rw [htext, filterKept_length _ _ (by rw [hpndlen, hulen])]
    rw [countFalse_padTo L nd hnd.1]
  have htomblen : (e.undo G).tombstones.length = countTrue nd := by
    rw [htomb, filterDel_length _ _ (by rw [hpndlen, hulen])]
    rw [countTrue_padTo]
  have hndct : countTrue nd ≤ L := le_trans (countTrue_le_length nd) hnd.1
  have hhr : (e.undo G).head_rev = e.compute_undo G := by
    apply head_rev_append
    rfl
  refine ⟨?_, ?_, ?_, ?_⟩
  · show match (e.undo G).revs with
      | [] => False
      | r0 :: rest => Rev0OK r0 ∧ RevsOK r0.union_str_len rest
    have := hist_append e (e.compute_undo G) hhist
      (by
        refine ⟨hnd.1, ?_⟩
        show (e.compute_undo G).union_str_len = e.head_rev.union_str_len
        exact hnd.2)
    exact this
  · rw [hhr, htextlen, htomblen, hnd.2]
    omega
  · rw [hhr]
    rw [show (e.compute_undo G).deletes_from_union = nd from rfl]
    rw [hnd.2]
    exact hnd.1
  · rw [hhr, htomblen]

/-- The state invariant gives the spec's union-string invariant. -/
theorem goodState_invUnion (e : Engine) (h : e.GoodState) : e.InvUnion := by
  obtain ⟨-, hL, hhd, hct⟩ := h
  have hctF : countTrue (padTo e.head_rev.union_str_len e.head_rev.deletes_from_union)
      = e.tombstones.length := by rw [countTrue_padTo]; exact hct
  have hcfF : countFalse (padTo e.head_rev.union_str_len e.head_rev.deletes_from_union)
      = e.text.length := by
    rw [countFalse_padTo _ _ hhd]
    have := countTrue_le_length e.head_rev.deletes_from_union
    omega
  exact ⟨hL, (mergeParts_filterKept _ _ _ hctF (le_of_eq hcfF)).symm,
    (mergeParts_filterDel _ _ _ hctF (le_of_eq hcfF)).symm⟩

/-! ## The `mk_new_rev` rebase fold -/

theorem stepped_spec (np : Nat) (I0 : List Rope) : ∀ (revs : List Revision)
    (p : Delta × Subset) (P : Nat),
    RevsOK P revs →
    ElsTiling 0 p.1.els P → p.1.base_len = P → insList p.1.els = I0 → p.2.length ≤ P →
    ElsTiling 0 (revs.foldl (fun (p : Delta × Subset) r =>
        match r.edit with
        | .edit priority _ inserts _ =>
          if inserts.is_empty then p
          else
            (p.1.transform_expand inserts r.union_str_len (decide (np ≥ priority)),
             p.2.transform_expand inserts)
        | .undo _ => p) p).1.els (lastLen revs P) ∧
      (revs.foldl (fun (p : Delta × Subset) r =>
        match r.edit with
        | .edit priority _ inserts _ =>
          if inserts.is_empty then p
          else
            (p.1.transform_expand inserts r.union_str_len (decide (np ≥ priority)),
             p.2.transform_expand inserts)
        | .undo _ => p) p).1.base_len = lastLen revs P ∧
      insList ((revs.foldl (fun (p : Delta × Subset) r =>
        match r.edit with
        | .edit priority _ inserts _ =>
          if inserts.is_empty then p
          else
            (p.1.transform_expand inserts r.union_str_len (decide (np ≥ priority)),
             p.2.transform_expand inserts)
        | .undo _ => p) p).1.els) = I0 ∧
      ((revs.foldl (fun (p : Delta × Subset) r =>
        match r.edit with
        | .edit priority _ inserts _ =>
          if inserts.is_empty then p
          else
            (p.1.transform_expand inserts r.union_str_len (decide (np ≥ priority)),
             p.2.transform_expand inserts)
        | .undo _ => p) p).2).length ≤ lastLen revs P
  | [], p, P, _, ht, hb, hi, hs => ⟨ht, hb, hi, hs⟩
  | r :: rest, p, P, hok, ht, hb, hi, hs => by
    obtain ⟨hstep, hrest⟩ := hok
    obtain ⟨-, hstep2⟩ := hstep
    rw [List.foldl_cons, lastLen_cons]
    cases hedit : r.edit with
    | edit pr g ins dels =>
      rw [hedit] at hstep2
      have hsv : ins.length ≤ r.union_str_len ∧ dels.length ≤ r.union_str_len ∧
          r.union_str_len = P + countTrue ins := hstep2
      have hred : (match Contents.edit pr g ins dels with
          | Contents.edit priority _ inserts _ =>
            if inserts.is_empty then p
            else
              (p.1.transform_expand inserts r.union_str_len (decide (np ≥ priority)),
               p.2.transform_expand inserts)
          | Contents.undo _ => p)
          = if ins.is_empty = true then p
            else (p.1.transform_expand ins r.union_str_len (decide (np ≥ pr)),
              p.2.transform_expand ins) := rfl
      rw [hred]
      by_cases hemp : ins.is_empty
      · rw [if_pos hemp]
        have hctz : countTrue ins = 0 := is_empty_countTrue ins hemp
        have hPeq : r.union_str_len = P := by omega
        rw [hPeq]
        exact stepped_spec np I0 rest p P (hPeq ▸ hrest) ht hb hi hs
      · rw [if_neg hemp]
        have hstruct := transform_expand_struct p.1 ins r.union_str_len
          (decide (np ≥ pr)) (hb ▸ ht) hsv.1
          (by
            rw [countFalse_padTo _ _ hsv.1, hb]
            omega)
        have hsub : (Subset.transform_expand p.2 ins).length ≤ r.union_str_len := by
          rw [transform_expand_length]
          have := countTrue_add_countFalse ins
          unfold countTrue countFalse at *
          omega
        exact stepped_spec np I0 rest _ r.union_str_len hrest hstruct.1 hstruct.2.2
          (by rw [hstruct.2.1, hi]) hsub
    | undo groups =>
      rw [hedit] at hstep2
      have hPeq : r.union_str_len = P := hstep2
      have hred : (match Contents.undo groups with
          | Contents.edit priority _ inserts _ =>
            if inserts.is_empty then p
            else
              (p.1.transform_expand inserts r.union_str_len (decide (np ≥ priority)),
               p.2.transform_expand inserts)
          | Contents.undo _ => p) = p := rfl
      rw [hred, hPeq]
      exact stepped_spec np I0 rest p P (hPeq ▸ hrest) ht hb hi hs

/-! ## `GoodState` preservation: `edit_rev` -/

theorem hist_index (e : Engine) (h : e.Hist) (ix : Nat) (hix : ix < e.revs.length) :
    (e.revs.getD ix dummyRev).deletes_from_union.length
        ≤ (e.revs.getD ix dummyRev).union_str_len ∧
      RevsOK (e.revs.getD ix dummyRev).union_str_len (e.revs.drop (ix + 1)) ∧
      lastLen (e.revs.drop (ix + 1)) (e.revs.getD ix dummyRev).union_str_len
        = e.head_rev.union_str_len := by
  unfold Engine.Hist at h
  cases hrevs : e.revs with
  | nil => rw [hrevs] at h; exact absurd h (by simp)
  | cons r0 rest =>
    rw [hrevs] at h
    cases ix with
    | zero =>
      refine ⟨h.1.1, h.2, ?_⟩
      rw [show (r0 :: rest).drop 1 = rest from rfl]
      rw [show (r0 :: rest).getD 0 dummyRev = r0 from rfl]
      exact hist_lastLen e r0 rest hrevs
    | succ ixp =>
      have hlt : ixp < rest.length := by
        rw [hrevs] at hix
        simpa using hix
      have := revsOK_index rest r0.union_str_len ixp hlt h.2
      refine ⟨this.1, this.2.1, ?_⟩
      rw [show (r0 :: rest).drop (ixp + 1 + 1) = rest.drop (ixp + 1) from rfl]
      rw [show (r0 :: rest).getD (ixp + 1) dummyRev = rest.getD ixp dummyRev from rfl]
      rw [this.2.2]
      exact hist_lastLen e r0 rest hrevs

theorem find_rev_lt (e : Engine) (b ix : Nat) (hne : e.revs ≠ [])
    (hix : e.find_rev b = some ix) : ix < e.revs.length := by
  unfold Engine.find_rev at hix
  cases hfi : e.revs.reverse.findIdx? (fun r => r.rev_id == b) with
  | none => rw [hfi] at hix; cases hix
  | some j =>
    rw [hfi] at hix
    have : e.revs.length - 1 - j = ix := by
      have := Option.some.inj hix
      omega
    have hlen : 0 < e.revs.length := List.length_pos.mpr hne
    omega

theorem goodState_edit (e e' : Engine) (p g b ix : Nat) (d : Delta)
    (h : e.GoodState)
    (hix : e.find_rev b = some ix)
    (hwf : Delta.WF d)
    (hbase : d.base_len = Subset.len_after_delete
      ((e.revs.getD ix dummyRev).deletes_from_union)
      ((e.revs.getD ix dummyRev).union_str_len))
    (hstep : e.edit_rev p g b d = some e') : e'.GoodState := by
  obtain ⟨hhist, hL, hhd, hct⟩ := h
  have hixlt : ix < e.revs.length := find_rev_lt e b ix (hist_nonempty e hhist) hix
  have hidx := hist_index e hhist ix hixlt
  set LH := e.head_rev.union_str_len with hLH
  set hd := e.head_rev.deletes_from_union with hhddef
  set rv := e.revs.getD ix dummyRev with hrv
  set fd := d.factor with hfddef
  set uid0 := fd.1.transform_expand rv.deletes_from_union rv.union_str_len true with huid0def
  set nd0 := Subset.transform_expand fd.2 rv.deletes_from_union with hnd0def
  set stepped := (e.revs.drop (ix + 1)).foldl (fun (q : Delta × Subset) r =>
      match r.edit with
      | .edit priority _ inserts _ =>
        if inserts.is_empty then q
        else
          (q.1.transform_expand inserts r.union_str_len (decide (p ≥ priority)),
           q.2.transform_expand inserts)
      | .undo _ => q) (uid0, nd0) with hsteppeddef
  set uid := stepped.1 with huiddef
  set sd := stepped.2 with hsddef
  set nI := uid.inserted_subset with hnIdef
  set ndel := if nI.is_empty then sd else Subset.transform_expand sd nI with hndeldef
  set twi := (uid.transform_shrink hd).apply e.text with htwidef
  set rebased := Subset.transform_expand hd nI with hrebdef
  set und := (e.get_current_undo).elim false (fun undos => g ∈ undos) with hunddef
  set ndfu := rebased.union (if und then nI else ndel) with hndfudef
  set nt := Engine.shuffle twi e.tombstones rebased ndfu with hntdef
  set newRev : Revision := { rev_id := e.rev_id_counter, deletes_from_union := ndfu, union_str_len := uid.new_document_len, edit := .edit p g nI ndel } with hnrdef
  have hmk : e.mk_new_rev p g b d = some (newRev, nt.1, nt.2) := by
    unfold Engine.mk_new_rev
    rw [hix]
    rfl
  set E2 : Engine := { rev_id_counter := e.rev_id_counter + 1, text := nt.1, tombstones := nt.2, revs := e.revs ++ [newRev] } with hE2def
  have he'eq : e' = E2 := by
    have h2 : e.edit_rev p g b d = some E2 := by
      unfold Engine.edit_rev
      rw [hmk]
      rfl
    rw [hstep] at h2
    exact Option.some.inj h2
  -- structural facts about the rebased insert delta
  have hfac := factor_struct d hwf
  have hdfuxb : countFalse (padTo rv.union_str_len rv.deletes_from_union)
      = fd.1.base_len := by
    rw [countFalse_padTo _ _ hidx.1, hfac.2.2.1, hbase]
    rfl
  have huid0 := transform_expand_struct fd.1 rv.deletes_from_union rv.union_str_len true
    (hfac.2.2.1 ▸ hfac.1) hidx.1 hdfuxb
  have hctle := countTrue_le_length rv.deletes_from_union
  have hcfx := countTrue_add_countFalse rv.deletes_from_union
  have hnd0len : nd0.length ≤ rv.union_str_len := by
    rw [hnd0def, transform_expand_length, hfac.2.2.2, hbase]
    unfold Subset.len_after_delete
    unfold countTrue countFalse at *
    omega
  have hspec := stepped_spec p (insList d.els) (e.revs.drop (ix + 1)) (uid0, nd0)
    rv.union_str_len hidx.2.1 huid0.1 huid0.2.2 (by rw [huid0.2.1, hfac.2.1]) hnd0len
  have huidtile : ElsTiling 0 uid.els LH := by
    rw [← hidx.2.2]
    exact hspec.1
  have huidbase : uid.base_len = LH := by
    rw [← hidx.2.2]
    exact hspec.2.1
  have huidins : insList uid.els = insList d.els := hspec.2.2.1
  have hsdlen : sd.length ≤ LH := by
    rw [← hidx.2.2]
    exact hspec.2.2.2
  -- the new inserted subset and union length
  have hnIspec := inserted_subset_spec uid
  have hinsT : insTotal uid.els = insTotal d.els := by
    unfold insTotal
    rw [huidins]
  have hLnew : uid.new_document_len = LH + countTrue nI := by
    have := elsTiling_totalLen 0 uid.els LH huidtile
    rw [hnIdef, hnIspec.1]
    unfold Delta.new_document_len
    omega
  have hnIlen : nI.length ≤ uid.new_document_len := hnIspec.2
  have hnIct : countTrue nI ≤ uid.new_document_len := by
    have := countTrue_le_length nI
    omega
  have hnIcf := countTrue_add_countFalse nI
  have hndellen : ndel.length ≤ uid.new_document_len := by
    rw [hndeldef]
    by_cases hemp : nI.is_empty
    · rw [if_pos hemp]
      omega
    · rw [if_neg hemp]
      rw [transform_expand_length]
      unfold countTrue countFalse at *
      omega
  -- the text with inserts
  have htwilen : twi.length = e.text.length + countTrue nI := by
    rw [htwidef]
    rw [transform_shrink_apply_length uid hd e.text (huidbase ▸ huidtile)
      (by rw [huidbase]; exact hhd)
      (by
        rw [huidbase, countFalse_padTo _ _ hhd]
        have := countTrue_le_length hd
        omega)]
    rw [hnIdef, hnIspec.1]
  have hrebct : countTrue rebased = e.tombstones.length := by
    rw [hrebdef, transform_expand_countTrue]
    exact hct
  have hreblen : rebased.length ≤ uid.new_document_len := by
    rw [hrebdef, transform_expand_length]
    unfold countTrue countFalse at *
    omega
  have hUL2 : twi.length + e.tombstones.length = uid.new_document_len := by
    rw [htwilen]
    omega
  have hndfulen : ndfu.length ≤ uid.new_document_len := by
    rw [hndfudef, subset_union_length]
    by_cases hu : und
    · rw [if_pos hu]
      omega
    · rw [if_neg hu]
      omega
  have hshuf := shuffle_char twi e.tombstones rebased ndfu uid.new_document_len
    hUL2 hreblen hrebct hndfulen
  have hnt1len : nt.1.length = uid.new_document_len - countTrue ndfu := by
    rw [hntdef, hshuf]
    rw [filterKept_length _ _ (by
      rw [padTo_length _ _ hndfulen]
      rw [mergeParts_length _ _ _ (by rw [countTrue_padTo]; exact hrebct)
        (by
          rw [countFalse_padTo _ _ hreblen]
          have := countTrue_le_length rebased
          omega)]
      omega)]
    rw [countFalse_padTo _ _ hndfulen]
  have hnt2len : nt.2.length = countTrue ndfu := by
    rw [hntdef, hshuf]
    rw [filterDel_length _ _ (by
      rw [padTo_length _ _ hndfulen]
      rw [mergeParts_length _ _ _ (by rw [countTrue_padTo]; exact hrebct)
        (by
          rw [countFalse_padTo _ _ hreblen]
          have := countTrue_le_length rebased
          omega)]
      omega)]
    rw [countTrue_padTo]
  have hndfuct : countTrue ndfu ≤ uid.new_document_len :=
    le_trans (countTrue_le_length ndfu) hndfulen
  have hstepok : StepOK LH newRev := by
    refine ⟨hndfulen, ?_⟩
    show nI.length ≤ newRev.union_str_len ∧ ndel.length ≤ newRev.union_str_len ∧
      newRev.union_str_len = LH + countTrue nI
    exact ⟨hnIlen, hndellen, hLnew⟩
  have hhr : E2.head_rev = newRev := by
    unfold Engine.head_rev
    show (e.revs ++ [newRev]).getLast?.getD dummyRev = newRev
    simp
  rw [he'eq]
  refine ⟨?_, ?_, ?_, ?_⟩
  · exact hist_append e newRev hhist hstepok
  · show nt.1.length + nt.2.length = E2.head_rev.union_str_len
    rw [hhr, hnt1len, hnt2len]
    show uid.new_document_len - countTrue ndfu + countTrue ndfu = uid.new_document_len
    omega
  · show E2.head_rev.deletes_from_union.length ≤ E2.head_rev.union_str_len
    rw [hhr]
    exact hndfulen
  · show countTrue E2.head_rev.deletes_from_union = nt.2.length
    rw [hhr, hnt2len]

/-! ## Reachability and the main engine theorems -/

theorem reachable_goodState (e : Engine) (he : Reachable e) : e.GoodState := by
  induction he with
  | base s => exact goodState_new s
  | edit e e' p g b ix d he hix hwf hbase hstep ih =>
    exact goodState_edit e e' p g b ix d ih hix hwf hbase hstep
  | undo e G he ih => exact goodState_undo e G ih

theorem union_split (text tomb : Rope) (hd : Subset) (L : Nat)
    (hL : text.length + tomb.length = L) (hhd : hd.length ≤ L)
    (hct : countTrue hd = tomb.length) :
    (mergeParts (padTo L hd) text tomb).length = L ∧
      filterKept hd (mergeParts (padTo L hd) text tomb) = text ∧
      filterDel hd (mergeParts (padTo L hd) text tomb) = tomb := by
  have hctF : countTrue (padTo L hd) = tomb.length := by rw [countTrue_padTo]; exact hct
  have hcfF : countFalse (padTo L hd) = text.length := by
    rw [countFalse_padTo L hd hhd]
    have := countTrue_le_length hd
    omega
  refine ⟨?_, ?_, ?_⟩
  · rw [mergeParts_length _ _ _ hctF (le_of_eq hcfF)]
    omega
  · rw [← filterKept_padTo hd L]
    exact mergeParts_filterKept _ _ _ hctF (le_of_eq hcfF)
  · rw [← filterDel_padTo hd L]
    exact mergeParts_filterDel _ _ _ hctF (le_of_eq hcfF)

/-- Claim C2: on every engine state reachable by `edit_rev` and `undo`
calls from `Engine::new`, for every revision id present in the
history, applying the delta returned by `delta_rev_head` to the
content returned by `get_rev` yields exactly `get_head()`. -/
theorem C2_delta_rev_head_correct (e : Engine) (r : Nat) (he : Reachable e)
    (hr : (e.find_rev r).isSome) :
    ∃ dlt c, e.delta_rev_head r = some dlt ∧ e.get_rev r = some c ∧
      dlt.apply c = e.get_head := by
  obtain ⟨hhist, hL, hhd, hct⟩ := reachable_goodState e he
  obtain ⟨ix, hix⟩ := Option.isSome_iff_exists.mp hr
  have hixlt : ix < e.revs.length := find_rev_lt e r ix (hist_nonempty e hhist) hix
  have hidx := hist_index e hhist ix hixlt
  set LH := e.head_rev.union_str_len with hLH
  set hd := e.head_rev.deletes_from_union with hhddef
  set u := mergeParts (padTo LH hd) e.text e.tombstones with hudef
  set od := liftDFU ((e.revs.getD ix dummyRev).deletes_from_union)
    (e.revs.drop (ix + 1)) with hoddef
  have hod : od.length ≤ LH := by
    rw [hoddef, ← hidx.2.2]
    exact liftDFU_bound _ _ _ hidx.1 hidx.2.1
  obtain ⟨hulen, hkept, hdel⟩ := union_split e.text e.tombstones hd LH hL hhd hct
  rw [← hudef] at hulen hkept hdel
  -- the revision content
  have happly := synthesize_apply u hd od LH (by omega) (by omega) hod
  rw [hkept, hdel] at happly
  have hcontent : e.rev_content_for_index ix = filterKept (padTo LH od) u := by
    show (Delta.synthesize e.tombstones e.head_rev.deletes_from_union
      e.head_rev.union_str_len e.head_rev.deletes_from_union
      (e.deletes_from_union_for_index ix)).apply e.text = filterKept (padTo LH od) u
    exact happly
  -- the old tombstones via shuffle_tombstones
  have hshuf := shuffle_char e.text e.tombstones hd od LH hL hhd hct hod
  have htombs : Engine.shuffle_tombstones e.text e.tombstones hd od
      = filterDel (padTo LH od) u := by
    have h2 := congrArg Prod.snd hshuf
    exact h2
  -- the delta applied to the content
  have happly2 := synthesize_apply u od hd LH (by omega) (by omega) hhd
  rw [filterKept_padTo hd LH u, hkept] at happly2
  rw [← filterDel_padTo od LH u, ← filterKept_padTo od LH u] at happly2
  refine ⟨Delta.synthesize (Engine.shuffle_tombstones e.text e.tombstones hd od) od
      LH od hd, e.rev_content_for_index ix, ?_, ?_, ?_⟩
  · show (e.find_rev r).map _ = _
    rw [hix]
    rfl
  · show (e.find_rev r).map e.rev_content_for_index = _
    rw [hix]
    rfl
  · rw [htombs, hcontent]
    exact happly2

/-- Claim C2, witness: the fresh engine on "ab" with its initial
revision 0. -/
theorem C2_witness :
    ∃ dlt c, (Engine.new "ab".toList).delta_rev_head 0 = some dlt ∧
      (Engine.new "ab".toList).get_rev 0 = some c ∧
      dlt.apply c = (Engine.new "ab".toList).get_head :=
  C2_delta_rev_head_correct (Engine.new "ab".toList) 0 (Reachable.base _) (by decide)

/-- Claim C3 (amended): the engine union-string invariant holds on
every state built by `edit_rev` and `undo` calls from `Engine::new` —
`|text| + |tombstones| = head.union_str_len` and `text`/`tombstones`
are the kept/deleted parts of the union string.  (The original claim
also asserted preservation by `gc`, which is refuted by
`C3_counterexample`.) -/
theorem C3_engine_invariant (e : Engine) (he : Reachable e) : e.InvUnion :=
  goodState_invUnion e (reachable_goodState e he)

/-- Claim C3, witness: the invariant on a freshly created engine. -/
theorem C3_witness : (Engine.new "hi".toList).InvUnion :=
  C3_engine_invariant (Engine.new "hi".toList) (Reachable.base _)

/-- Claim C4: on every engine state reachable by `edit_rev` and `undo`
calls from `Engine::new`, undoing the same set of groups twice leaves
`get_head()` as after the first undo (the second `compute_undo`
recomputes the same deletions, so the shuffle is the identity on the
text). -/
theorem C4_undo_idempotent (e : Engine) (G : Finset Nat) (he : Reachable e) :
    ((e.undo G).undo G).get_head = (e.undo G).get_head := by
  set e1 := e.undo G with he1
  obtain ⟨hhist1, hL1, hhd1, hct1⟩ := goodState_undo e G (reachable_goodState e he)
  have hhr : e1.head_rev = e.compute_undo G := by
    show (e.revs ++ [e.compute_undo G]).getLast?.getD dummyRev = e.compute_undo G
    simp
  have hfold : (e1.compute_undo G).deletes_from_union
      = (e.compute_undo G).deletes_from_union := by
    show ((e.revs ++ [e.compute_undo G]).foldl (fun acc r => match r.edit with
      | Contents.edit _ undo_group inserts deletes =>
        if undo_group ∈ G then
          if inserts.is_empty then acc else acc.transform_union inserts
        else
          let acc1 := if inserts.is_empty then acc else acc.transform_expand inserts
          if deletes.is_empty then acc1 else acc1.union deletes
      | Contents.undo _ => acc) Subset.default) = _
    rw [List.foldl_append]
    rfl
  have hndeq : (e1.compute_undo G).deletes_from_union
      = e1.head_rev.deletes_from_union := by
    rw [hfold, hhr]
  obtain ⟨hulen1, hkept1, hdel1⟩ := union_split e1.text e1.tombstones
    e1.head_rev.deletes_from_union e1.head_rev.union_str_len hL1 hhd1 hct1
  show (Engine.shuffle e1.text e1.tombstones e1.head_rev.deletes_from_union
    (e1.compute_undo G).deletes_from_union).1 = e1.text
  rw [hndeq]
  have h3 := congrArg Prod.fst (shuffle_char e1.text e1.tombstones
    e1.head_rev.deletes_from_union e1.head_rev.deletes_from_union
    e1.head_rev.union_str_len hL1 hhd1 hct1 hhd1)
  rw [h3]
  show filterKept (padTo e1.head_rev.union_str_len e1.head_rev.deletes_from_union)
    (mergeParts (padTo e1.head_rev.union_str_len e1.head_rev.deletes_from_union)
      e1.text e1.tombstones) = e1.text
  rw [filterKept_padTo]
  exact hkept1

/-- Claim C4, witness: undoing group 1 twice on a fresh engine. -/
theorem C4_witness :
    (((Engine.new "ab".toList).undo {1}).undo {1}).get_head
      = ((Engine.new "ab".toList).undo {1}).get_head :=
  C4_undo_idempotent (Engine.new "ab".toList) {1} (Reachable.base _)

/-- Claim C5 (amended): `gc` never changes `get_head()` — the engine's
`text` field alone is carried over unchanged for any collected group
set.  (The original claim also asserted that every retained revision
keeps its `get_rev` content, which is refuted by
`C5_counterexample`.) -/
theorem C5_gc_preserves_head (e : Engine) (G : Finset Nat) :
    (e.gc G).get_head = e.get_head := rfl

/-! ## Toward the factor/synthesize round trip (C1) -/

theorem filterKept_append_exact : ∀ (f1 : List Bool) (u1 : List α) (f2 : List Bool)
    (u2 : List α), f1.length = u1.length →
    filterKept (f1 ++ f2) (u1 ++ u2) = filterKept f1 u1 ++ filterKept f2 u2
  | [], [], f2, u2, _ => by simp [filterKept_nil_left]
  | [], _ :: _, _, _, h => by cases h
  | _ :: _, [], _, _, h => by cases h
  | true :: f1, a :: u1, f2, u2, h => by
    rw [List.cons_append, List.cons_append]
    rw [show filterKept (true :: (f1 ++ f2)) (a :: (u1 ++ u2))
        = filterKept (f1 ++ f2) (u1 ++ u2) from rfl]
    rw [show filterKept (true :: f1) (a :: u1) = filterKept f1 u1 from rfl]
    exact filterKept_append_exact f1 u1 f2 u2 (by simpa using h)
  | false :: f1, a :: u1, f2, u2, h => by
    rw [List.cons_append, List.cons_append]
    rw [show filterKept (false :: (f1 ++ f2)) (a :: (u1 ++ u2))
        = a :: filterKept (f1 ++ f2) (u1 ++ u2) from rfl]
    rw [show filterKept (false :: f1) (a :: u1) = a :: filterKept f1 u1 from rfl]
    rw [filterKept_append_exact f1 u1 f2 u2 (by simpa using h)]
    rfl

theorem filterKept_replicate_true : ∀ (k : Nat) (u : List α),
    u.length ≤ k → filterKept (List.replicate k true) u = []
  | k, [], _ => filterKept_nil (List.replicate k true)
  | 0, _ :: _, h => by simp at h
  | k + 1, a :: u, h => by
    rw [List.replicate_succ]
    rw [show filterKept (true :: List.replicate k true) (a :: u)
        = filterKept (List.replicate k true) u from rfl]
    exact filterKept_replicate_true k u (by simpa using h)

theorem filterKept_append_false_right (f : List Bool) (j : Nat) (u : List α) :
    filterKept (f ++ List.replicate j false) u = filterKept f u := by
  have h := filterKept_padTo (L := f.length + j) f u
  unfold padTo at h
  rw [show f.length + j - f.length = j from by omega] at h
  exact h

theorem applyEls_length_tiling : ∀ (els : List DeltaElement) (lo L : Nat) (s : Rope),
    ElsTiling lo els L → L ≤ s.length →
    (applyEls els s).length = totalElementLen els
  | [], lo, L, s, _, _ => by simp [applyEls, totalElementLen_eq]
  | .copy b e :: rest, lo, L, s, ht, hs => by
    obtain ⟨hb, hle, htrest⟩ := ht
    subst hb
    have heL : e ≤ L := elsTiling_le e rest L htrest
    rw [show applyEls (.copy b e :: rest) s
        = (s.drop b).take (e - b) ++ applyEls rest s from by simp [applyEls, elemApply]]
    rw [List.length_append, applyEls_length_tiling rest e L s htrest hs]
    rw [show totalElementLen (DeltaElement.copy b e :: rest)
        = (e - b) + totalElementLen rest from by simp [totalElementLen_eq, DeltaElement.len]]
    rw [List.length_take, List.length_drop]
    omega
  | .insert n :: rest, lo, L, s, ht, hs => by
    rw [show applyEls (.insert n :: rest) s
        = n ++ applyEls rest s from by simp [applyEls, elemApply]]
    rw [List.length_append, applyEls_length_tiling rest lo L s ht hs]
    rw [show totalElementLen (DeltaElement.insert n :: rest)
        = n.length + totalElementLen rest from by simp [totalElementLen_eq, DeltaElement.len]]

theorem padTo_append_advance (sb : List Bool) (x k : Nat) (b : Bool) (h : sb.length ≤ x) :
    padTo x sb ++ List.replicate k b
      = (if b then padTo x sb ++ List.replicate k true
         else padTo (x + k) sb) := by
  cases b with
  | true => rw [if_pos rfl]
  | false =>
    rw [if_neg (by simp)]
    unfold padTo
    rw [List.append_assoc, ← List.replicate_add]
    congr 2
    omega

theorem insertedSubsetGo_closed : ∀ (els : List DeltaElement) (x : Nat) (sb : List Bool),
    sb.length ≤ x →
    padTo (x + totalElementLen els) (insertedSubsetGo els x sb)
      = padTo x sb ++ insMarks els
  | [], x, sb, h => by
    rw [show insertedSubsetGo [] x sb = sb from rfl]
    rw [show totalElementLen [] = 0 from rfl]
    rw [show insMarks [] = [] from rfl]
    simp
  | .copy b e :: rest, x, sb, h => by
    rw [show insertedSubsetGo (.copy b e :: rest) x sb
        = insertedSubsetGo rest (x + (e - b)) sb from rfl]
    rw [show totalElementLen (DeltaElement.copy b e :: rest)
        = (e - b) + totalElementLen rest from by simp [totalElementLen_eq, DeltaElement.len]]
    rw [show insMarks (.copy b e :: rest)
        = List.replicate (e - b) false ++ insMarks rest from rfl]
    rw [show x + ((e - b) + totalElementLen rest)
        = (x + (e - b)) + totalElementLen rest from by omega]
    rw [insertedSubsetGo_closed rest (x + (e - b)) sb (by omega)]
    have hadv := padTo_append_advance sb x (e - b) false h
    rw [if_neg (by simp)] at hadv
    rw [← hadv, List.append_assoc]
  | .insert n :: rest, x, sb, h => by
    rw [show insertedSubsetGo (.insert n :: rest) x sb
        = insertedSubsetGo rest (x + n.length) (sbAddRange sb x (x + n.length)) from rfl]
    rw [show totalElementLen (DeltaElement.insert n :: rest)
        = n.length + totalElementLen rest from by simp [totalElementLen_eq, DeltaElement.len]]
    rw [show insMarks (.insert n :: rest)
        = List.replicate n.length true ++ insMarks rest from rfl]
    rw [show x + (n.length + totalElementLen rest)
        = (x + n.length) + totalElementLen rest from by omega]
    have hsb' : (sbAddRange sb x (x + n.length)).length ≤ x + n.length := by
      rw [sbAddRange_length]
      omega
    rw [insertedSubsetGo_closed rest (x + n.length) (sbAddRange sb x (x + n.length)) hsb']
    have hsbeq : sbAddRange sb x (x + n.length) = padTo x sb ++ List.replicate n.length true := by
      unfold sbAddRange padTo
      rw [show x + n.length - max x sb.length = n.length from by omega]
    have hptlen : (padTo x sb ++ List.replicate n.length true).length = x + n.length := by
      rw [List.length_append, padTo_length x sb h, List.length_replicate]
    rw [hsbeq, padTo_self _ _ hptlen, List.append_assoc]

/-- The padded `inserted_subset` of a delta is exactly its element
marks. -/
theorem inserted_subset_closed (d : Delta) :
    padTo (totalElementLen d.els) d.inserted_subset = insMarks d.els := by
  have := insertedSubsetGo_closed d.els 0 [] (by simp)
  simpa [Delta.inserted_subset, padTo] using this

theorem te_replicate_false : ∀ (s : Subset) (k : Nat),
    Subset.transform_expand s (List.replicate k false)
      = s ++ List.replicate (k - s.length) false
  | s, 0 => by simp [Subset.transform_expand]
  | [], k + 1 => by
    rw [List.replicate_succ]
    rw [show Subset.transform_expand [] (false :: List.replicate k false)
        = false :: Subset.transform_expand [] (List.replicate k false) from rfl]
    rw [te_replicate_false [] k]
    simp [List.replicate_succ]
  | a :: s, k + 1 => by
    rw [List.replicate_succ]
    rw [show Subset.transform_expand (a :: s) (false :: List.replicate k false)
        = a :: Subset.transform_expand s (List.replicate k false) from rfl]
    rw [te_replicate_false s k]
    simp

theorem te_append_false : ∀ (I : List Bool) (s : Subset) (k : Nat),
    ∃ j, Subset.transform_expand s (I ++ List.replicate k false)
      = Subset.transform_expand s I ++ List.replicate j false
  | [], s, k => by
    refine ⟨k - s.length, ?_⟩
    rw [List.nil_append]
    rw [show Subset.transform_expand s [] = s from by cases s <;> rfl]
    exact te_replicate_false s k
  | true :: I, s, k => by
    obtain ⟨j, hj⟩ := te_append_false I s k
    refine ⟨j, ?_⟩
    rw [List.cons_append]
    rw [show Subset.transform_expand s (true :: (I ++ List.replicate k false))
        = false :: Subset.transform_expand s (I ++ List.replicate k false) from by
      cases s <;> rfl]
    rw [show Subset.transform_expand s (true :: I)
        = false :: Subset.transform_expand s I from by cases s <;> rfl]
    rw [hj]
    rfl
  | false :: I, [], k => by
    obtain ⟨j, hj⟩ := te_append_false I [] k
    refine ⟨j, ?_⟩
    rw [List.cons_append]
    rw [show Subset.transform_expand [] (false :: (I ++ List.replicate k false))
        = false :: Subset.transform_expand [] (I ++ List.replicate k false) from rfl]
    rw [show Subset.transform_expand [] (false :: I)
        = false :: Subset.transform_expand [] I from rfl]
    rw [hj]
    rfl
  | false :: I, a :: s, k => by
    obtain ⟨j, hj⟩ := te_append_false I s k
    refine ⟨j, ?_⟩
    rw [List.cons_append]
    rw [show Subset.transform_expand (a :: s) (false :: (I ++ List.replicate k false))
        = a :: Subset.transform_expand s (I ++ List.replicate k false) from rfl]
    rw [show Subset.transform_expand (a :: s) (false :: I)
        = a :: Subset.transform_expand s I from rfl]
    rw [hj]
    rfl

theorem te_prefix_false : ∀ (k : Nat) (s : Subset) (M : List Bool), k ≤ s.length →
    Subset.transform_expand s (List.replicate k false ++ M)
      = s.take k ++ Subset.transform_expand (s.drop k) M
  | 0, s, M, _ => by simp
  | k + 1, [], M, h => by simp at h
  | k + 1, a :: s, M, h => by
    rw [List.replicate_succ, List.cons_append]
    rw [show Subset.transform_expand (a :: s) (false :: (List.replicate k false ++ M))
        = a :: Subset.transform_expand s (List.replicate k false ++ M) from rfl]
    rw [te_prefix_false k s M (by simpa using h)]
    simp

theorem te_prefix_true : ∀ (j : Nat) (s : Subset) (M : List Bool),
    Subset.transform_expand s (List.replicate j true ++ M)
      = List.replicate j false ++ Subset.transform_expand s M
  | 0, s, M => by simp
  | j + 1, s, M => by
    rw [List.replicate_succ, List.cons_append]
    rw [show Subset.transform_expand s (true :: (List.replicate j true ++ M))
        = false :: Subset.transform_expand s (List.replicate j true ++ M) from by
      cases s <;> rfl]
    rw [te_prefix_true j s M]
    simp [List.replicate_succ]

/-- Removing the inserted positions of a tiling insert-delta from its
applied document recovers the base suffix. -/
theorem insMarks_filterKept : ∀ (els : List DeltaElement) (lo L : Nat) (s : Rope),
    ElsTiling lo els L → s.length = L →
    filterKept (insMarks els) (applyEls els s) = s.drop lo
  | [], lo, L, s, ht, hs => by
    have : lo = L := ht
    subst this
    rw [show insMarks [] = [] from rfl]
    rw [show applyEls [] s = [] from rfl]
    rw [filterKept_nil_left]
    rw [List.drop_eq_nil_of_le (by omega)]
  | .copy b e :: rest, lo, L, s, ht, hs => by
    obtain ⟨hb, hle, htrest⟩ := ht
    subst hb
    have heL : e ≤ L := elsTiling_le e rest L htrest
    rw [show insMarks (.copy b e :: rest)
        = List.replicate (e - b) false ++ insMarks rest from rfl]
    rw [show applyEls (.copy b e :: rest) s
        = (s.drop b).take (e - b) ++ applyEls rest s from by simp [applyEls, elemApply]]
    rw [filterKept_append_exact _ _ _ _ (by
      rw [List.length_replicate, List.length_take, List.length_drop]
      omega)]
    rw [filterKept_replicate_false]
    rw [insMarks_filterKept rest e L s htrest hs]
    rw [show s.drop e = (s.drop e).take (L - e) from
      (List.take_of_length_le (by rw [List.length_drop]; omega)).symm]
    rw [drop_take_join s b e L hle heL]
    rw [List.take_of_length_le (by rw [List.length_drop]; omega)]
  | .insert n :: rest, lo, L, s, ht, hs => by
    rw [show insMarks (.insert n :: rest)
        = List.replicate n.length true ++ insMarks rest from rfl]
    rw [show applyEls (.insert n :: rest) s
        = n ++ applyEls rest s from by simp [applyEls, elemApply]]
    rw [filterKept_append_exact _ _ _ _ (by simp)]
    rw [filterKept_replicate_true n.length n (le_refl _)]
    rw [insMarks_filterKept rest lo L s ht hs]
    simp

/-- Expanding a deletion suffix through the marks of a tiling
insert-delta and selecting the kept part of the applied document
computes the per-element selection. -/
theorem te_marks_select : ∀ (els : List DeltaElement) (lo L : Nat) (s0 : Rope)
    (delsuf : Subset),
    ElsTiling lo els L → s0.length = L → delsuf.length = L - lo →
    filterKept (Subset.transform_expand delsuf (insMarks els)) (applyEls els s0)
      = selApply els delsuf (s0.drop lo)
  | [], lo, L, s0, delsuf, ht, hs, hd => by
    have : lo = L := ht
    subst this
    rw [show insMarks [] = [] from rfl]
    rw [show applyEls [] s0 = [] from rfl]
    rw [show selApply [] delsuf (s0.drop lo) = [] from rfl]
    exact filterKept_nil _
  | .copy b e :: rest, lo, L, s0, delsuf, ht, hs, hd => by
    obtain ⟨hb, hle, htrest⟩ := ht
    subst hb
    have heL : e ≤ L := elsTiling_le e rest L htrest
    rw [show insMarks (.copy b e :: rest)
        = List.replicate (e - b) false ++ insMarks rest from rfl]
    rw [te_prefix_false (e - b) delsuf (insMarks rest) (by omega)]
    rw [show applyEls (.copy b e :: rest) s0
        = (s0.drop b).take (e - b) ++ applyEls rest s0 from by simp [applyEls, elemApply]]
    rw [filterKept_append_exact _ _ _ _ (by
      rw [List.length_take, List.length_take, List.length_drop]
      omega)]
    rw [te_marks_select rest e L s0 (delsuf.drop (e - b)) htrest hs (by
      rw [List.length_drop]
      omega)]
    rw [show selApply (.copy b e :: rest) delsuf (s0.drop b)
        = filterKept (delsuf.take (e - b)) ((s0.drop b).take (e - b))
          ++ selApply rest (delsuf.drop (e - b)) ((s0.drop b).drop (e - b)) from rfl]
    rw [List.drop_drop]
    rw [show b + (e - b) = e from by omega]
  | .insert n :: rest, lo, L, s0, delsuf, ht, hs, hd => by
    rw [show insMarks (.insert n :: rest)
        = List.replicate n.length true ++ insMarks rest from rfl]
    rw [te_prefix_true n.length delsuf (insMarks rest)]
    rw [show applyEls (.insert n :: rest) s0
        = n ++ applyEls rest s0 from by simp [applyEls, elemApply]]
    rw [filterKept_append_exact _ _ _ _ (by simp)]
    rw [filterKept_replicate_false]
    rw [te_marks_select rest lo L s0 delsuf ht hs hd]
    rw [show selApply (.insert n :: rest) delsuf (s0.drop lo)
        = n ++ selApply rest delsuf (s0.drop lo) from rfl]

theorem sbAddRange_norm (sb : List Bool) (a c : Nat) (h : sb.length ≤ a) :
    sbAddRange sb a c = padTo a sb ++ List.replicate (c - a) true := by
  unfold sbAddRange padTo
  rw [show max a sb.length = a from by omega]

theorem factorGo_ins_prefix : ∀ (els : List DeltaElement) (b1 e1 : Nat)
    (ins0 ins : List DeltaElement) (sb : List Bool),
    (factorGo els b1 e1 (ins0 ++ ins) sb).1 = ins0 ++ (factorGo els b1 e1 ins sb).1 ∧
      (factorGo els b1 e1 (ins0 ++ ins) sb).2 = (factorGo els b1 e1 ins sb).2
  | [], b1, e1, ins0, ins, sb => ⟨rfl, rfl⟩
  | .copy b e :: rest, b1, e1, ins0, ins, sb => by
    rw [show factorGo (.copy b e :: rest) b1 e1 (ins0 ++ ins) sb
        = factorGo rest b1 e (ins0 ++ ins) (sbAddRange sb e1 b) from rfl]
    rw [show factorGo (.copy b e :: rest) b1 e1 ins sb
        = factorGo rest b1 e ins (sbAddRange sb e1 b) from rfl]
    exact factorGo_ins_prefix rest b1 e ins0 ins (sbAddRange sb e1 b)
  | .insert n :: rest, b1, e1, ins0, ins, sb => by
    rw [show factorGo (.insert n :: rest) b1 e1 (ins0 ++ ins) sb
        = factorGo rest e1 e1
            ((ins0 ++ ins) ++ (if e1 > b1 then [.copy b1 e1] else []) ++ [.insert n])
            sb from rfl]
    rw [show factorGo (.insert n :: rest) b1 e1 ins sb
        = factorGo rest e1 e1
            (ins ++ (if e1 > b1 then [.copy b1 e1] else []) ++ [.insert n]) sb from rfl]
    rw [show (ins0 ++ ins) ++ (if e1 > b1 then [DeltaElement.copy b1 e1] else [])
          ++ [DeltaElement.insert n]
        = ins0 ++ (ins ++ (if e1 > b1 then [DeltaElement.copy b1 e1] else [])
          ++ [DeltaElement.insert n]) from by simp [List.append_assoc]]
    exact factorGo_ins_prefix rest e1 e1 ins0 _ sb

theorem factorGo_del_closed : ∀ (els : List DeltaElement) (b1 e1 : Nat)
    (ins : List DeltaElement) (sb : List Bool) (L : Nat),
    ElsWF e1 els L → sb.length ≤ e1 →
    sbAddRange (factorGo els b1 e1 ins sb).2.1 (factorGo els b1 e1 ins sb).2.2.2 L
      = padTo e1 sb ++ delMarks els e1 L
  | [], b1, e1, ins, sb, L, hwf, hsb => by
    rw [show factorGo [] b1 e1 ins sb = (ins, sb, b1, e1) from rfl]
    rw [show delMarks [] e1 L = List.replicate (L - e1) true from rfl]
    exact sbAddRange_norm sb e1 L hsb
  | .copy b e :: rest, b1, e1, ins, sb, L, hwf, hsb => by
    obtain ⟨he1b, hbe, hwfrest⟩ := hwf
    rw [show factorGo (.copy b e :: rest) b1 e1 ins sb
        = factorGo rest b1 e ins (sbAddRange sb e1 b) from rfl]
    have hsb' : (sbAddRange sb e1 b).length ≤ e := by
      rw [sbAddRange_length]
      omega
    rw [factorGo_del_closed rest b1 e ins (sbAddRange sb e1 b) L hwfrest hsb']
    rw [show delMarks (.copy b e :: rest) e1 L
        = List.replicate (b - e1) true ++ List.replicate (e - b) false
          ++ delMarks rest e L from rfl]
    rw [sbAddRange_norm sb e1 b hsb]
    have hlen : (padTo e1 sb ++ List.replicate (b - e1) true).length = b := by
      rw [List.length_append, padTo_length e1 sb hsb, List.length_replicate]
      omega
    rw [show padTo e (padTo e1 sb ++ List.replicate (b - e1) true)
        = (padTo e1 sb ++ List.replicate (b - e1) true)
          ++ List.replicate (e - b) false from by
      unfold padTo
      rw [show (sb ++ List.replicate (e1 - sb.length) false
            ++ List.replicate (b - e1) true).length = b from by
        simp only [List.length_append, List.length_replicate]
        omega]]
    rw [List.append_assoc, List.append_assoc, List.append_assoc]
  | .insert n :: rest, b1, e1, ins, sb, L, hwf, hsb => by
    rw [show factorGo (.insert n :: rest) b1 e1 ins sb
        = factorGo rest e1 e1
            (ins ++ (if e1 > b1 then [.copy b1 e1] else []) ++ [.insert n]) sb from rfl]
    rw [factorGo_del_closed rest e1 e1 _ sb L hwf hsb]
    rfl

/-- The insert-delta produced by `factor`, applied through the
produced deletion marks, reproduces the original delta; `pre` is the
already-fixed deletion prefix of the pending copy region `[b1, e1)`. -/
theorem factor_selApply : ∀ (els : List DeltaElement) (b1 e1 : Nat) (sb : List Bool)
    (L : Nat) (s0 : Rope) (pre : List Bool),
    ElsWF e1 els L → b1 ≤ e1 → s0.length = L → pre.length = e1 - b1 →
    selApply ((factorGo els b1 e1 [] sb).1
        ++ (if (factorGo els b1 e1 [] sb).2.2.1 < L
            then [.copy (factorGo els b1 e1 [] sb).2.2.1 L] else []))
      (pre ++ delMarks els e1 L) (s0.drop b1)
    = filterKept pre ((s0.drop b1).take (e1 - b1)) ++ applyEls els s0
  | [], b1, e1, sb, L, s0, pre, hwf, hb1, hs, hpre => by
    have he1L : e1 ≤ L := hwf
    rw [show (factorGo ([] : List DeltaElement) b1 e1 [] sb).1
          ++ (if (factorGo ([] : List DeltaElement) b1 e1 [] sb).2.2.1 < L
              then [DeltaElement.copy (factorGo ([] : List DeltaElement) b1 e1 [] sb).2.2.1 L]
              else [])
        = (if b1 < L then [DeltaElement.copy b1 L] else []) from rfl]
    rw [show delMarks [] e1 L = List.replicate (L - e1) true from rfl]
    rw [show applyEls [] s0 = [] from rfl]
    have hsplit : s0.drop b1 = (s0.drop b1).take (e1 - b1) ++ s0.drop e1 := by
      rw [show s0.drop e1 = (s0.drop b1).drop (e1 - b1) from by
        rw [List.drop_drop, show b1 + (e1 - b1) = e1 from by omega]]
      rw [List.take_append_drop]
    by_cases hb1L : b1 < L
    · rw [if_pos hb1L]
      rw [show selApply [DeltaElement.copy b1 L]
            (pre ++ List.replicate (L - e1) true) (s0.drop b1)
          = filterKept ((pre ++ List.replicate (L - e1) true).take (L - b1))
              ((s0.drop b1).take (L - b1))
            ++ selApply [] ((pre ++ List.replicate (L - e1) true).drop (L - b1))
              ((s0.drop b1).drop (L - b1)) from rfl]
      rw [show ∀ (x : Subset) (y : Rope), selApply [] x y = [] from fun x y => rfl]
      rw [List.take_of_length_le (show
        (pre ++ List.replicate (L - e1) true).length ≤ L - b1 from by
          rw [List.length_append, List.length_replicate]
          omega)]
      rw [List.take_of_length_le (show (s0.drop b1).length ≤ L - b1 from by
        rw [List.length_drop]
        omega)]
      conv_lhs => rw [hsplit]
      rw [filterKept_append_exact pre ((s0.drop b1).take (e1 - b1))
        (List.replicate (L - e1) true) (s0.drop e1) (by
          rw [hpre, List.length_take, List.length_drop]
          omega)]
      rw [filterKept_replicate_true (L - e1) (s0.drop e1) (by
        rw [List.length_drop]
        omega)]
      simp
    · rw [if_neg hb1L]
      have hprenil : pre = [] := List.length_eq_zero.mp (by omega)
      subst hprenil
      rw [show selApply [] (([] : List Bool) ++ List.replicate (L - e1) true)
          (s0.drop b1) = [] from rfl]
      rw [show e1 - b1 = 0 from by omega]
      simp [filterKept_nil_left]
  | .copy b e :: rest, b1, e1, sb, L, s0, pre, hwf, hb1, hs, hpre => by
    obtain ⟨he1b, hbe, hwfrest⟩ := hwf
    have heL : e ≤ L := elswf_le rest hwfrest
    rw [show factorGo (.copy b e :: rest) b1 e1 [] sb
        = factorGo rest b1 e [] (sbAddRange sb e1 b) from rfl]
    rw [show delMarks (.copy b e :: rest) e1 L
        = List.replicate (b - e1) true ++ List.replicate (e - b) false
          ++ delMarks rest e L from rfl]
    have ih := factor_selApply rest b1 e (sbAddRange sb e1 b) L s0
      (pre ++ List.replicate (b - e1) true ++ List.replicate (e - b) false)
      hwfrest (by omega) hs (by
        rw [List.length_append, List.length_append, List.length_replicate,
          List.length_replicate, hpre]
        omega)
    rw [show pre ++ (List.replicate (b - e1) true ++ List.replicate (e - b) false
          ++ delMarks rest e L)
        = pre ++ List.replicate (b - e1) true ++ List.replicate (e - b) false
          ++ delMarks rest e L from by simp [List.append_assoc]]
    rw [ih]
    rw [show applyEls (.copy b e :: rest) s0
        = (s0.drop b).take (e - b) ++ applyEls rest s0 from by
          simp [applyEls, elemApply]]
    have h1 : (s0.drop b1).take (e1 - b1) ++ (s0.drop e1).take (b - e1)
        ++ (s0.drop b).take (e - b) = (s0.drop b1).take (e - b1) := by
      rw [List.append_assoc, drop_take_join s0 e1 b e he1b hbe,
        drop_take_join s0 b1 e1 e hb1 (le_trans he1b hbe)]
    rw [← h1]
    rw [filterKept_append_exact (pre ++ List.replicate (b - e1) true)
      ((s0.drop b1).take (e1 - b1) ++ (s0.drop e1).take (b - e1))
      (List.replicate (e - b) false) ((s0.drop b).take (e - b)) (by
        rw [List.length_append, List.length_append, List.length_replicate,
          List.length_take, List.length_take, List.length_drop, List.length_drop,
          hpre]
        omega)]
    rw [filterKept_append_exact pre ((s0.drop b1).take (e1 - b1))
      (List.replicate (b - e1) true) ((s0.drop e1).take (b - e1)) (by
        rw [hpre, List.length_take, List.length_drop]
        omega)]
    rw [filterKept_replicate_true (b - e1) ((s0.drop e1).take (b - e1)) (by
      rw [List.length_take, List.length_drop]
      omega)]
    rw [filterKept_replicate_false (e - b) ((s0.drop b).take (e - b))]
    simp [List.append_assoc]
  | .insert n :: rest, b1, e1, sb, L, s0, pre, hwf, hb1, hs, hpre => by
    rw [show factorGo (.insert n :: rest) b1 e1 [] sb
        = factorGo rest e1 e1
            ((if e1 > b1 then [DeltaElement.copy b1 e1] else [])
              ++ [DeltaElement.insert n]) sb from rfl]
    rw [show delMarks (.insert n :: rest) e1 L = delMarks rest e1 L from rfl]
    rw [show applyEls (.insert n :: rest) s0 = n ++ applyEls rest s0 from by
      simp [applyEls, elemApply]]
    have hpx := factorGo_ins_prefix rest e1 e1
      ((if e1 > b1 then [DeltaElement.copy b1 e1] else []) ++ [DeltaElement.insert n])
      [] sb
    rw [List.append_nil] at hpx
    rw [hpx.1, hpx.2]
    have ih := factor_selApply rest e1 e1 sb L s0 [] hwf (le_refl e1) hs (by simp)
    rw [List.nil_append, Nat.sub_self, List.take_zero, filterKept_nil_left,
      List.nil_append] at ih
    by_cases hgt : e1 > b1
    · rw [if_pos hgt]
      rw [show ([DeltaElement.copy b1 e1] ++ [DeltaElement.insert n])
            ++ (factorGo rest e1 e1 [] sb).1
            ++ (if (factorGo rest e1 e1 [] sb).2.2.1 < L
                then [DeltaElement.copy (factorGo rest e1 e1 [] sb).2.2.1 L] else [])
          = DeltaElement.copy b1 e1 :: DeltaElement.insert n
              :: ((factorGo rest e1 e1 [] sb).1
                ++ (if (factorGo rest e1 e1 [] sb).2.2.1 < L
                    then [DeltaElement.copy (factorGo rest e1 e1 [] sb).2.2.1 L]
                    else [])) from by simp]
      rw [show selApply (DeltaElement.copy b1 e1 :: DeltaElement.insert n
            :: ((factorGo rest e1 e1 [] sb).1
              ++ (if (factorGo rest e1 e1 [] sb).2.2.1 < L
                  then [DeltaElement.copy (factorGo rest e1 e1 [] sb).2.2.1 L]
                  else [])))
            (pre ++ delMarks rest e1 L) (s0.drop b1)
          = filterKept ((pre ++ delMarks rest e1 L).take (e1 - b1))
              ((s0.drop b1).take (e1 - b1))
            ++ (n ++ selApply ((factorGo rest e1 e1 [] sb).1
              ++ (if (factorGo rest e1 e1 [] sb).2.2.1 < L
                  then [DeltaElement.copy (factorGo rest e1 e1 [] sb).2.2.1 L]
                  else []))
              ((pre ++ delMarks rest e1 L).drop (e1 - b1))
              ((s0.drop b1).drop (e1 - b1))) from rfl]
      have htk : (pre ++ delMarks rest e1 L).take (e1 - b1) = pre := by
        have h := List.take_left pre (delMarks rest e1 L)
        rw [hpre] at h
        exact h
      have hdr : (pre ++ delMarks rest e1 L).drop (e1 - b1) = delMarks rest e1 L := by
        have h := List.drop_left pre (delMarks rest e1 L)
        rw [hpre] at h
        exact h
      rw [htk, hdr]
      rw [show (s0.drop b1).drop (e1 - b1) = s0.drop e1 from by
        rw [List.drop_drop, show b1 + (e1 - b1) = e1 from by omega]]
      rw [ih]
    · rw [if_neg hgt]
      have hb1e1 : b1 = e1 := by omega
      subst hb1e1
      have hprenil : pre = [] := List.length_eq_zero.mp (by omega)
      subst hprenil
      rw [show (([] : List DeltaElement) ++ [DeltaElement.insert n])
            ++ (factorGo rest b1 b1 [] sb).1
            ++ (if (factorGo rest b1 b1 [] sb).2.2.1 < L
                then [DeltaElement.copy (factorGo rest b1 b1 [] sb).2.2.1 L] else [])
          = DeltaElement.insert n
              :: ((factorGo rest b1 b1 [] sb).1
                ++ (if (factorGo rest b1 b1 [] sb).2.2.1 < L
                    then [DeltaElement.copy (factorGo rest b1 b1 [] sb).2.2.1 L]
                    else [])) from by simp]
      rw [show selApply (DeltaElement.insert n
            :: ((factorGo rest b1 b1 [] sb).1
              ++ (if (factorGo rest b1 b1 [] sb).2.2.1 < L
                  then [DeltaElement.copy (factorGo rest b1 b1 [] sb).2.2.1 L]
                  else [])))
            (([] : List Bool) ++ delMarks rest b1 L) (s0.drop b1)
          = n ++ selApply ((factorGo rest b1 b1 [] sb).1
              ++ (if (factorGo rest b1 b1 [] sb).2.2.1 < L
                  then [DeltaElement.copy (factorGo rest b1 b1 [] sb).2.2.1 L]
                  else []))
              (([] : List Bool) ++ delMarks rest b1 L) (s0.drop b1) from rfl]
      rw [List.nil_append]
      rw [ih]
      rw [Nat.sub_self, List.take_zero, filterKept_nil_left, List.nil_append]

/-- C1: for every well-formed `Delta` `d` and sequence `s` with
`|s| = d.base_len`, factoring `d` into an insert-only delta `ins` and a
deletion subset `del`, expanding `del` through `ins`'s inserted subset,
applying `ins` to `s` to obtain the union string `u`, and extracting
the tombstones as the inserted positions of `u`, the delta
re-synthesized from those tombstones and subsets, applied to `s`,
equals `d` applied to `s` — `synthesize` inverts `factor`. -/
theorem C1_factor_synthesize_roundtrip (d : Delta) (s : Rope)
    (hwf : d.WF) (hs : s.length = d.base_len) :
    (Delta.synthesize
        (Subset.delete_from
          (Subset.complement d.factor.1.inserted_subset (d.factor.1.apply s).length)
          (d.factor.1.apply s))
        d.factor.1.inserted_subset
        (d.factor.1.apply s).length
        d.factor.1.inserted_subset
        (Subset.transform_expand d.factor.2 d.factor.1.inserted_subset)).apply s
      = d.apply s := by
  obtain ⟨htile, hinsl, hbase, hdellen⟩ := factor_struct d hwf
  set ins := d.factor.1 with hins
  set del := d.factor.2 with hdel
  set nI := ins.inserted_subset with hnI
  set u := ins.apply s with hudef
  set del' := Subset.transform_expand del nI with hd'
  have hulen : u.length = totalElementLen ins.els := by
    rw [hudef, apply_eq_applyEls]
    exact applyEls_length_tiling ins.els 0 d.base_len s htile hs.ge
  have htot : totalElementLen ins.els + 0 = d.base_len + insTotal ins.els :=
    elsTiling_totalLen 0 ins.els d.base_len htile
  have hnctr : countTrue nI = insTotal ins.els := (inserted_subset_spec ins).1
  have hnlen : nI.length ≤ totalElementLen ins.els := (inserted_subset_spec ins).2
  have hnu : nI.length ≤ u.length := by omega
  have hcf : countTrue nI + countFalse nI = nI.length := countTrue_add_countFalse nI
  have hdl : del'.length = nI.length + (del.length - countFalse nI) :=
    transform_expand_length del nI
  have hdlu : del'.length = u.length := by omega
  have htomb : Subset.delete_from (Subset.complement nI u.length) u
      = filterDel nI u := by
    show filterKept ((padTo u.length nI).map (fun b => !b)) u = filterDel nI u
    rw [filterKept_map_not (padTo u.length nI) u (padTo_length u.length nI hnu).ge]
    exact filterDel_padTo nI u.length u
  have hA : filterKept nI u = s := by
    rw [← filterKept_padTo nI (totalElementLen ins.els) u, hnI,
      inserted_subset_closed ins, hudef, apply_eq_applyEls]
    rw [insMarks_filterKept ins.els 0 d.base_len s htile hs]
    exact List.drop_zero s
  have hmarks : insMarks ins.els
      = nI ++ List.replicate (totalElementLen ins.els - nI.length) false := by
    rw [← inserted_subset_closed ins, hnI]
    rfl
  obtain ⟨j, hj⟩ := te_append_false nI del (totalElementLen ins.els - nI.length)
  have hB : filterKept (padTo u.length del') u = d.apply s := by
    rw [padTo_self del' u.length hdlu]
    have h1 : filterKept del' u
        = filterKept (Subset.transform_expand del (insMarks ins.els)) u := by
      rw [hmarks, hj, filterKept_append_false_right, hd']
    rw [h1, hudef, apply_eq_applyEls]
    rw [te_marks_select ins.els 0 d.base_len s del htile hs (by omega)]
    rw [List.drop_zero]
    have hfs := factor_selApply d.els 0 0 [] d.base_len s [] hwf (le_refl 0) hs rfl
    rw [List.nil_append, List.drop_zero, Nat.sub_self, List.take_zero,
      filterKept_nil_left, List.nil_append] at hfs
    have hdelm : del = delMarks d.els 0 d.base_len := by
      rw [hdel]
      have hclosed := factorGo_del_closed d.els 0 0 [] [] d.base_len hwf (le_refl 0)
      rw [show d.factor.2 = sbAddRange (factorGo d.els 0 0 [] []).2.1
          (factorGo d.els 0 0 [] []).2.2.2 d.base_len from rfl, hclosed]
      rfl
    rw [hdelm, hins, apply_eq_applyEls]
    exact hfs
  rw [htomb]
  conv_lhs => rw [← hA]
  rw [synthesize_apply u nI del' u.length rfl hnu hdlu.le]
  exact hB

/-- Claim C1, witness: the round-trip at a concrete delta (delete one
character and insert another) on the document `"abc"`. -/
theorem C1_witness :
    (Delta.synthesize
        (Subset.delete_from
          (Subset.complement
            (Delta.factor ⟨[.copy 0 1, .insert "X".toList, .copy 2 3], 3⟩).1.inserted_subset
            ((Delta.factor ⟨[.copy 0 1, .insert "X".toList, .copy 2 3], 3⟩).1.apply
              "abc".toList).length)
          ((Delta.factor ⟨[.copy 0 1, .insert "X".toList, .copy 2 3], 3⟩).1.apply
            "abc".toList))
        (Delta.factor ⟨[.copy 0 1, .insert "X".toList, .copy 2 3], 3⟩).1.inserted_subset
        ((Delta.factor ⟨[.copy 0 1, .insert "X".toList, .copy 2 3], 3⟩).1.apply
          "abc".toList).length
        (Delta.factor ⟨[.copy 0 1, .insert "X".toList, .copy 2 3], 3⟩).1.inserted_subset
        (Subset.transform_expand
          (Delta.factor ⟨[.copy 0 1, .insert "X".toList, .copy 2 3], 3⟩).2
          (Delta.factor ⟨[.copy 0 1, .insert "X".toList, .copy 2 3], 3⟩).1.inserted_subset)).apply
      "abc".toList
    = Delta.apply ⟨[.copy 0 1, .insert "X".toList, .copy 2 3], 3⟩ "abc".toList :=
  C1_factor_synthesize_roundtrip ⟨[.copy 0 1, .insert "X".toList, .copy 2 3], 3⟩
    "abc".toList ⟨by decide, by decide, by decide, by decide, Nat.le_refl 3⟩ (by decide)

end XiRope
